import Mathlib

/-!
# Apollova timeline synchronisation: segment scan and word reveal

Shallow embedding of the per-frame expressions that the Apollova injection
scripts attach to the lyric text layer, and of the data the scripts embed in
them.

* `Apollova-Nova/scripts/apollova-nova-injection.jsx`,
  `injectNovaSegmentsToLyricText`: builds the text of an expression that holds
  a `segments` array literal, scans it from the end for the current segment and
  concatenates the already started words.
* `Visuals-Nova/scripts/visuals-nova-injection.jsx`,
  `getWordRevealExpression` and `getColorFlipExpression`: scan the markers of
  the `AUDIO` layer from the front with an early `break`; `addMarkersToLayer`
  places the markers, which the host keeps in time order.

* `Apollova-Installer/scripts/JSX/Apollova-{Aurora,Mono,Onyx}-Injection.jsx`:
  the batch loop and report of `main`, `processJob`, the marker builders and
  the `JSON.stringify` polyfill; `scripts/automateMV_batch.jsx`,
  `parseLyricsFile` and `replaceLyricArrayInLayer`.
* `Apollova-Nova/scripts/apollova-nova-injection.jsx`, `main`,
  `escapeForExpression` and `sanitizeFilename`.

Times are JavaScript numbers in the source.  They are embedded as rationals:
every comparison the expressions make is an order comparison, and `NaN` never
reaches the Nova expression because the generator writes `Number(x) || 0`.
Strings are Lean strings.
-/

namespace Apollova

/-! ## Data embedded in the Nova expression -/

/-- One element of a `words` array: the object literal
`{word:"...",start:...,end:...}` of the generated expression, and equally a
word object inside a Visuals-Nova marker payload. -/
structure Word where
  word : String
  start : ℚ
  endTime : ℚ
deriving DecidableEq, Repr

/-- One element of the `segments` array literal of the generated expression:
`{text:"...",time:...,words:[...]}`. -/
structure Segment where
  text : String
  time : ℚ
  words : List Word
deriving DecidableEq, Repr

/-! ## The Nova expression (`injectNovaSegmentsToLyricText`, lines 376-392) -/

/-- The loop `for (var i = segments.length - 1; i >= 0; i--)` with the body
`if (time >= segments[i].time) { currentSeg = segments[i]; break; }`.
The argument `n` is `i + 1`: at `0` the loop condition `i >= 0` fails and
`currentSeg` keeps its initial value `null`.  The result carries the index `i`
together with the selected object `segments[i]`. -/
def novaScanFrom (segments : List Segment) (time : ℚ) : Nat → Option (Nat × Segment)
  | 0 => none
  | n + 1 =>
    match segments[n]? with
    | some s => if s.time ≤ time then some (n, s) else novaScanFrom segments time n
    | none => novaScanFrom segments time n

/-- The current-segment scan of the Nova expression, started at
`i = segments.length - 1`. -/
def novaScan (segments : List Segment) (time : ℚ) : Option (Nat × Segment) :=
  novaScanFrom segments time segments.length

/-- The value of `currentSeg` after the scan (`none` is `null`). -/
def currentSeg (segments : List Segment) (time : ℚ) : Option Segment :=
  (novaScan segments time).map Prod.snd

/-- The white space class `\s` of a JavaScript regular expression. -/
def jsWhitespace (c : Char) : Bool :=
  c = ' ' || c = '\t' || c = '\n' || c = '\r' || c.toNat = 0x0B || c.toNat = 0x0C ||
  c.toNat = 0xA0 || c.toNat = 0x1680 || (0x2000 ≤ c.toNat && c.toNat ≤ 0x200A) ||
  c.toNat = 0x2028 || c.toNat = 0x2029 || c.toNat = 0x202F || c.toNat = 0x205F ||
  c.toNat = 0x3000 || c.toNat = 0xFEFF

/-- The call `output.replace(/\s+$/, "")`: the one match of `\s+$` is the
maximal run of white space that ends the string, and it is removed. -/
def jsTrimEnd (s : String) : String :=
  String.mk (s.data.rdropWhile jsWhitespace)

/-- The loop `for (var w = 0; w < currentSeg.words.length; w++)` with the body
`if (time >= currentSeg.words[w].start) { output += currentSeg.words[w].word + " "; }`,
started from `output = ""`. -/
def novaWordLoop (words : List Word) (time : ℚ) : String :=
  words.foldl (fun output w => if w.start ≤ time then output ++ (w.word ++ " ") else output) ""

/-- The value of `output` when the last statement of the expression is
reached.  `currentSeg.words` is an array literal in every embedded segment, and
an array is truthy even when it is empty, so the guard
`currentSeg && currentSeg.words` fails only for `currentSeg = null`. -/
def novaOutput (segments : List Segment) (time : ℚ) : String :=
  match currentSeg segments time with
  | some seg => novaWordLoop seg.words time
  | none => ""

/-- The value of the whole Nova expression at playback time `time`: its last
statement `output.replace(/\s+$/, "")`. -/
def novaExpression (segments : List Segment) (time : ℚ) : String :=
  jsTrimEnd (novaOutput segments time)

/-! ## Building the `segments` array (`injectNovaSegmentsToLyricText`, lines 345-370) -/

/-- A word record of the job data, as read from the lyrics file.  A field that
is absent from the record is `none`; for the numeric fields `none` also stands
for a value that `Number` turns into `NaN`. -/
structure RawWord where
  word : Option String
  start : Option ℚ
  endTime : Option ℚ
deriving DecidableEq, Repr

/-- A marker record of the job data (`markers[k]`). -/
structure RawMarker where
  text : Option String
  time : Option ℚ
  words : Option (List RawWord)
deriving DecidableEq, Repr

/-- The idiom `Number(x) || 0`: a missing field gives `Number(undefined) = NaN`,
which is falsy, so the value is `0`; a number that is `0` is falsy too and also
gives `0`. -/
def numberOrZero (x : Option ℚ) : ℚ :=
  match x with
  | some v => v
  | none => 0

/-- The idiom `x || ""` on a string field: a missing field and the empty string
are both falsy. -/
def stringOrEmpty (x : Option String) : String :=
  match x with
  | some v => v
  | none => ""

/-- The number written by `x.toFixed(3)` and read back by the expression engine:
`x` rounded to three decimals, a tie going away from zero. -/
def toFixed3 (x : ℚ) : ℚ :=
  if x < 0 then -((⌊(-x) * 1000 + 1 / 2⌋ : ℤ) : ℚ) / 1000
  else ((⌊x * 1000 + 1 / 2⌋ : ℤ) : ℚ) / 1000

/-- One `String.prototype.replace` call with a one-character global pattern:
every occurrence of `c` is replaced by the characters `r`. -/
def replaceAll (c : Char) (r : List Char) : List Char → List Char
  | [] => []
  | x :: xs => if x = c then r ++ replaceAll c r xs else x :: replaceAll c r xs

/-- The function `escapeForExpression`: `if (!str) return ""`, then the four
replacements in source order: backslash, double quote, carriage return, line
feed. -/
def escapeForExpression (str : String) : String :=
  if str = "" then ""
  else String.mk
    (replaceAll '\n' ['\\', 'n']
      (replaceAll '\r' ['\\', 'r']
        (replaceAll '"' ['\\', '"']
          (replaceAll '\\' ['\\', '\\'] str.data))))

/-- The string value the expression engine gives to the characters written
between the double quotes of a string literal: `\n` and `\r` are the line feed
and the carriage return, and a backslash before any other character stands for
that character. -/
def stringLiteralValue : List Char → List Char
  | [] => []
  | [c] => [c]
  | c :: d :: rest =>
    if c = '\\' then
      (if d = 'n' then '\n' else if d = 'r' then '\r' else d) :: stringLiteralValue rest
    else c :: stringLiteralValue (d :: rest)

/-- The text the expression sees for a string `s` that the generator wrote as
`'"' + escapeForExpression(s) + '"'`. -/
def embedString (s : String) : String :=
  String.mk (stringLiteralValue (escapeForExpression s).data)

/-- The word object written by lines 355-360:
`{word:"<escaped word.word || "">",start:<(Number(word.start) || 0).toFixed(3)>,end:...}`. -/
def embedWord (word : RawWord) : Word :=
  { word := embedString (stringOrEmpty word.word)
    start := toFixed3 (numberOrZero word.start)
    endTime := toFixed3 (numberOrZero word.endTime) }

/-- The `m.words || []` of line 350. -/
def wordsOrEmpty (x : Option (List RawWord)) : List RawWord :=
  match x with
  | some ws => ws
  | none => []

/-- The segment object written by lines 348-365 for `markers[k]`. -/
def embedSegment (m : RawMarker) : Segment :=
  { text := embedString (stringOrEmpty m.text)
    time := toFixed3 (numberOrZero m.time)
    words := (wordsOrEmpty m.words).map embedWord }

/-- The `segments` array of the expression generated for `markers`. -/
def embedSegments (markers : List RawMarker) : List Segment :=
  markers.map embedSegment

/-! ## The Visuals-Nova expressions (`getWordRevealExpression`, `getColorFlipExpression`) -/

/-- What `JSON.parse(m.key(idx).comment)` yields when it yields an object: the
fields the expressions read.  An absent field is `none`. -/
structure MarkerData where
  text : Option String
  words : Option (List Word)
  color : Option String
deriving DecidableEq, Repr

/-- One key of the marker property `audio.marker`: its time, its comment, and
the outcome of `JSON.parse` on the comment (`none` when the parse throws, which
leaves `markerData` undefined). -/
structure MarkerKey where
  time : ℚ
  comment : String
  data : Option MarkerData
deriving DecidableEq, Repr

/-- The loop `for (var k = 1; k <= m.numKeys; k++)` with the body
`if (t >= m.key(k).time) idx = k; else break;`, shared verbatim by the two
expressions.  The list holds the keys `m.key(k), m.key(k+1), ...` that are still
to be visited; the result is the final `idx`. -/
def markerScanLoop (t : ℚ) : List MarkerKey → Nat → Nat → Nat
  | [], _, idx => idx
  | key :: rest, k, idx => if key.time ≤ t then markerScanLoop t rest (k + 1) k else idx

/-- The marker scan, started from `k = 1` and `idx = 0`. -/
def markerScan (keys : List MarkerKey) (t : ℚ) : Nat :=
  markerScanLoop t keys 1 0

/-- The host call `markerProp.setValueAtTime(time, value)` on the keys a marker
property holds: the host keeps the keys in time order, so the new key goes
before the first key with a later time, and a key that already stands at that
time is replaced. -/
def setValueAtTime (key : MarkerKey) : List MarkerKey → List MarkerKey
  | [] => [key]
  | k :: rest =>
    if key.time < k.time then key :: k :: rest
    else if key.time = k.time then key :: rest
    else k :: setValueAtTime key rest

/-- The function `addMarkersToLayer` of the Visuals-Nova script (lines 113-125):
one `setValueAtTime` call per element of `markers`, in array order, on the keys
the layer already holds. -/
def addMarkersToLayer (keys markers : List MarkerKey) : List MarkerKey :=
  markers.foldl (fun ks m => setValueAtTime m ks) keys

/-- The loop `for (var i = 0; i < words.length; i++)` of `getWordRevealExpression`
with the body
`if (t >= word.start) { output += word.word; if (i < words.length - 1) output += " "; } else { break; }`.
`len` is `words.length`; the list holds the words from index `i` on. -/
def wordRevealLoop (t : ℚ) (len : Nat) : List Word → Nat → String → String
  | [], _, output => output
  | word :: rest, i, output =>
    if word.start ≤ t then
      wordRevealLoop t len rest (i + 1)
        (if i < len - 1 then (output ++ word.word) ++ " " else output ++ word.word)
    else output

/-- The word-reveal loop on a whole `words` array, from `i = 0` and
`output = ""`. -/
def wordReveal (words : List Word) (t : ℚ) : String :=
  wordRevealLoop t words.length words 0 ""

/-- The value `markerData.text || m.key(idx).comment`. -/
def textOrComment (md : MarkerData) (key : MarkerKey) : String :=
  match md.text with
  | some s => if s = "" then key.comment else s
  | none => key.comment

/-- The value of the expression of `getWordRevealExpression` at time `time`,
or `none` when its evaluation throws: with `markerData` undefined the guard
`!markerData` holds and the branch reads `markerData.text`. -/
def wordRevealExpression (keys : List MarkerKey) (time : ℚ) : Option String :=
  if keys.length = 0 then some ""
  else
    let idx := markerScan keys time
    if idx = 0 then some ""
    else
      match keys[idx - 1]? with
      | none => none
      | some key =>
        match key.data with
        | none => none
        | some md =>
          match md.words with
          | none => some (textOrComment md key)
          | some words =>
            if words.length = 0 then some (textOrComment md key)
            else some (wordReveal words time)

/-- The characters of the texts `l`, each followed by one space. -/
def spaced (l : List String) : List Char :=
  (l.map (fun x => x.data ++ [' '])).flatten

/-- What one pass of the Visuals-Nova word loop appends for the word at index
`p.1`: the word, then a space unless the index is the last one. -/
def revealPiece (len : Nat) (p : Nat × Word) : String :=
  if p.1 < len - 1 then p.2.word ++ " " else p.2.word

/-! ## JavaScript values read from the job files -/

/-- A value produced by `JSON.parse`, or `undefined` for a member that is
absent.  The members of an object are listed in insertion order with distinct
keys. -/
inductive JsVal where
  | undefined : JsVal
  | null : JsVal
  | bool (b : Bool) : JsVal
  | num (q : ℚ) : JsVal
  | str (s : String) : JsVal
  | arr (items : List JsVal) : JsVal
  | obj (fields : List (String × JsVal)) : JsVal

/-- The text of `e.toString()` for the `TypeError` the engine raises when a
member of `null` or `undefined` is read. -/
def typeErrorText : String := "TypeError: undefined is not an object"

/-- Truthiness: `undefined`, `null`, `false`, `0` and the empty string are
falsy, every other value (every array and object included) is truthy. -/
def truthy : JsVal → Bool
  | .undefined => false
  | .null => false
  | .bool b => b
  | .num q => decide (q ≠ 0)
  | .str s => decide (s ≠ "")
  | .arr _ => true
  | .obj _ => true

/-- The operator `a || b`: `a` when `a` is truthy, otherwise `b`. -/
def jsOr (a b : JsVal) : JsVal :=
  if truthy a then a else b

/-- The member access `v.key`: a `TypeError` on `null` and `undefined`, the
member of an object (or `undefined` when it has none of that name), the
`length` of an array or string, `undefined` otherwise. -/
def getProp (v : JsVal) (key : String) : Except String JsVal :=
  match v with
  | .undefined => .error typeErrorText
  | .null => .error typeErrorText
  | .obj fields =>
    match fields.lookup key with
    | some x => .ok x
    | none => .ok .undefined
  | .arr items => if key = "length" then .ok (.num items.length) else .ok .undefined
  | .str s => if key = "length" then .ok (.num s.length) else .ok .undefined
  | _ => .ok .undefined

/-- The element access `v[i]` for a loop counter `i`. -/
def getIndex (v : JsVal) (i : Nat) : Except String JsVal :=
  match v with
  | .undefined => .error typeErrorText
  | .null => .error typeErrorText
  | .arr items =>
    match items[i]? with
    | some x => .ok x
    | none => .ok .undefined
  | .obj fields =>
    match fields.lookup (toString i) with
    | some x => .ok x
    | none => .ok .undefined
  | .str s =>
    match s.data[i]? with
    | some c => .ok (.str (String.mk [c]))
    | none => .ok .undefined
  | _ => .ok .undefined

/-- How many counters `j = 0, 1, 2, ...` satisfy the loop test `j < len`, for
the value `len` of a `length` member: none when `len` is `undefined` (the
comparison with `NaN` is false), `null` or `false`; one for `true`; the
counters below `q` for a number `q`.  A `length` member that is a string, an
array or an object does not occur in the claims and is given no counters. -/
def loopCount (len : JsVal) : Nat :=
  match len with
  | .num q => if q ≤ 0 then 0 else (⌈q⌉).toNat
  | .bool true => 1
  | _ => 0

/-- The test `len > 0` for the value `len` of a `length` member. -/
def positive (len : JsVal) : Bool :=
  match len with
  | .num q => decide (0 < q)
  | .bool true => true
  | _ => false

/-- The member `key` of an object with the members `fields`: `undefined` when
the object has no member of that name. -/
def member (fields : List (String × JsVal)) (key : String) : JsVal :=
  match fields.lookup key with
  | some x => x
  | none => .undefined

/-! ## The `JSON.stringify` polyfill of the injection scripts -/

mutual
/-- The function `JSON.stringify` defined by the Aurora, Mono and Onyx injection
scripts when the engine has no `JSON` object (Mono lines 227-249).  `none` is
the result `undefined`.  `numStr` is the engine's `String(n)` for a number. -/
def stringify (numStr : ℚ → String) : JsVal → Option String
  | .null => some "null"
  | .undefined => none
  | .num q => some (numStr q)
  | .bool b => some (if b then "true" else "false")
  | .str s => some ("\"" ++ String.mk (replaceAll '"' ['\\', '"'] s.data) ++ "\"")
  | .arr items => some ("[" ++ ",".intercalate (stringifyItems numStr items) ++ "]")
  | .obj fields => some ("\x7b" ++ ",".intercalate (stringifyProps numStr fields) ++ "\x7d")
/-- The array `arr` of the polyfill: one pushed result per element; `join`
writes an `undefined` entry as the empty string. -/
def stringifyItems (numStr : ℚ → String) : List JsVal → List String
  | [] => []
  | v :: vs =>
    (match stringify numStr v with
      | some s => s
      | none => "") :: stringifyItems numStr vs
/-- The array `props` of the polyfill: `'"' + key + '":' + JSON.stringify(obj[key])`
per member; the concatenation writes an `undefined` result as `undefined`. -/
def stringifyProps (numStr : ℚ → String) : List (String × JsVal) → List String
  | [] => []
  | (key, v) :: rest =>
    ("\"" ++ key ++ "\":" ++
      (match stringify numStr v with
        | some s => s
        | none => "undefined")) :: stringifyProps numStr rest
end

/-- The characters of a JSON string literal decoded after its opening quote:
the text up to the closing quote, which must end the input.  `none` when the
literal is malformed (a raw line break, a bad escape, a missing or early
closing quote).  Of the raw control characters only the line feed and the
carriage return are rejected, as in a string literal of the expression engine;
`JSON.parse` also rejects the other characters below U+0020 (a raw tab), which
this reader passes through. -/
def jsonStringBody : List Char → Option (List Char)
  | [] => none
  | [c] => if c = '"' then some [] else none
  | c :: d :: rest =>
    if c = '"' then none
    else if c = '\n' ∨ c = '\r' then none
    else if c = '\\' then
      (if d = 'n' then (jsonStringBody rest).map (fun r => '\n' :: r)
      else if d = 'r' then (jsonStringBody rest).map (fun r => '\r' :: r)
      else if d = 't' then (jsonStringBody rest).map (fun r => '\t' :: r)
      else if d = '"' ∨ d = '\\' ∨ d = '/' then (jsonStringBody rest).map (fun r => d :: r)
      else none)
    else (jsonStringBody (d :: rest)).map (fun r => c :: r)

/-- The string that `JSON.parse` reads from a JSON text that is one string
literal.  The escapes `\b`, `\f` and `\uXXXX` are not modelled and count as
malformed. -/
def jsonParseString (text : String) : Option String :=
  match text.data with
  | [] => none
  | c :: rest => if c = '"' then (jsonStringBody rest).map String.mk else none

/-! ## The marker builders of the injection scripts -/

/-- One call `audioLayer.marker.setValueAtTime(time, markerValue)`: the time
argument, the argument of `new MarkerValue(...)`, and the value handed to
`JSON.stringify` for the marker comment. -/
structure MarkerCall where
  time : JsVal
  text : JsVal
  data : JsVal

/-- The colour label of segment `j` in the Mono and Onyx marker payload:
`(j % 2 === 0) ? "white" : "black"`. -/
def markerColor (j : Nat) : String :=
  if j % 2 = 0 then "white" else "black"

/-- The encoding under which the colour labels are compared with
`index mod 2`: white is 0, black is 1. -/
def colorCode (label : String) : Option Nat :=
  if label = "white" then some 0 else if label = "black" then some 1 else none

/-- The value `seg.end_time || (lyrics[j + 1] ? lyrics[j + 1].t || lyrics[j + 1].time : comp.duration)`
of the Mono and Onyx payload. -/
def monoEndTime (lyrics : JsVal) (duration : ℚ) (seg : JsVal) (j : Nat) : Except String JsVal := do
  let endTime ← getProp seg "end_time"
  if truthy endTime then pure endTime
  else
    let next ← getIndex lyrics (j + 1)
    if truthy next then
      let t ← getProp next "t"
      let time ← getProp next "time"
      pure (jsOr t time)
    else pure (.num duration)

/-- One pass of the marker loop of the Mono script (lines 163-179; the Onyx
script has the same lines at 181-197): the payload `markerData` and the time at
which the marker is placed, for the record `lyrics[j]`.  An error is the text
of a raised exception. -/
def monoMarkerCall (lyrics : JsVal) (duration : ℚ) (j : Nat) : Except String MarkerCall := do
  let seg ← getIndex lyrics j
  let lyricCurrent ← getProp seg "lyric_current"
  let segText ← getProp seg "text"
  let text := jsOr (jsOr lyricCurrent segText) (.str "")
  let words ← getProp seg "words"
  let endTime ← monoEndTime lyrics duration seg j
  let markerData := JsVal.obj
    [("text", text), ("words", jsOr words (.arr [])), ("color", .str (markerColor j)),
      ("index", .num j), ("end_time", endTime)]
  let t ← getProp seg "t"
  let segTime ← getProp seg "time"
  pure { time := jsOr (jsOr t segTime) (.num 0), text := text, data := markerData }

/-- One pass of the marker loop of the Aurora script (lines 185-188): the
comment is the record itself. -/
def auroraMarkerCall (lyrics : JsVal) (j : Nat) : Except String MarkerCall := do
  let seg ← getIndex lyrics j
  let lyricCurrent ← getProp seg "lyric_current"
  let segText ← getProp seg "text"
  let t ← getProp seg "t"
  let segTime ← getProp seg "time"
  pure { time := jsOr (jsOr t segTime) (.num 0)
         text := jsOr (jsOr lyricCurrent segText) (.str "")
         data := seg }

/-- The loop `for (var j = 0; j < lyrics.length; j++)` over the counters still
to be visited: the markers placed, and the text of the exception that ended the
loop, if one did. -/
def markerLoop (call : Nat → Except String MarkerCall) :
    List Nat → List MarkerCall → List MarkerCall × Option String
  | [], placed => (placed, none)
  | j :: rest, placed =>
    match call j with
    | .ok c => markerLoop call rest (placed ++ [c])
    | .error e => (placed, some e)

/-- The block `if (audioLayer && lyrics.length > 0) { clear markers; loop }`,
given whether an `AUDIO` layer was found.  The first component is the new
marker list of the layer (`none` when the markers were not touched), the second
the text of a raised exception. -/
def markerStep (call : Nat → Except String MarkerCall) (audioLayer : Bool) (lyrics : JsVal) :
    Option (List MarkerCall) × Option String :=
  if audioLayer then
    match getProp lyrics "length" with
    | .error e => (none, some e)
    | .ok len =>
      if positive len then
        let r := markerLoop call (List.range (loopCount len)) []
        (some r.1, r.2)
      else (none, none)
  else (none, none)

/-- The marker step of the Mono (and Onyx) script. -/
def monoMarkerStep (audioLayer : Bool) (lyrics : JsVal) (duration : ℚ) :
    Option (List MarkerCall) × Option String :=
  markerStep (monoMarkerCall lyrics duration) audioLayer lyrics

/-- The marker step of the Aurora script. -/
def auroraMarkerStep (audioLayer : Bool) (lyrics : JsVal) :
    Option (List MarkerCall) × Option String :=
  markerStep (auroraMarkerCall lyrics) audioLayer lyrics

/-! ## `parseLyricsFile` (`scripts/automateMV_batch.jsx`, lines 394-404) -/

mutual
/-- The conversion `String(v)`.  `numStr` is the engine's `String(n)` for a
number. -/
def jsString (numStr : ℚ → String) : JsVal → String
  | .undefined => "undefined"
  | .null => "null"
  | .bool b => if b then "true" else "false"
  | .num q => numStr q
  | .str s => s
  | .arr items => ",".intercalate (jsStringItems numStr items)
  | .obj _ => "[object Object]"
/-- The entries that `Array.prototype.join` writes: `null` and `undefined` as
the empty string. -/
def jsStringItems (numStr : ℚ → String) : List JsVal → List String
  | [] => []
  | .undefined :: vs => "" :: jsStringItems numStr vs
  | .null :: vs => "" :: jsStringItems numStr vs
  | v :: vs => jsString numStr v :: jsStringItems numStr vs
end

/-- The conversion `Number(v)`; `none` is `NaN`.  `strNum` is the engine's
`Number(s)` for a string. -/
def toNumber (numStr : ℚ → String) (strNum : String → Option ℚ) : JsVal → Option ℚ
  | .undefined => none
  | .null => some 0
  | .bool b => some (if b then 1 else 0)
  | .num q => some q
  | .str s => strNum s
  | .arr items => strNum (jsString numStr (.arr items))
  | .obj fields => strNum (jsString numStr (.obj fields))

/-- The body of the loop of `parseLyricsFile` for `data[i]`: the pushed line
`cur` and the pushed pair `t`, `cur`. -/
def parseLyricsEntry (numStr : ℚ → String) (strNum : String → Option ℚ) (data : JsVal)
    (i : Nat) : Except String (String × (Option ℚ × String)) := do
  let item ← getIndex data i
  let lyricCurrent ← getProp item "lyric_current"
  let itemCur ← getProp item "cur"
  let cur := jsString numStr (jsOr (jsOr lyricCurrent itemCur) (.str ""))
  let t ← getProp item "t"
  pure (cur, (toNumber numStr strNum (jsOr t (.num 0)), cur))

/-- The loop of `parseLyricsFile` over the counters still to be visited. -/
def parseLyricsLoop (numStr : ℚ → String) (strNum : String → Option ℚ) (data : JsVal) :
    List Nat → List String × List (Option ℚ × String) →
      Except String (List String × List (Option ℚ × String))
  | [], acc => .ok acc
  | i :: rest, acc =>
    match parseLyricsEntry numStr strNum data i with
    | .ok e => parseLyricsLoop numStr strNum data rest (acc.1 ++ [e.1], acc.2 ++ [e.2])
    | .error e => .error e

/-- The function `parseLyricsFile`, from the value `data` that `JSON.parse`
returned for the file: the pair `linesArray`, `tAndText`, or the text of the
raised exception. -/
def parseLyricsFile (numStr : ℚ → String) (strNum : String → Option ℚ) (data : JsVal) :
    Except String (List String × List (Option ℚ × String)) :=
  match getProp data "length" with
  | .error e => .error e
  | .ok len => parseLyricsLoop numStr strNum data (List.range (loopCount len)) ([], [])

/-! ## The batch loop and the report of `main` (Aurora lines 73-101, Mono lines 72-98) -/

/-- How one call of `processJob` ends: it returns a value, truthy or falsy, or
it raises; `e` is the text of `e.toString()`. -/
inductive Outcome where
  | returned (truthy : Bool) : Outcome
  | raised (e : String) : Outcome
deriving DecidableEq, Repr

/-- The variables of `main` during the batch loop, with the state `project` of
the host that `processJob` works on. -/
structure Batch (σ : Type) where
  project : σ
  successCount : Nat
  errorCount : Nat
  errors : List String

/-- The loop `for (var i = 0; i < jobFolders.length; i++)` of `main` over the
folders still to be visited; `i` is the loop counter.  `processJob` takes the
host state, the folder and the job number `i + 1`, and gives the host state it
leaves and how it ended. -/
def batchLoop {σ φ : Type} (processJob : σ → φ → Nat → σ × Outcome) :
    List φ → Nat → Batch σ → Batch σ
  | [], _, b => b
  | folder :: rest, i, b =>
    match processJob b.project folder (i + 1) with
    | (p, .returned true) =>
      batchLoop processJob rest (i + 1) { b with project := p, successCount := b.successCount + 1 }
    | (p, .returned false) =>
      batchLoop processJob rest (i + 1) { b with project := p, errorCount := b.errorCount + 1 }
    | (p, .raised e) =>
      batchLoop processJob rest (i + 1)
        { b with project := p, errorCount := b.errorCount + 1,
                 errors := b.errors ++ ["Job " ++ toString (i + 1) ++ ": " ++ e] }

/-- The batch loop of `main` from `successCount = 0`, `errorCount = 0`,
`errors = []`. -/
def runBatch {σ φ : Type} (processJob : σ → φ → Nat → σ × Outcome) (project : σ)
    (jobFolders : List φ) : Batch σ :=
  batchLoop processJob jobFolders 0 { project := project, successCount := 0, errorCount := 0, errors := [] }

/-- The outcomes of the calls of `processJob` when the folders are visited one
after the other in list order, each call starting from the host state the
previous one left: the job number with how the call ended. -/
def jobOutcomes {σ φ : Type} (processJob : σ → φ → Nat → σ × Outcome) :
    List φ → Nat → σ → List (Nat × Outcome)
  | [], _, _ => []
  | folder :: rest, i, s =>
    (i + 1, (processJob s folder (i + 1)).2) ::
      jobOutcomes processJob rest (i + 1) (processJob s folder (i + 1)).1

/-- The host state after the folders were visited one after the other in list
order. -/
def jobStates {σ φ : Type} (processJob : σ → φ → Nat → σ × Outcome) :
    List φ → Nat → σ → σ
  | [], _, s => s
  | folder :: rest, i, s => jobStates processJob rest (i + 1) (processJob s folder (i + 1)).1

/-- The entry pushed to `errors` for an outcome: a message for a raise, nothing
otherwise. -/
def errorEntry (o : Nat × Outcome) : Option String :=
  match o.2 with
  | .raised e => some ("Job " ++ toString o.1 ++ ": " ++ e)
  | .returned _ => none

/-- The text shown by `alert(message)` at the end of `main`; `product` is
`Aurora`, `Mono` or `Onyx`. -/
def reportMessage (product : String) (successCount errorCount : Nat) (errors : List String) :
    String :=
  let message := "Apollova " ++ product ++ " Injection Complete!\n\n"
  let message := message ++ ("✓ Successfully processed: " ++ toString successCount ++ " jobs\n")
  let message :=
    if errorCount > 0 then
      (message ++ ("✗ Errors: " ++ toString errorCount ++ " jobs\n\n")) ++
        "\n".intercalate (errors.take 5)
    else message
  message ++ "\n\nNext: Review compositions and add to render queue."

/-! ## `processJob` of the Aurora script (lines 104-207) -/

/-- The function `padNumber`: `s = "000" + num`, then `s.substr(s.length - size)`,
the last `size` characters of `s`. -/
def padNumber (num size : Nat) : String :=
  String.mk (("000" ++ toString num).data.drop (("000" ++ toString num).length - size))

/-- A layer of a composition, as far as `processJob` reads and writes it: its
name, the name of its source item, the `setValueAtTime` calls made on its
marker property since the markers were last cleared, the colour of its
`Effects > Fill` (`none` when it has no such effect; the colour is kept as the
hex string handed to `hexToRGB`), and the value of its `Source Text` (`none`
when it has no such property). -/
structure Layer where
  name : String
  source : String
  markers : List MarkerCall
  fill : Option String
  sourceText : Option String

/-- A composition: its name, its duration, its layers from index 1 on. -/
structure Comp where
  name : String
  duration : ℚ
  layers : List Layer

/-- An item of the project: a composition, or any other item. -/
inductive Item where
  | comp (c : Comp) : Item
  | other (name : String) : Item

/-- The loop of `findCompByName` over the items from `app.project.item(i + 1)`
on: the first item that is a composition with the given name, with its
position. -/
def findCompFrom (name : String) : List Item → Nat → Option (Nat × Comp)
  | [], _ => none
  | .comp c :: rest, i => if c.name = name then some (i, c) else findCompFrom name rest (i + 1)
  | .other _ :: rest, i => findCompFrom name rest (i + 1)

/-- The function `findCompByName`; `none` is `null`.  The position is counted
from 0. -/
def findCompByName (items : List Item) (name : String) : Option (Nat × Comp) :=
  findCompFrom name items 0

/-- The loop of `findLayerByName` over the layers from `comp.layer(i + 1)` on:
the position of the first layer whose upper-cased name is the upper-cased
`name`.  `toUpperCase` is rendered by `String.toUpper`, which maps the letters
`a` to `z` only: the two agree when the layer names of the composition are made
of ASCII characters (the names the scripts look up, `AUDIO`, `COVER`, `TITLE`,
are), and a layer name with other letters can match in the script and not
here. -/
def findLayerFrom (name : String) : List Layer → Nat → Option Nat
  | [], _ => none
  | l :: rest, i =>
    if l.name.toUpper = name.toUpper then some i else findLayerFrom name rest (i + 1)

/-- The function `findLayerByName`; `none` is `null`. -/
def findLayerByName (comp : Comp) (name : String) : Option Nat :=
  findLayerFrom name comp.layers 0

/-- The name `"Aurora_" + padNumber(jobNumber, 3)` of the job's composition. -/
def auroraCompName (jobNumber : Nat) : String :=
  "Aurora_" ++ padNumber jobNumber 3

/-- The text of `e.toString()` for `new Error("Template composition not found")`. -/
def templateNotFound : String := "Error: Template composition not found"

/-- The text of `e.toString()` for `new Error("job_data.json not found")`. -/
def jobDataNotFound : String := "Error: job_data.json not found"

/-- The composition `processJob` goes on to work on: one that exists in the
project at `index`, or a duplicate still to be made of the template at
`index`. -/
inductive CompTarget where
  | existing (index : Nat) (comp : Comp) : CompTarget
  | duplicate (index : Nat) (template : Comp) : CompTarget

/-- Lines 117-130: look up the job's composition by name; failing that, the
template `findCompByName("Aurora_Template") || findCompByName("Aurora_001")`;
failing that, raise. -/
def acquireComp (items : List Item) (jobNumber : Nat) : Except String CompTarget :=
  match findCompByName items (auroraCompName jobNumber) with
  | some (i, c) => .ok (.existing i c)
  | none =>
    match findCompByName items "Aurora_Template" with
    | some (i, c) => .ok (.duplicate i c)
    | none =>
      match findCompByName items "Aurora_001" with
      | some (i, c) => .ok (.duplicate i c)
      | none => .error templateNotFound

/-- What `JSON.parse` gave for `job_data.json`, together with what the file
system and the importer answer for the paths it names. -/
structure JobData where
  audioExists : Bool
  audioItem : Option String
  audioOutPoint : ℚ
  coverImage : Bool
  coverExists : Bool
  coverItem : Option String
  lyricsExists : Bool
  lyrics : Except String JsVal
  colors : List String
  songTitle : String

/-- A job folder: whether it holds `job_data.json`, and what `JSON.parse` gives
for its content (an error is the text of the raised exception). -/
structure JobFolder where
  dataFileExists : Bool
  jobData : Except String JobData

/-- The items of the project with the composition to work on in place, the
position of that composition, and the composition: `templateComp.duplicate()`
adds a new item, which `comp.name = compName` renames. -/
def openTarget (items : List Item) (jobNumber : Nat) : CompTarget → List Item × Nat × Comp
  | .existing i c => (items, i, c)
  | .duplicate _ t =>
    (items ++ [.comp { t with name := auroraCompName jobNumber }], items.length,
      { t with name := auroraCompName jobNumber })

/-- Lines 133-150: import the audio when the file exists; when the import
succeeds, replace the source of the `AUDIO` layer, or add a layer named `AUDIO`
at the end; then set the duration to the `outPoint` of that layer. -/
def audioStep (d : JobData) (comp : Comp) : Comp :=
  if d.audioExists then
    match d.audioItem with
    | some item =>
      match findLayerByName comp "AUDIO" with
      | some i =>
        { comp with
          layers := comp.layers.modify (fun l => { l with source := item }) i
          duration := d.audioOutPoint }
      | none =>
        { comp with
          layers := comp.layers ++
            [{ name := "AUDIO", source := item, markers := [], fill := none, sourceText := none }]
          duration := d.audioOutPoint }
    | none => comp
  else comp

/-- Lines 153-164: replace the source of the `COVER` layer when the job names a
cover image, the file exists and the import succeeds. -/
def coverStep (d : JobData) (comp : Comp) : Comp :=
  if d.coverImage && d.coverExists then
    match d.coverItem with
    | some item =>
      match (findLayerByName comp "COVER").orElse (fun _ => findLayerByName comp "cover") with
      | some i => { comp with layers := comp.layers.modify (fun l => { l with source := item }) i }
      | none => comp
    | none => comp
  else comp

/-- Lines 167-191: read the lyrics and place the markers on the `AUDIO` layer.
The second component is the text of a raised exception. -/
def lyricsStep (d : JobData) (comp : Comp) : Comp × Option String :=
  if d.lyricsExists then
    match d.lyrics with
    | .error e => (comp, some e)
    | .ok lyrics =>
      match findLayerByName comp "AUDIO" with
      | some i =>
        match auroraMarkerStep true lyrics with
        | (some ms, err) =>
          ({ comp with layers := comp.layers.modify (fun l => { l with markers := ms }) i }, err)
        | (none, err) => (comp, err)
      | none => (comp, (auroraMarkerStep false lyrics).2)
  else (comp, none)

/-- The function `setLayerColor`: set the colour of the `Fill` effect of the
named layer, when the layer and the effect exist. -/
def setLayerColor (comp : Comp) (layerName : String) (hexColor : String) : Comp :=
  match findLayerByName comp layerName with
  | some i =>
    { comp with
      layers := comp.layers.modify
        (fun l => match l.fill with
          | some _ => { l with fill := some hexColor }
          | none => l) i }
  | none => comp

/-- Lines 194-198: with at least two colours, colour `COLOR_1`, `COLOR_2` and
`BG_COLOR`. -/
def colorStep (d : JobData) (comp : Comp) : Comp :=
  match d.colors with
  | c0 :: c1 :: _ =>
    setLayerColor (setLayerColor (setLayerColor comp "COLOR_1" c0) "COLOR_2" c1) "BG_COLOR" c0
  | _ => comp

/-- Lines 201-204: set the text of the layer
`findLayerByName(comp, "SONG_TITLE") || findLayerByName(comp, "TITLE")` when it
has a `Source Text`. -/
def titleStep (d : JobData) (comp : Comp) : Comp :=
  match (findLayerByName comp "SONG_TITLE").orElse (fun _ => findLayerByName comp "TITLE") with
  | some i =>
    { comp with
      layers := comp.layers.modify
        (fun l => match l.sourceText with
          | some _ => { l with sourceText := some d.songTitle }
          | none => l) i }
  | none => comp

/-- Lines 132-206 on the composition to work on: the composition as the job
leaves it, and the text of the exception that ended the job, if one did. -/
def jobSteps (d : JobData) (comp : Comp) : Comp × Option String :=
  match lyricsStep d (coverStep d (audioStep d comp)) with
  | (c, some e) => (c, some e)
  | (c, none) => (titleStep d (colorStep d c), none)

/-- The function `processJob` of the Aurora script: the project it leaves and
how it ends.  It returns `true` or raises. -/
def processJob (project : List Item) (folder : JobFolder) (jobNumber : Nat) :
    List Item × Outcome :=
  if folder.dataFileExists then
    match folder.jobData with
    | .error e => (project, .raised e)
    | .ok d =>
      match acquireComp project jobNumber with
      | .error e => (project, .raised e)
      | .ok target =>
        match openTarget project jobNumber target with
        | (items, idx, comp) =>
          match jobSteps d comp with
          | (c, some e) => (items.set idx (.comp c), .raised e)
          | (c, none) => (items.set idx (.comp c), .returned true)
  else (project, .raised jobDataNotFound)

/-! ## The batch loop of the Nova script (`apollova-nova-injection.jsx`, lines 68-204) -/

/-- What the file system and `JSON.parse` answer for one `nova_data.json` of
the batch: whether the file opens, whether its text is non-empty, whether it
parses, the `job_id` of `job_data.json` when there is a truthy one, and whether
`audio_trimmed.wav` exists. -/
structure NovaJob where
  readable : Bool
  hasText : Bool
  parses : Bool
  jobId : Option Nat
  audioExists : Bool

/-- The function `findCompByName` of the Nova script (lines 564-570; the same
lines are in `automateMV_batch.jsx`): it raises when no composition has the
name.  The error is the text of `e.toString()`. -/
def findCompOrThrow (items : List Item) (name : String) : Except String (Nat × Comp) :=
  match findCompByName items name with
  | some r => .ok r
  | none => .error ("Error: Comp not found: " ++ name)

/-- The name `"NOVA_JOB_" + ("00" + jobId).slice(-3)`. -/
def novaCompName (jobId : Nat) : String :=
  "NOVA_JOB_" ++ String.mk (("00" ++ toString jobId).data.drop (("00" ++ toString jobId).length - 3))

/-- The loop `for (var j = 0; j < jsonFiles.length; j++)` of the Nova `main`
over the files still to be visited.  `wire` stands for lines 130-201, which work
on the duplicated composition; an error is an exception that leaves `main`.
The result holds the project and the job ids that reached the duplication. -/
def novaLoop (wire : List Item → NovaJob → Nat → Except String (List Item)) :
    List NovaJob → Nat → List Item → List Nat → Except String (List Item × List Nat)
  | [], _, items, done => .ok (items, done)
  | job :: rest, j, items, done =>
    if !job.readable then novaLoop wire rest (j + 1) items done
    else if !job.hasText then novaLoop wire rest (j + 1) items done
    else if !job.parses then novaLoop wire rest (j + 1) items done
    else
      let jobId := match job.jobId with
        | some n => n
        | none => j + 1
      if !job.audioExists then novaLoop wire rest (j + 1) items done
      else
        match findCompOrThrow items "MAIN" with
        | .error e => .error e
        | .ok (_, template) =>
          match wire (items ++ [.comp { template with name := novaCompName jobId }]) job jobId with
          | .error e => .error e
          | .ok items' => novaLoop wire rest (j + 1) items' (done ++ [jobId])

/-- The Nova `main` from its batch loop on: `.ok` when the loop ends and the
closing `alert` and `app.endUndoGroup()` are reached, `.error` when an exception
leaves `main` before. -/
def novaMain (wire : List Item → NovaJob → Nat → Except String (List Item))
    (items : List Item) (jobs : List NovaJob) : Except String (List Item × List Nat) :=
  novaLoop wire jobs 0 items []

/-! ## The Nova expression with its variables made explicit -/

/-- The variables of the Nova expression, with whatever values an earlier
evaluation may have left in them. -/
structure ExprVars where
  segments : List Segment
  currentSeg : Option Segment
  output : String

/-- The scan loop on the variables; `n` is `i + 1`. -/
def scanVars (time : ℚ) : Nat → ExprVars → ExprVars
  | 0, v => v
  | n + 1, v =>
    match v.segments[n]? with
    | some s => if s.time ≤ time then { v with currentSeg := some s } else scanVars time n v
    | none => scanVars time n v

/-- The word loop on the variables. -/
def wordVars (time : ℚ) : List Word → ExprVars → ExprVars
  | [], v => v
  | w :: ws, v =>
    if w.start ≤ time then wordVars time ws { v with output := v.output ++ (w.word ++ " ") }
    else wordVars time ws v

/-- One evaluation of the expression generated for `segments`, started with
the variables `v`: `var segments = [...]`, `var currentSeg = null`, the scan,
`var output = ""`, the word loop under the guard, and the value of the last
statement. -/
def novaEvaluate (segments : List Segment) (time : ℚ) (v : ExprVars) : ExprVars × String :=
  let v1 := { v with segments := segments }
  let v2 := { v1 with currentSeg := none }
  let v3 := scanVars time v2.segments.length v2
  let v4 := { v3 with output := "" }
  let v5 := match v4.currentSeg with
    | some seg => wordVars time seg.words v4
    | none => v4
  (v5, jsTrimEnd v5.output)

/-- The variables left by evaluating the expression at each of the times, one
after the other. -/
def evaluateAll (segments : List Segment) : List ℚ → ExprVars → ExprVars
  | [], v => v
  | t :: ts, v => evaluateAll segments ts (novaEvaluate segments t v).1

/-! ## The start of the Aurora `main`: the job folders and their order -/

/-- A job folder with its name. -/
structure NamedFolder where
  name : String
  contents : JobFolder

/-- The order of two names by their character codes: `true` when the first
name does not come after the second. -/
def nameLE : List Char → List Char → Bool
  | [], _ => true
  | _ :: _, [] => false
  | a :: as, b :: bs =>
    if a.toNat < b.toNat then true
    else if b.toNat < a.toNat then false
    else nameLE as bs

/-- The call `jobFolders.sort(function(a, b) { return a.name.localeCompare(b.name); })`.
The names match `job_\d+`, for which `localeCompare` is the order of the
character codes. -/
def sortFolders (jobFolders : List NamedFolder) : List NamedFolder :=
  jobFolders.insertionSort (fun a b => nameLE a.name.data b.name.data = true)

/-- The Aurora `main` from the sort on: the batch loop over the sorted folders. -/
def auroraMain (project : List Item) (jobFolders : List NamedFolder) : Batch (List Item) :=
  runBatch processJob project ((sortFolders jobFolders).map NamedFolder.contents)

/-- The number written by decimal digits, read from the left; `acc` is the
value of the digits already read. -/
def digitsValue (acc : Nat) : List Char → Option Nat
  | [] => some acc
  | c :: rest =>
    if '0'.toNat ≤ c.toNat ∧ c.toNat ≤ '9'.toNat then
      digitsValue (10 * acc + (c.toNat - '0'.toNat)) rest
    else none

/-- The number in a folder name `job_NNN`: the digits after the four characters
`job_`. -/
def folderNumber (name : String) : Option Nat :=
  match name.data.drop 4 with
  | [] => none
  | digits => digitsValue 0 digits

/-! ## `escapeForExpression` in one pass -/

/-- What the four replacements of `escapeForExpression` make of one character. -/
def escapeChar (c : Char) : List Char :=
  if c = '\\' then ['\\', '\\']
  else if c = '"' then ['\\', '"']
  else if c = '\r' then ['\\', 'r']
  else if c = '\n' then ['\\', 'n']
  else [c]

/-! ## `replaceLyricArrayInLayer` (`scripts/automateMV_batch.jsx`, lines 406-418) -/

/-- Match the characters `cs` at the head of the text; the rest of the text
when they are there. -/
def expectChars : List Char → List Char → Option (List Char)
  | [], l => some l
  | _ :: _, [] => none
  | c :: cs, x :: l => if x = c then expectChars cs l else none

/-- Match `\s+` at the head of the text. -/
def someWhitespace : List Char → Option (List Char)
  | [] => none
  | x :: l => if jsWhitespace x then some (l.dropWhile jsWhitespace) else none

/-- Match `var\s+lyrics\s*=\s*\[` at the head of the text; the rest of the text
when it matches. -/
def matchHeader (l : List Char) : Option (List Char) :=
  (expectChars ['v', 'a', 'r'] l).bind fun r1 =>
  (someWhitespace r1).bind fun r2 =>
  (expectChars ['l', 'y', 'r', 'i', 'c', 's'] r2).bind fun r3 =>
  (expectChars ['='] (r3.dropWhile jsWhitespace)).bind fun r4 =>
  expectChars ['['] (r4.dropWhile jsWhitespace)

/-- Match the lazy `[\s\S]*?\];`: split the text at the first `];`, giving what
stands before it and what stands after it. -/
def splitAtClose : List Char → Option (List Char × List Char)
  | [] => none
  | [_] => none
  | c :: d :: rest =>
    if c = ']' ∧ d = ';' then some ([], rest)
    else (splitAtClose (d :: rest)).map (fun r => (c :: r.1, r.2))

/-- Match the whole pattern `/var\s+lyrics\s*=\s*\[[\s\S]*?\];/` at the head of
the text; what stands after the match. -/
def matchAt (l : List Char) : Option (List Char) :=
  (matchHeader l).bind fun r => (splitAtClose r).map Prod.snd

/-- Search the leftmost match of the pattern: what stands before the match and
what stands after it. -/
def regexSearch : List Char → Option (List Char × List Char)
  | [] =>
    match matchAt [] with
    | some after => some ([], after)
    | none => none
  | c :: rest =>
    match matchAt (c :: rest) with
    | some after => some ([], after)
    | none => (regexSearch rest).map (fun r => (c :: r.1, r.2))

/-- The replacement text of `String.prototype.replace` with its `$` patterns
expanded: `$$` is a dollar sign, `$&` the match, `$` with a backtick what stands
before the match, `$` with an apostrophe what stands after it.  The pattern has
no group, so `$1` to `$99` stay as they are. -/
def expandReplacement (matched before after : List Char) : List Char → List Char
  | [] => []
  | [c] => [c]
  | c :: d :: rest =>
    if c = '$' then
      if d = '$' then '$' :: expandReplacement matched before after rest
      else if d = '&' then matched ++ expandReplacement matched before after rest
      else if d = Char.ofNat 96 then before ++ expandReplacement matched before after rest
      else if d = Char.ofNat 39 then after ++ expandReplacement matched before after rest
      else c :: expandReplacement matched before after (d :: rest)
    else c :: expandReplacement matched before after (d :: rest)

/-- One entry of `lines`: `'"' + String(line).replace(/\\/g, "\\\\").replace(/"/g, '\\"') + '"'`. -/
def quoteLine (line : String) : String :=
  "\"" ++ String.mk (replaceAll '"' ['\\', '"'] (replaceAll '\\' ['\\', '\\'] line.data)) ++ "\""

/-- The text `newBlock`: `"var lyrics = [\n" + lines.join(",\n") + "\n];"`. -/
def lyricBlock (linesArray : List String) : String :=
  "var lyrics = [\n" ++ ",\n".intercalate (linesArray.map quoteLine) ++ "\n];"

/-- The expression that `replaceLyricArrayInLayer` gives to a layer with a
`Source Text`, from the expression `expr` the layer had (`prop.expression || ""`):
`re.test(expr) ? expr.replace(re, newBlock) : newBlock + "\n" + expr`. -/
def replaceLyricArrayInLayer (expr : String) (linesArray : List String) : String :=
  match regexSearch expr.data with
  | some (before, after) =>
    String.mk (before ++
      expandReplacement
        ((expr.data.drop before.length).take (expr.data.length - before.length - after.length))
        before after (lyricBlock linesArray).data ++ after)
  | none => lyricBlock linesArray ++ "\n" ++ expr

/-- Two neighbouring characters that are not the text `];`. -/
def noClosePair (c d : Char) : Prop :=
  ¬ (c = ']' ∧ d = ';')

/-- A lyric line that holds no dollar sign and nowhere the text `];`. -/
def plainLine (line : String) : Prop :=
  '$' ∉ line.data ∧ line.data.Chain' noClosePair

/-! ## `sanitizeFilename` and the render file name (Nova lines 773-797) -/

/-- The characters removed by `.replace(/[\/\\:*?"<>|]/g, "")`. -/
def forbiddenChar (c : Char) : Bool :=
  c = '/' || c = '\\' || c = ':' || c = '*' || c = '?' || c = '"' || c = '<' || c = '>' ||
    c = '|'

/-- The call `.replace(/\s+/g, " ")`: every run of white space becomes one
space.  `inRun` tells that the character before was white space. -/
def collapseWhitespace (inRun : Bool) : List Char → List Char
  | [] => []
  | c :: rest =>
    if jsWhitespace c then
      if inRun then collapseWhitespace true rest else ' ' :: collapseWhitespace true rest
    else c :: collapseWhitespace false rest

/-- The function `sanitizeFilename`: `"untitled"` for a falsy name, otherwise
the name without the forbidden characters, with white space runs collapsed and
white space removed at both ends. -/
def sanitizeFilename (name : String) : String :=
  if name = "" then "untitled"
  else String.mk
    (((collapseWhitespace false (name.data.filter (fun c => !forbiddenChar c))).dropWhile
      jsWhitespace).rdropWhile jsWhitespace)

/-- The name `safeTitle + (suffix || "") + ".mp4"` of the render file. -/
def renderFilename (songTitle suffix : String) : String :=
  sanitizeFilename songTitle ++ suffix ++ ".mp4"

/-! ## The colour-flip expression of Visuals-Nova (`getColorFlipExpression`) -/

/-- The colour of the `catch` branch: `(idx % 2 === 1) ? "white" : "black"`. -/
def fallbackColor (idx : Nat) : String :=
  if idx % 2 = 1 then "white" else "black"

/-- The value of the expression of `getColorFlipExpression` at time `time`:
white `[1, 1, 1, 1]` without a marker at or before `time`, otherwise black
`[0, 0, 0, 1]` when the colour of the marker payload, or of the fallback when
the comment does not parse, is `"black"`, and white otherwise. -/
def colorFlipExpression (keys : List MarkerKey) (time : ℚ) : List ℚ :=
  if keys.length = 0 then [1, 1, 1, 1]
  else
    let idx := markerScan keys time
    if idx = 0 then [1, 1, 1, 1]
    else
      match keys[idx - 1]? with
      | none => [1, 1, 1, 1]
      | some key =>
        let color := match key.data with
          | some md => md.color
          | none => some (fallbackColor idx)
        if color = some "black" then [0, 0, 0, 1] else [1, 1, 1, 1]

/-- The lyrics of a job are well formed: when the lyrics file exists, its
content parses to an array of objects. -/
def wellFormedLyrics (d : JobData) : Prop :=
  d.lyricsExists = true →
    ∃ records : List (List (String × JsVal)), d.lyrics = .ok (.arr (records.map JsVal.obj))

/-- A template composition with an `AUDIO` layer, for the worked examples. -/
def sampleTemplate : Comp :=
  { name := "Aurora_Template"
    duration := 10
    layers := [{ name := "AUDIO", source := "placeholder.wav", markers := [], fill := none,
                 sourceText := none }] }

/-- A project composition named `Aurora_001` with an `AUDIO` layer, for the
worked examples. -/
def sampleFirst : Comp :=
  { name := "Aurora_001"
    duration := 10
    layers := [{ name := "AUDIO", source := "placeholder.wav", markers := [], fill := none,
                 sourceText := none }] }

/-- The job data of the worked examples: one lyric record, and an audio file
that exists or not. -/
def sampleData (audioExists : Bool) : JobData :=
  { audioExists := audioExists
    audioItem := some "audio_trimmed.wav"
    audioOutPoint := 30
    coverImage := false
    coverExists := false
    coverItem := none
    lyricsExists := true
    lyrics := .ok (.arr [.obj [("t", .num 0), ("lyric_current", .str "la")]])
    colors := []
    songTitle := "Song" }

/-- A job folder for the worked examples: a readable `job_data.json` holding
`sampleData`. -/
def sampleJob (audioExists : Bool) : JobFolder :=
  { dataFileExists := true
    jobData := .ok (sampleData audioExists) }

/-! ## Facts about the reverse scan -/

theorem novaScanFrom_some (segments : List Segment) (t : ℚ) (n i : Nat) (s : Segment) :
    novaScanFrom segments t n = some (i, s) ↔
      i < n ∧ segments[i]? = some s ∧ s.time ≤ t ∧
        ∀ (j : Nat) (s' : Segment), i < j → j < n → segments[j]? = some s' → ¬ s'.time ≤ t := by
  induction n with
  | zero => simp [novaScanFrom]
  | succ n ih =>
    unfold novaScanFrom
    cases hn : segments[n]? with
    | none =>
      simp only [ih]
      constructor
      · rintro ⟨h1, h2, h3, h4⟩
        refine ⟨by omega, h2, h3, ?_⟩
        intro j s' hij hj hs'
        rcases Nat.lt_succ_iff_lt_or_eq.mp hj with hlt | heq
        · exact h4 j s' hij hlt hs'
        · subst heq; rw [hn] at hs'; cases hs'
      · rintro ⟨h1, h2, h3, h4⟩
        have hne : i ≠ n := by
          intro h; subst h; rw [hn] at h2; cases h2
        exact ⟨by omega, h2, h3, fun j s' hij hj hs' => h4 j s' hij (by omega) hs'⟩
    | some sn =>
      by_cases hle : sn.time ≤ t
      · simp only [hle, if_true, Option.some.injEq, Prod.mk.injEq]
        constructor
        · rintro ⟨rfl, rfl⟩
          exact ⟨by omega, hn, hle, fun j s' hij hj _ => by omega⟩
        · rintro ⟨h1, h2, h3, h4⟩
          rcases Nat.lt_succ_iff_lt_or_eq.mp h1 with hlt | heq
          · exact absurd hle (h4 n sn hlt (by omega) hn)
          · subst heq; rw [hn] at h2; cases h2; exact ⟨rfl, rfl⟩
      · simp only [hle, if_false, ih]
        constructor
        · rintro ⟨h1, h2, h3, h4⟩
          refine ⟨by omega, h2, h3, ?_⟩
          intro j s' hij hj hs'
          rcases Nat.lt_succ_iff_lt_or_eq.mp hj with hlt | heq
          · exact h4 j s' hij hlt hs'
          · subst heq; rw [hn] at hs'; cases hs'; exact hle
        · rintro ⟨h1, h2, h3, h4⟩
          have hne : i ≠ n := by
            intro h; subst h; rw [hn] at h2; cases h2; exact hle h3
          exact ⟨by omega, h2, h3, fun j s' hij hj hs' => h4 j s' hij (by omega) hs'⟩

theorem novaScanFrom_none (segments : List Segment) (t : ℚ) (n : Nat) :
    novaScanFrom segments t n = none ↔
      ∀ (j : Nat) (s' : Segment), j < n → segments[j]? = some s' → ¬ s'.time ≤ t := by
  induction n with
  | zero => simp [novaScanFrom]
  | succ n ih =>
    unfold novaScanFrom
    cases hn : segments[n]? with
    | none =>
      simp only [ih]
      constructor
      · intro h j s' hj hs'
        rcases Nat.lt_succ_iff_lt_or_eq.mp hj with hlt | heq
        · exact h j s' hlt hs'
        · subst heq; rw [hn] at hs'; cases hs'
      · intro h j s' hj hs'
        exact h j s' (by omega) hs'
    | some sn =>
      by_cases hle : sn.time ≤ t
      · simp only [hle, if_true]
        constructor
        · intro h; cases h
        · intro h; exact absurd hle (h n sn (by omega) hn)
      · simp only [hle, if_false, ih]
        constructor
        · intro h j s' hj hs'
          rcases Nat.lt_succ_iff_lt_or_eq.mp hj with hlt | heq
          · exact h j s' hlt hs'
          · subst heq; rw [hn] at hs'; cases hs'; exact hle
        · intro h j s' hj hs'
          exact h j s' (by omega) hs'

theorem getElem?_some_lt {α : Type} (l : List α) (j : Nat) (a : α) (h : l[j]? = some a) :
    j < l.length := by
  by_contra hlt
  rw [List.getElem?_eq_none (by omega)] at h
  cases h

theorem novaScan_some_iff (segments : List Segment) (t : ℚ) (i : Nat) (s : Segment) :
    novaScan segments t = some (i, s) ↔
      (segments[i]? = some s ∧ s.time ≤ t ∧
        ∀ (j : Nat) (s' : Segment), i < j → segments[j]? = some s' → ¬ s'.time ≤ t) := by
  unfold novaScan
  rw [novaScanFrom_some]
  constructor
  · rintro ⟨_, h2, h3, h4⟩
    exact ⟨h2, h3, fun j s' hij hs' => h4 j s' hij (getElem?_some_lt _ _ _ hs') hs'⟩
  · rintro ⟨h2, h3, h4⟩
    exact ⟨getElem?_some_lt _ _ _ h2, h2, h3, fun j s' hij _ hs' => h4 j s' hij hs'⟩

theorem currentSeg_none_iff (segments : List Segment) (t : ℚ) :
    currentSeg segments t = none ↔
      ∀ (j : Nat) (s' : Segment), segments[j]? = some s' → ¬ s'.time ≤ t := by
  unfold currentSeg novaScan
  rw [Option.map_eq_none', novaScanFrom_none]
  constructor
  · intro h j s' hs'
    exact h j s' (getElem?_some_lt _ _ _ hs') hs'
  · intro h j s' _ hs'
    exact h j s' hs'

theorem pairwise_getElem? {α : Type} (R : α → α → Prop) (l : List α)
    (h : l.Pairwise R) (i j : Nat) (a b : α) (hij : i < j)
    (ha : l[i]? = some a) (hb : l[j]? = some b) : R a b := by
  have hi := getElem?_some_lt l i a ha
  have hj := getElem?_some_lt l j b hb
  rw [List.getElem?_eq_getElem hi] at ha
  rw [List.getElem?_eq_getElem hj] at hb
  cases ha; cases hb
  exact (List.pairwise_iff_getElem.mp h) i j hi hj hij

/-! ## Facts about the forward marker scan -/

theorem markerScanLoop_eq (t : ℚ) (rest : List MarkerKey) (idx : Nat) :
    markerScanLoop t rest (idx + 1) idx =
      idx + (rest.takeWhile (fun key => decide (key.time ≤ t))).length := by
  induction rest generalizing idx with
  | nil => simp [markerScanLoop]
  | cons key rest ih =>
    unfold markerScanLoop
    by_cases h : key.time ≤ t
    · simp only [h, if_true, decide_True, List.takeWhile_cons_of_pos, List.length_cons]
      rw [ih (idx + 1)]
      omega
    · simp [h]

theorem markerScan_eq (keys : List MarkerKey) (t : ℚ) :
    markerScan keys t = (keys.takeWhile (fun key => decide (key.time ≤ t))).length := by
  unfold markerScan
  rw [markerScanLoop_eq]
  omega

theorem takeWhile_length_spec {α : Type} (p : α → Bool) (l : List α) :
    (∀ j, j < (l.takeWhile p).length → ∃ a, l[j]? = some a ∧ p a = true) ∧
    ((l.takeWhile p).length = l.length ∨
      ∃ a, l[(l.takeWhile p).length]? = some a ∧ p a = false) := by
  induction l with
  | nil => simp
  | cons a l ih =>
    by_cases h : p a = true
    · rw [List.takeWhile_cons_of_pos h]
      constructor
      · intro j hj
        cases j with
        | zero => exact ⟨a, by simp, h⟩
        | succ j =>
          obtain ⟨b, hb, hpb⟩ := ih.1 j (by simpa using hj)
          exact ⟨b, by simpa using hb, hpb⟩
      · rcases ih.2 with heq | ⟨b, hb, hpb⟩
        · left; simp [heq]
        · right; exact ⟨b, by simpa using hb, hpb⟩
    · rw [List.takeWhile_cons_of_neg h]
      constructor
      · intro j hj; simp at hj
      · right; exact ⟨a, by simp, by simpa using h⟩

/-! ## Facts about the Nova word loop and the trailing white space -/

theorem novaWordLoop_acc (t : ℚ) (words : List Word) (acc : String) :
    words.foldl (fun output w => if w.start ≤ t then output ++ (w.word ++ " ") else output) acc =
      acc ++ novaWordLoop words t := by
  unfold novaWordLoop
  induction words generalizing acc with
  | nil => simp
  | cons w ws ih =>
    simp only [List.foldl_cons]
    rw [ih, ih (if w.start ≤ t then "" ++ (w.word ++ " ") else "")]
    by_cases h : w.start ≤ t
    · simp only [h, if_true, String.empty_append, String.append_assoc]
    · simp only [h, if_false, String.empty_append]

theorem novaWordLoop_nil (t : ℚ) : novaWordLoop [] t = "" := rfl

theorem novaWordLoop_cons (t : ℚ) (w : Word) (ws : List Word) :
    novaWordLoop (w :: ws) t =
      (if w.start ≤ t then w.word ++ " " else "") ++ novaWordLoop ws t := by
  have h := novaWordLoop_acc t ws (if w.start ≤ t then "" ++ (w.word ++ " ") else "")
  simp only [String.empty_append] at h
  rw [← h]
  rfl

theorem novaWordLoop_split (t : ℚ) (l : List Word) (w : Nat) (x : Word)
    (h : l[w]? = some x) (hx : x.start ≤ t) :
    novaWordLoop l t =
      novaWordLoop (l.take w) t ++ (x.word ++ " ") ++ novaWordLoop (l.drop (w + 1)) t := by
  induction l generalizing w with
  | nil => simp at h
  | cons a l ih =>
    cases w with
    | zero =>
      simp only [List.getElem?_cons_zero, Option.some.injEq] at h
      subst h
      rw [novaWordLoop_cons]
      simp [hx, novaWordLoop_nil]
    | succ w =>
      simp only [List.getElem?_cons_succ] at h
      rw [novaWordLoop_cons, ih w h]
      simp only [List.take_succ_cons, List.drop_succ_cons]
      rw [novaWordLoop_cons]
      simp only [String.append_assoc]

theorem novaWordLoop_data (t : ℚ) (words : List Word) :
    (novaWordLoop words t).data =
      spaced ((words.filter (fun w => decide (w.start ≤ t))).map Word.word) := by
  induction words with
  | nil => rfl
  | cons w ws ih =>
    rw [novaWordLoop_cons, String.data_append, ih]
    by_cases h : w.start ≤ t
    · simp [h, spaced]
    · simp [h, spaced]

theorem intercalate_go_data (sep acc : String) (l : List String) :
    (String.intercalate.go acc sep l).data =
      acc.data ++ (l.map (fun x => sep.data ++ x.data)).flatten := by
  induction l generalizing acc with
  | nil => simp [String.intercalate.go]
  | cons a l ih =>
    simp only [String.intercalate.go, ih, String.data_append, List.map_cons,
      List.flatten_cons, List.append_assoc]

theorem intercalate_cons_data (sep a : String) (l : List String) :
    (String.intercalate sep (a :: l)).data =
      a.data ++ (l.map (fun x => sep.data ++ x.data)).flatten := by
  simp only [String.intercalate, intercalate_go_data]

theorem space_spaced (l : List String) :
    [' '] ++ spaced l = (l.map (fun x => (" " : String).data ++ x.data)).flatten ++ [' '] := by
  induction l with
  | nil => rfl
  | cons a l ih =>
    have h : spaced (a :: l) = a.data ++ ([' '] ++ spaced l) := by
      simp [spaced]
    rw [h, ih]
    simp [List.append_assoc]

theorem spaced_eq_intercalate (a : String) (l : List String) :
    spaced (a :: l) = (String.intercalate " " (a :: l)).data ++ [' '] := by
  have h : spaced (a :: l) = a.data ++ ([' '] ++ spaced l) := by
    simp [spaced]
  rw [h, space_spaced, intercalate_cons_data, List.append_assoc]

theorem jsTrimEnd_spaced (l : List String) :
    String.mk ((spaced l).rdropWhile jsWhitespace) = jsTrimEnd (String.intercalate " " l) := by
  cases l with
  | nil => rfl
  | cons a l =>
    rw [spaced_eq_intercalate, List.rdropWhile_concat_pos _ _ _ (by decide)]
    rfl

theorem jsTrimEnd_novaWordLoop (t : ℚ) (words : List Word) :
    jsTrimEnd (novaWordLoop words t) =
      jsTrimEnd (String.intercalate " "
        ((words.filter (fun w => decide (w.start ≤ t))).map Word.word)) := by
  rw [← jsTrimEnd_spaced, ← novaWordLoop_data]
  rfl

theorem intercalate_concat_data (init : List String) (x : String) :
    ∃ pre, (String.intercalate " " (init ++ [x])).data = pre ++ x.data := by
  cases init with
  | nil => exact ⟨[], by simp [String.intercalate, String.intercalate.go]⟩
  | cons a init =>
    refine ⟨a.data ++ (init.map (fun y => (" " : String).data ++ y.data)).flatten ++
      (" " : String).data, ?_⟩
    rw [List.cons_append, intercalate_cons_data]
    simp [List.append_assoc]

theorem jsTrimEnd_intercalate_self (l : List String)
    (h : ∀ x, l.getLast? = some x → ∃ c, x.data.getLast? = some c ∧ jsWhitespace c = false) :
    jsTrimEnd (String.intercalate " " l) = String.intercalate " " l := by
  rcases hl : l.getLast? with _ | x
  · rw [List.getLast?_eq_none_iff] at hl
    subst hl
    rfl
  · obtain ⟨c, hc, hws⟩ := h x hl
    have hsplit := List.dropLast_append_getLast? x (by simpa using hl)
    have hxs := List.dropLast_append_getLast? c (by simpa using hc)
    obtain ⟨pre, hpre⟩ := intercalate_concat_data l.dropLast x
    rw [hsplit] at hpre
    unfold jsTrimEnd
    rw [hpre, ← hxs, ← List.append_assoc,
      List.rdropWhile_concat_neg _ _ _ (by simp [hws])]
    apply String.ext
    rw [hpre, List.append_assoc, hxs]

/-! ## Facts about the Visuals-Nova word loop -/

theorem join_acc (l : List String) (acc : String) :
    l.foldl (fun r x => r ++ x) acc = acc ++ String.join l := by
  unfold String.join
  induction l generalizing acc with
  | nil => simp
  | cons a l ih =>
    simp only [List.foldl_cons]
    rw [ih, ih ("" ++ a)]
    simp only [String.empty_append, String.append_assoc]

theorem join_cons (a : String) (l : List String) :
    String.join (a :: l) = a ++ String.join l := by
  have h := join_acc l a
  rw [← h]
  rfl

theorem wordRevealLoop_eq (t : ℚ) (len : Nat) (ws : List Word) (i : Nat) (output : String) :
    wordRevealLoop t len ws i output =
      output ++ String.join
        (((ws.takeWhile (fun w => decide (w.start ≤ t))).enumFrom i).map (revealPiece len)) := by
  induction ws generalizing i output with
  | nil => simp [wordRevealLoop, String.join]
  | cons w ws ih =>
    unfold wordRevealLoop
    by_cases h : w.start ≤ t
    · simp only [h, if_true, decide_True, List.takeWhile_cons_of_pos, List.enumFrom_cons,
        List.map_cons]
      rw [ih, join_cons]
      by_cases hi : i < len - 1
      · simp only [revealPiece, hi, if_true, String.append_assoc]
      · simp only [revealPiece, hi, if_false, String.append_assoc]
    · simp [h, String.join]

theorem takeWhile_eq_filter_of_sorted (t : ℚ) (words : List Word)
    (hsorted : words.Pairwise (fun a b => a.start ≤ b.start)) :
    words.takeWhile (fun w => decide (w.start ≤ t)) =
      words.filter (fun w => decide (w.start ≤ t)) := by
  induction words with
  | nil => rfl
  | cons w ws ih =>
    rw [List.pairwise_cons] at hsorted
    by_cases h : w.start ≤ t
    · rw [List.takeWhile_cons_of_pos (by simpa using h),
        List.filter_cons_of_pos (by simpa using h), ih hsorted.2]
    · rw [List.takeWhile_cons_of_neg (by simpa using h),
        List.filter_cons_of_neg (by simpa using h)]
      symm
      rw [List.filter_eq_nil_iff]
      intro b hb
      have := hsorted.1 b hb
      simp only [decide_eq_true_eq, not_le]
      exact lt_of_lt_of_le (lt_of_not_le h) this

theorem takeWhile_length_lt_iff {α : Type} (p : α → Bool) (l : List α) (i : Nat) :
    i < (l.takeWhile p).length ↔ ∀ j, j ≤ i → ∃ a, l[j]? = some a ∧ p a = true := by
  obtain ⟨hpre, hnext⟩ := takeWhile_length_spec p l
  constructor
  · intro hi j hj
    exact hpre j (by omega)
  · intro h
    by_contra hlt
    have hn : (l.takeWhile p).length ≤ i := by omega
    obtain ⟨a, ha, hpa⟩ := h _ hn
    rcases hnext with heq | ⟨b, hb, hpb⟩
    · have := getElem?_some_lt l _ a ha
      omega
    · rw [ha] at hb
      cases hb
      rw [hpa] at hpb
      cases hpb

theorem toFixed3_zero : toFixed3 0 = 0 := by
  simp [toFixed3]
  norm_num

/-! ## Claims -/

/-- C1: for every segment sequence, sorted or not, and every playback time `t`,
the scan of the Nova expression selects index `i` with object `s` exactly when
`segments[i]` is `s`, `s.time <= t`, and no segment at a higher index has
`time <= t`; it selects nothing (`currentSeg` stays `null`) exactly when no
segment has `time <= t`. -/
theorem novaScan_selects_highest_started (segments : List Segment) (t : ℚ) :
    (∀ (i : Nat) (s : Segment), novaScan segments t = some (i, s) ↔
        (segments[i]? = some s ∧ s.time ≤ t ∧
          ∀ (j : Nat) (s' : Segment), i < j → segments[j]? = some s' → ¬ s'.time ≤ t)) ∧
    (currentSeg segments t = none ↔ ∀ (j : Nat) (s' : Segment), segments[j]? = some s' → ¬ s'.time ≤ t) :=
  ⟨fun i s => novaScan_some_iff segments t i s, currentSeg_none_iff segments t⟩

/-- C2: for every sequence and every time `t`, a selected position brackets
`t`.  Reverse scan of the Nova expression: if it selects index `i` with object
`s`, then `s` is `segments[i]`, `s.time <= t`, and `i` is the last index or
`segments[i+1].time > t`.  Forward marker scan of the Visuals-Nova expressions:
if `idx` is not `0`, then `key(idx).time <= t` and `idx` is `numKeys` or
`key(idx+1).time > t` (`key(k)` is `keys[k-1]`). -/
theorem scan_result_brackets_time (segments : List Segment) (keys : List MarkerKey) (t : ℚ) :
    (∀ (i : Nat) (s : Segment), novaScan segments t = some (i, s) →
        segments[i]? = some s ∧ s.time ≤ t ∧
          (i + 1 = segments.length ∨ ∃ s', segments[i + 1]? = some s' ∧ t < s'.time)) ∧
    (markerScan keys t ≠ 0 →
        (∃ key, keys[markerScan keys t - 1]? = some key ∧ key.time ≤ t) ∧
          (markerScan keys t = keys.length ∨
            ∃ next, keys[markerScan keys t]? = some next ∧ t < next.time)) := by
  constructor
  · intro i s h
    obtain ⟨h1, h2, h3⟩ := (novaScan_some_iff segments t i s).mp h
    refine ⟨h1, h2, ?_⟩
    have hi := getElem?_some_lt _ _ _ h1
    by_cases hlast : i + 1 = segments.length
    · exact Or.inl hlast
    · right
      have hlt : i + 1 < segments.length := by omega
      refine ⟨segments[i + 1], List.getElem?_eq_getElem hlt, ?_⟩
      exact lt_of_not_le (h3 (i + 1) _ (by omega) (List.getElem?_eq_getElem hlt))
  · intro hne
    rw [markerScan_eq] at hne ⊢
    obtain ⟨hpre, hnext⟩ := takeWhile_length_spec (fun key => decide (key.time ≤ t)) keys
    constructor
    · obtain ⟨a, ha, hpa⟩ := hpre _ (Nat.sub_lt (Nat.pos_of_ne_zero hne) Nat.one_pos)
      exact ⟨a, ha, by simpa using hpa⟩
    · rcases hnext with heq | ⟨a, ha, hpa⟩
      · exact Or.inl heq
      · exact Or.inr ⟨a, ha, by simpa using hpa⟩

/-- C3: for a non-empty segment sequence sorted non-decreasingly by start time
and a time `t` strictly before the first start time, the Nova reverse scan
leaves `currentSeg` null and the Nova expression is the empty string; for a
non-empty marker sequence (sorted or not) whose first key lies after `t`, the
Visuals-Nova forward scan leaves `idx = 0` and the word-reveal expression is the empty
string. -/
theorem before_first_segment_selects_none (segments : List Segment) (keys : List MarkerKey)
    (t : ℚ) (s0 : Segment) (k0 : MarkerKey)
    (hsorted : segments.Pairwise (fun a b => a.time ≤ b.time))
    (hs0 : segments[0]? = some s0) (hts : t < s0.time)
    (hk0 : keys[0]? = some k0) (htk : t < k0.time) :
    currentSeg segments t = none ∧ novaExpression segments t = "" ∧
      markerScan keys t = 0 ∧ wordRevealExpression keys t = some "" := by
  have hnone : currentSeg segments t = none := by
    rw [currentSeg_none_iff]
    intro j s' hs' hle
    have h0 : s0.time ≤ s'.time := by
      cases j with
      | zero => rw [hs0] at hs'; cases hs'; exact le_refl _
      | succ j => exact pairwise_getElem? _ segments hsorted 0 (j + 1) s0 s' (by omega) hs0 hs'
    exact absurd (lt_of_lt_of_le hts (le_trans h0 hle)) (lt_irrefl t)
  have hscan : markerScan keys t = 0 := by
    rw [markerScan_eq]
    cases keys with
    | nil => rfl
    | cons key rest =>
      simp only [List.getElem?_cons_zero, Option.some.injEq] at hk0
      subst hk0
      rw [List.takeWhile_cons_of_neg (by simpa using htk)]
      rfl
  refine ⟨hnone, ?_, hscan, ?_⟩
  · unfold novaExpression novaOutput
    rw [hnone]
    rfl
  · unfold wordRevealExpression
    simp [hscan]

/-- Witness for C3: one segment and one marker at time 1, evaluated at time 0. -/
theorem before_first_segment_selects_none_witness :
    currentSeg [⟨"la", 1, []⟩] 0 = none ∧ novaExpression [⟨"la", 1, []⟩] 0 = "" ∧
      markerScan [⟨1, "la", none⟩] 0 = 0 ∧ wordRevealExpression [⟨1, "la", none⟩] 0 = some "" :=
  before_first_segment_selects_none [⟨"la", 1, []⟩] [⟨1, "la", none⟩] 0 ⟨"la", 1, []⟩
    ⟨1, "la", none⟩ (by simp) (by simp) (by norm_num) (by simp) (by norm_num)

/-! ## Facts about the keys of a marker property -/

theorem mem_setValueAtTime (key x : MarkerKey) (keys : List MarkerKey)
    (h : x ∈ setValueAtTime key keys) : x = key ∨ x ∈ keys := by
  induction keys with
  | nil =>
    simp only [setValueAtTime, List.mem_singleton] at h
    exact Or.inl h
  | cons k rest ih =>
    unfold setValueAtTime at h
    split_ifs at h with h1 h2
    · rcases List.mem_cons.mp h with h | h
      · exact Or.inl h
      · exact Or.inr h
    · rcases List.mem_cons.mp h with h | h
      · exact Or.inl h
      · exact Or.inr (List.mem_cons_of_mem _ h)
    · rcases List.mem_cons.mp h with h | h
      · exact Or.inr (h ▸ List.mem_cons_self _ _)
      · rcases ih h with h | h
        · exact Or.inl h
        · exact Or.inr (List.mem_cons_of_mem _ h)

theorem setValueAtTime_sorted (key : MarkerKey) (keys : List MarkerKey)
    (h : keys.Pairwise (fun a b => a.time < b.time)) :
    (setValueAtTime key keys).Pairwise (fun a b => a.time < b.time) := by
  induction keys with
  | nil => simp [setValueAtTime]
  | cons k rest ih =>
    have hk := (List.pairwise_cons.mp h).1
    have hrest := (List.pairwise_cons.mp h).2
    unfold setValueAtTime
    split_ifs with h1 h2
    · refine List.pairwise_cons.mpr ⟨?_, h⟩
      intro x hx
      rcases List.mem_cons.mp hx with hx | hx
      · rw [hx]; exact h1
      · exact lt_trans h1 (hk x hx)
    · refine List.pairwise_cons.mpr ⟨?_, hrest⟩
      intro x hx
      rw [h2]
      exact hk x hx
    · refine List.pairwise_cons.mpr ⟨?_, ih hrest⟩
      intro x hx
      rcases mem_setValueAtTime key x rest hx with hx | hx
      · rw [hx]
        exact lt_of_le_of_ne (not_lt.mp h1) (fun e => h2 e.symm)
      · exact hk x hx

theorem addMarkersToLayer_sorted (keys markers : List MarkerKey)
    (h : keys.Pairwise (fun a b => a.time < b.time)) :
    (addMarkersToLayer keys markers).Pairwise (fun a b => a.time < b.time) := by
  unfold addMarkersToLayer
  induction markers generalizing keys with
  | nil => exact h
  | cons m ms ih => exact ih _ (setValueAtTime_sorted m keys h)

theorem setValueAtTime_after (key : MarkerKey) (keys : List MarkerKey)
    (h : ∀ k ∈ keys, k.time < key.time) : setValueAtTime key keys = keys ++ [key] := by
  induction keys with
  | nil => rfl
  | cons k rest ih =>
    have hk := h k (List.mem_cons_self _ _)
    have h1 : ¬ key.time < k.time := not_lt.mpr (le_of_lt hk)
    have h2 : ¬ key.time = k.time := fun e => absurd hk (by rw [e]; exact lt_irrefl _)
    simp only [setValueAtTime, h1, h2, if_false, List.cons_append]
    rw [ih (fun x hx => h x (List.mem_cons_of_mem _ hx))]

theorem addMarkersToLayer_append (keys markers : List MarkerKey)
    (h : (keys ++ markers).Pairwise (fun a b => a.time < b.time)) :
    addMarkersToLayer keys markers = keys ++ markers := by
  unfold addMarkersToLayer
  induction markers generalizing keys with
  | nil => simp
  | cons m ms ih =>
    have hm : ∀ k ∈ keys, k.time < m.time := fun k hk =>
      (List.pairwise_append.mp h).2.2 k hk m (List.mem_cons_self _ _)
    rw [List.foldl_cons, setValueAtTime_after m keys hm]
    have h2 : (keys ++ [m] ++ ms).Pairwise (fun a b => a.time < b.time) := by
      simpa using h
    rw [ih _ h2]
    simp

theorem addMarkersToLayer_increasing (markers : List MarkerKey)
    (h : markers.Pairwise (fun a b => a.time < b.time)) :
    addMarkersToLayer [] markers = markers := by
  have := addMarkersToLayer_append [] markers (by simpa using h)
  simpa using this

/-! ## The forward scan after the last key -/

/-- C4, counterexample: the segments at times 5 and 0, in this array order, are
placed by `addMarkersToLayer` as the keys at times 0 and 5.  At `t = 1`, which
is at or after the start time 0 of the last element, the forward scan accepts
key 1 and breaks at key 2: it returns `idx = 1`, not `len = 2`. -/
theorem markerScan_unsorted_counterexample :
    addMarkersToLayer [] [⟨5, "a", none⟩, ⟨0, "b", none⟩] =
        [⟨0, "b", none⟩, ⟨5, "a", none⟩] ∧
      ([⟨5, "a", none⟩, ⟨0, "b", none⟩] : List MarkerKey).getLast? = some ⟨0, "b", none⟩ ∧
      (0 : ℚ) ≤ 1 ∧
      markerScan (addMarkersToLayer [] [⟨5, "a", none⟩, ⟨0, "b", none⟩]) 1 = 1 ∧
      ([⟨5, "a", none⟩, ⟨0, "b", none⟩] : List MarkerKey).length = 2 := by
  have h : addMarkersToLayer [] [⟨5, "a", none⟩, ⟨0, "b", none⟩] =
      [⟨0, "b", none⟩, ⟨5, "a", none⟩] := by
    simp [addMarkersToLayer, setValueAtTime]
  refine ⟨h, rfl, by norm_num, ?_, rfl⟩
  rw [h]
  simp [markerScan, markerScanLoop]

/-- C4, amended: for every non-empty key sequence sorted non-decreasingly by
time and every `t` at or after the time of the last key, the forward marker
scan of the Visuals-Nova expressions returns the last index, `idx = len`. -/
theorem markerScan_after_last_sorted (keys : List MarkerKey) (t : ℚ) (last : MarkerKey)
    (hsorted : keys.Pairwise (fun a b => a.time ≤ b.time))
    (hlast : keys.getLast? = some last) (ht : last.time ≤ t) :
    markerScan keys t = keys.length := by
  rw [markerScan_eq]
  have hall : ∀ key ∈ keys, decide (key.time ≤ t) = true := by
    intro key hkey
    have hsplit := List.dropLast_append_getLast? last (by simpa using hlast)
    rw [← hsplit] at hsorted hkey
    rw [List.pairwise_append] at hsorted
    rcases List.mem_append.mp hkey with hin | hin
    · exact decide_eq_true (le_trans (hsorted.2.2 key hin last (by simp)) ht)
    · simp only [List.mem_singleton] at hin
      subst hin
      exact decide_eq_true ht
  rw [(List.takeWhile_eq_self_iff).mpr hall]

/-- Witness for C4 amended: keys at times 0 and 2, evaluated at `t = 3`. -/
theorem markerScan_after_last_sorted_witness :
    markerScan [⟨0, "a", none⟩, ⟨2, "b", none⟩] 3 = 2 :=
  markerScan_after_last_sorted [⟨0, "a", none⟩, ⟨2, "b", none⟩] 3 ⟨2, "b", none⟩
    (by simp) (by simp) (by norm_num)

/-- C5, counterexample: in the sequence with times 1, 1, 0 (not sorted) and at
`t = 1`, segments 0 and 1 share the start time 1 <= t and no segment starts
later than 1, yet the reverse scan selects index 2 (start time 0), not the
greatest index among the tied ones, which is 1. -/
theorem novaScan_tie_unsorted_counterexample :
    novaScan [⟨"a", 1, []⟩, ⟨"b", 1, []⟩, ⟨"c", 0, []⟩] 1 = some (2, ⟨"c", 0, []⟩) ∧
      novaScan [⟨"a", 1, []⟩, ⟨"b", 1, []⟩, ⟨"c", 0, []⟩] 1 ≠ some (1, ⟨"b", 1, []⟩) := by
  have h : novaScan [⟨"a", 1, []⟩, ⟨"b", 1, []⟩, ⟨"c", 0, []⟩] 1 = some (2, ⟨"c", 0, []⟩) := by
    simp [novaScan, novaScanFrom]
  refine ⟨h, ?_⟩
  rw [h]
  simp

/-- C5, amended: for every segment sequence sorted non-decreasingly by start
time and every time `t`, when segments share a start time `τ <= t`, `i` is the
greatest index with that start time, and no segment starting later than `τ` has
started, the Nova reverse scan selects index `i`, never an earlier one. -/
theorem novaScan_tie_selects_greatest_index (segments : List Segment) (t τ : ℚ)
    (i : Nat) (s : Segment)
    (hsorted : segments.Pairwise (fun a b => a.time ≤ b.time))
    (hi : segments[i]? = some s) (hτ : s.time = τ) (hle : τ ≤ t)
    (hmax : ∀ (j : Nat) (s' : Segment), i < j → segments[j]? = some s' → s'.time ≠ τ)
    (hlater : ∀ (j : Nat) (s' : Segment), segments[j]? = some s' → τ < s'.time → t < s'.time) :
    novaScan segments t = some (i, s) := by
  rw [novaScan_some_iff]
  refine ⟨hi, by rw [hτ]; exact hle, ?_⟩
  intro j s' hij hs'
  have h1 : s.time ≤ s'.time := pairwise_getElem? _ segments hsorted i j s s' hij hi hs'
  have h2 : τ < s'.time := lt_of_le_of_ne (hτ ▸ h1) (fun h => hmax j s' hij hs' h.symm)
  exact not_le_of_lt (hlater j s' hs' h2)

/-- Witness for C5 amended: times 0, 1, 1, 3 at `t = 2`; the tie at time 1 is
resolved to index 2. -/
theorem novaScan_tie_selects_greatest_index_witness :
    novaScan [⟨"a", 0, []⟩, ⟨"b", 1, []⟩, ⟨"c", 1, []⟩, ⟨"d", 3, []⟩] 2 =
      some (2, ⟨"c", 1, []⟩) :=
  novaScan_tie_selects_greatest_index
    [⟨"a", 0, []⟩, ⟨"b", 1, []⟩, ⟨"c", 1, []⟩, ⟨"d", 3, []⟩] 2 1 2 ⟨"c", 1, []⟩
    (by simp) (by simp) rfl (by norm_num)
    (by
      intro j s' hij hs'
      match j, hij with
      | 3, _ =>
        simp at hs'
        subst hs'
        norm_num
      | j + 4, _ => simp at hs')
    (by
      intro j s' hs' hlt
      match j with
      | 0 => simp at hs'; subst hs'; norm_num at hlt
      | 1 => simp at hs'; subst hs'; norm_num at hlt
      | 2 => simp at hs'; subst hs'; norm_num at hlt
      | 3 => simp at hs'; subst hs'; norm_num
      | j + 4 => simp at hs')

/-- C6, counterexample: the current segment has the words "a" and "" (a word
record without a `word` field is embedded as the empty string), both started at
`t = 0`.  The expression yields "a", while joining the started words with a
single space gives "a " (the separator before the empty second word). -/
theorem novaExpression_intercalate_counterexample :
    currentSeg [⟨"x", 0, [⟨"a", 0, 0⟩, ⟨"", 0, 0⟩]⟩] 0 =
        some ⟨"x", 0, [⟨"a", 0, 0⟩, ⟨"", 0, 0⟩]⟩ ∧
      novaExpression [⟨"x", 0, [⟨"a", 0, 0⟩, ⟨"", 0, 0⟩]⟩] 0 = "a" ∧
      String.intercalate " "
        ((([⟨"a", 0, 0⟩, ⟨"", 0, 0⟩] : List Word).filter
          (fun w => decide (w.start ≤ 0))).map Word.word) = "a " := by
  refine ⟨?_, ?_, ?_⟩
  · simp [currentSeg, novaScan, novaScanFrom]
  · simp [novaExpression, novaOutput, currentSeg, novaScan, novaScanFrom, novaWordLoop]
    decide
  · simp
    decide

/-- C6, amended: for every current segment and every time `t`, the text of the
Nova expression is the texts of exactly those words whose start is `<= t`, in
array order, joined by a single space, with all trailing white space removed;
it is that joined text itself whenever the last such word is non-empty and does
not end in a white space character. -/
theorem novaExpression_word_reveal (segments : List Segment) (t : ℚ) (seg : Segment)
    (hcur : currentSeg segments t = some seg) :
    novaExpression segments t =
        jsTrimEnd (String.intercalate " "
          ((seg.words.filter (fun w => decide (w.start ≤ t))).map Word.word)) ∧
      ((∀ x, ((seg.words.filter (fun w => decide (w.start ≤ t))).map Word.word).getLast? = some x →
          ∃ c, x.data.getLast? = some c ∧ jsWhitespace c = false) →
        novaExpression segments t =
          String.intercalate " "
            ((seg.words.filter (fun w => decide (w.start ≤ t))).map Word.word)) := by
  have h : novaExpression segments t =
      jsTrimEnd (String.intercalate " "
        ((seg.words.filter (fun w => decide (w.start ≤ t))).map Word.word)) := by
    unfold novaExpression novaOutput
    rw [hcur]
    exact jsTrimEnd_novaWordLoop t seg.words
  refine ⟨h, fun hlast => ?_⟩
  rw [h]
  exact jsTrimEnd_intercalate_self _ hlast

/-- Witness for C6 amended: the words "go" (start 0) and "away" (start 1) at
`t = 1`. -/
theorem novaExpression_word_reveal_witness :
    novaExpression [⟨"go away", 0, [⟨"go", 0, 1⟩, ⟨"away", 1, 2⟩]⟩] 1 =
        jsTrimEnd (String.intercalate " "
          ((([⟨"go", 0, 1⟩, ⟨"away", 1, 2⟩] : List Word).filter
            (fun w => decide (w.start ≤ 1))).map Word.word)) ∧
      ((∀ x, ((([⟨"go", 0, 1⟩, ⟨"away", 1, 2⟩] : List Word).filter
            (fun w => decide (w.start ≤ 1))).map Word.word).getLast? = some x →
          ∃ c, x.data.getLast? = some c ∧ jsWhitespace c = false) →
        novaExpression [⟨"go away", 0, [⟨"go", 0, 1⟩, ⟨"away", 1, 2⟩]⟩] 1 =
          String.intercalate " "
            ((([⟨"go", 0, 1⟩, ⟨"away", 1, 2⟩] : List Word).filter
              (fun w => decide (w.start ≤ 1))).map Word.word)) :=
  novaExpression_word_reveal [⟨"go away", 0, [⟨"go", 0, 1⟩, ⟨"away", 1, 2⟩]⟩] 1
    ⟨"go away", 0, [⟨"go", 0, 1⟩, ⟨"away", 1, 2⟩]⟩
    (by simp [currentSeg, novaScan, novaScanFrom])

/-- C7: for the words "go" (start 0) and "away" (start 1), the word-reveal loop
of `getWordRevealExpression` yields "go " (with a trailing space) at `t = 1/2`,
"go away" at `t = 1`, and "" at `t = -1`. -/
theorem wordReveal_go_away :
    wordReveal [⟨"go", 0, 0⟩, ⟨"away", 1, 0⟩] (1 / 2) = "go " ∧
      wordReveal [⟨"go", 0, 0⟩, ⟨"away", 1, 0⟩] (1 / 2) ≠ "go" ∧
      wordReveal [⟨"go", 0, 0⟩, ⟨"away", 1, 0⟩] 1 = "go away" ∧
      wordReveal [⟨"go", 0, 0⟩, ⟨"away", 1, 0⟩] (-1) = "" := by
  have h : wordReveal [⟨"go", 0, 0⟩, ⟨"away", 1, 0⟩] (1 / 2) = "go " := by
    simp [wordReveal, wordRevealLoop]
    norm_num
  refine ⟨h, ?_, ?_, ?_⟩
  · rw [h]; decide
  · simp [wordReveal, wordRevealLoop]
  · simp [wordReveal, wordRevealLoop]

/-- C8: with the single segment `{text:"hello", time:0, words:[]}` current at
`t = 0`, the Nova expression yields the empty string, not the segment text. -/
theorem novaExpression_empty_words_ignores_text :
    currentSeg [⟨"hello", 0, []⟩] 0 = some ⟨"hello", 0, []⟩ ∧
      novaExpression [⟨"hello", 0, []⟩] 0 = "" ∧
      novaExpression [⟨"hello", 0, []⟩] 0 ≠ "hello" := by
  have h : novaExpression [⟨"hello", 0, []⟩] 0 = "" := by
    simp [novaExpression, novaOutput, currentSeg, novaScan, novaScanFrom, novaWordLoop]
    decide
  refine ⟨by simp [currentSeg, novaScan, novaScanFrom], h, ?_⟩
  rw [h]; decide

/-- C9, counterexample: for the words "a" (start 5) and "b" (start 0), not
sorted by start, at `t = 1` the word at index 1 has its own start `0 <= t`, yet
the loop breaks at index 0 and the output is empty: "b" is not revealed. -/
theorem wordReveal_unsorted_counterexample :
    ([⟨"a", 5, 0⟩, ⟨"b", 0, 0⟩] : List Word)[1]? = some ⟨"b", 0, 0⟩ ∧
      (⟨"b", 0, 0⟩ : Word).start ≤ 1 ∧
      wordReveal [⟨"a", 5, 0⟩, ⟨"b", 0, 0⟩] 1 = "" := by
  refine ⟨rfl, by norm_num, ?_⟩
  simp [wordReveal, wordRevealLoop]

/-- C9, amended: for every words list and every time `t`, the Visuals-Nova
word-reveal loop reveals the longest prefix of words that have all started:
word `i` appears in the output if and only if every word at an index `<= i` has
start `<= t`; the revealed words appear in array order, each followed by a
space unless it is the last word of the array.  For a words list sorted
non-decreasingly by start this prefix consists of exactly the words whose own
start is `<= t`. -/
theorem wordReveal_reveals_leading_started (words : List Word) (t : ℚ) :
    wordReveal words t =
        String.join (((words.takeWhile (fun w => decide (w.start ≤ t))).enum).map
          (revealPiece words.length)) ∧
      (∀ i, i < (words.takeWhile (fun w => decide (w.start ≤ t))).length ↔
        ∀ j, j ≤ i → ∃ w, words[j]? = some w ∧ w.start ≤ t) ∧
      (words.Pairwise (fun a b => a.start ≤ b.start) →
        words.takeWhile (fun w => decide (w.start ≤ t)) =
          words.filter (fun w => decide (w.start ≤ t))) := by
  refine ⟨?_, ?_, takeWhile_eq_filter_of_sorted t words⟩
  · unfold wordReveal
    rw [wordRevealLoop_eq, String.empty_append]
    rfl
  · intro i
    rw [takeWhile_length_lt_iff]
    simp only [decide_eq_true_eq]

/-- Witness for C9 amended: the sorted words "go" (start 0) and "away"
(start 1) at `t = 1/2`. -/
theorem wordReveal_reveals_leading_started_witness :
    ([⟨"go", 0, 0⟩, ⟨"away", 1, 0⟩] : List Word).takeWhile (fun w => decide (w.start ≤ 1 / 2)) =
      ([⟨"go", 0, 0⟩, ⟨"away", 1, 0⟩] : List Word).filter (fun w => decide (w.start ≤ 1 / 2)) :=
  (wordReveal_reveals_leading_started [⟨"go", 0, 0⟩, ⟨"away", 1, 0⟩] (1 / 2)).2.2 (by simp)

/-! ## Facts about the marker builders -/

theorem getProp_obj (fields : List (String × JsVal)) (key : String) :
    getProp (.obj fields) key = .ok (member fields key) := by
  simp only [getProp, member]
  cases List.lookup key fields <;> rfl

theorem getIndex_ok_getIndex (lyrics : JsVal) (j k : Nat) (seg : JsVal)
    (h : getIndex lyrics j = .ok seg) : ∃ next, getIndex lyrics k = .ok next := by
  cases lyrics with
  | undefined => simp [getIndex] at h
  | null => simp [getIndex] at h
  | bool b => exact ⟨_, rfl⟩
  | num q => exact ⟨_, rfl⟩
  | str s => cases hk : s.data[k]? <;> simp [getIndex, hk]
  | arr items => cases hk : items[k]? <;> simp [getIndex, hk]
  | obj fields => cases hk : List.lookup (toString k) fields <;> simp [getIndex, hk]

theorem getProp_of_truthy (v : JsVal) (key : String) (h : truthy v = true) :
    ∃ x, getProp v key = .ok x := by
  cases v with
  | undefined => simp [truthy] at h
  | null => simp [truthy] at h
  | bool b => exact ⟨_, rfl⟩
  | num q => exact ⟨_, rfl⟩
  | str s => by_cases hk : key = "length" <;> simp [getProp, hk]
  | arr items => by_cases hk : key = "length" <;> simp [getProp, hk]
  | obj fields => exact ⟨_, getProp_obj fields key⟩

theorem monoEndTime_obj (lyrics : JsVal) (duration : ℚ) (fields : List (String × JsVal))
    (j : Nat) (h : getIndex lyrics j = .ok (.obj fields)) :
    ∃ e, monoEndTime lyrics duration (.obj fields) j = .ok e := by
  obtain ⟨next, hnext⟩ := getIndex_ok_getIndex lyrics j (j + 1) _ h
  unfold monoEndTime
  simp only [getProp_obj, bind, Except.bind, hnext, pure, Except.pure]
  by_cases he : truthy (member fields "end_time") = true
  · simp [he]
  · simp only [he]
    by_cases hn : truthy next = true
    · obtain ⟨t, ht⟩ := getProp_of_truthy next "t" hn
      obtain ⟨tm, htm⟩ := getProp_of_truthy next "time" hn
      simp [hn, ht, htm]
    · simp [hn]

theorem monoMarkerCall_obj (lyrics : JsVal) (duration : ℚ) (fields : List (String × JsVal))
    (j : Nat) (h : getIndex lyrics j = .ok (.obj fields)) :
    ∃ e, monoEndTime lyrics duration (.obj fields) j = .ok e ∧
      monoMarkerCall lyrics duration j = .ok
        { time := jsOr (jsOr (member fields "t") (member fields "time")) (.num 0)
          text := jsOr (jsOr (member fields "lyric_current") (member fields "text")) (.str "")
          data := .obj
            [("text", jsOr (jsOr (member fields "lyric_current") (member fields "text")) (.str "")),
              ("words", jsOr (member fields "words") (.arr [])),
              ("color", .str (markerColor j)), ("index", .num j), ("end_time", e)] } := by
  obtain ⟨e, he⟩ := monoEndTime_obj lyrics duration fields j h
  refine ⟨e, he, ?_⟩
  unfold monoMarkerCall
  simp only [h, getProp_obj, he, bind, Except.bind, pure, Except.pure]

theorem monoMarkerCall_color (lyrics : JsVal) (duration : ℚ) (j : Nat) (c : MarkerCall)
    (h : monoMarkerCall lyrics duration j = .ok c) :
    getProp c.data "color" = .ok (.str (markerColor j)) := by
  unfold monoMarkerCall at h
  simp only [bind, Except.bind, pure, Except.pure] at h
  repeat' split at h
  all_goals cases h
  simp [getProp_obj, member, List.lookup]

theorem auroraMarkerCall_obj (lyrics : JsVal) (fields : List (String × JsVal))
    (j : Nat) (h : getIndex lyrics j = .ok (.obj fields)) :
    auroraMarkerCall lyrics j = .ok
      { time := jsOr (jsOr (member fields "t") (member fields "time")) (.num 0)
        text := jsOr (jsOr (member fields "lyric_current") (member fields "text")) (.str "")
        data := .obj fields } := by
  unfold auroraMarkerCall
  simp only [h, getProp_obj, bind, Except.bind, pure, Except.pure]

/-! ## Claims about the marker builders -/

/-- C11: for every segment index `j`, the colour label of the Mono and Onyx
marker payload is `markerColor j` whatever the lyrics and the duration are, it
is `j mod 2` under the encoding white = 0, black = 1, the indices 0, 1, 2, 3 get
0, 1, 0, 1, and two consecutive segments get different labels. -/
theorem markerColor_alternates (j : Nat) :
    (∀ (lyrics : JsVal) (duration : ℚ) (c : MarkerCall),
        monoMarkerCall lyrics duration j = .ok c →
          getProp c.data "color" = .ok (.str (markerColor j))) ∧
      colorCode (markerColor j) = some (j % 2) ∧
      markerColor j ≠ markerColor (j + 1) ∧
      colorCode (markerColor 0) = some 0 ∧ colorCode (markerColor 1) = some 1 ∧
      colorCode (markerColor 2) = some 0 ∧ colorCode (markerColor 3) = some 1 := by
  refine ⟨fun lyrics duration c h => monoMarkerCall_color lyrics duration j c h, ?_, ?_,
    by decide, by decide, by decide, by decide⟩
  · rcases Nat.mod_two_eq_zero_or_one j with h | h
    · simp [markerColor, colorCode, h]
    · simp [markerColor, colorCode, h]
  · rcases Nat.mod_two_eq_zero_or_one j with h | h
    · have h1 : (j + 1) % 2 = 1 := by omega
      simp [markerColor, h, h1]
    · have h1 : (j + 1) % 2 = 0 := by omega
      simp [markerColor, h, h1]

/-- C12, counterexample: the record `{t: 0, time: 5, lyric_current: "", text: "x"}`
has the aliases `t` and `lyric_current` present, yet its marker is placed at
time 5 with the text "x": the later aliases are used. -/
theorem alias_presence_counterexample :
    List.lookup "t" [("t", JsVal.num 0), ("time", .num 5), ("lyric_current", .str ""),
        ("text", .str "x")] = some (.num 0) ∧
      List.lookup "lyric_current" [("t", JsVal.num 0), ("time", .num 5),
        ("lyric_current", .str ""), ("text", .str "x")] = some (.str "") ∧
      ∃ c, monoMarkerCall (.arr [.obj [("t", .num 0), ("time", .num 5),
          ("lyric_current", .str ""), ("text", .str "x")]]) 9 0 = .ok c ∧
        c.time = .num 5 ∧ c.text = .str "x" := by
  refine ⟨by simp [List.lookup], by simp [List.lookup], ?_⟩
  obtain ⟨e, _, hc⟩ := monoMarkerCall_obj (.arr [.obj [("t", .num 0), ("time", .num 5),
    ("lyric_current", .str ""), ("text", .str "x")]]) 9 [("t", .num 0), ("time", .num 5),
    ("lyric_current", .str ""), ("text", .str "x")] 0 (by simp [getIndex])
  refine ⟨_, hc, ?_, ?_⟩
  · simp [member, List.lookup, jsOr, truthy]
  · simp [member, List.lookup, jsOr, truthy]

/-- C12, amended: for every raw lyric record, the Mono marker builder (and the
Aurora one) resolves the timestamp as the value of the first alias, in the
order `t` then `time`, whose value is truthy, and as 0 when neither is; and the
text as the value of the first alias, in the order `lyric_current` then `text`,
whose value is truthy, and as the empty string when neither is.  A later alias
is used only when every earlier alias is absent or falsy. -/
theorem alias_resolution_first_truthy (lyrics : JsVal) (duration : ℚ)
    (fields : List (String × JsVal)) (j : Nat)
    (h : getIndex lyrics j = .ok (.obj fields)) :
    ∃ c a, monoMarkerCall lyrics duration j = .ok c ∧ auroraMarkerCall lyrics j = .ok a ∧
      c.time = (if truthy (member fields "t") then member fields "t"
        else if truthy (member fields "time") then member fields "time" else .num 0) ∧
      c.text = (if truthy (member fields "lyric_current") then member fields "lyric_current"
        else if truthy (member fields "text") then member fields "text" else .str "") ∧
      getProp c.data "text" = .ok c.text ∧
      a.time = c.time ∧ a.text = c.text := by
  obtain ⟨e, _, hc⟩ := monoMarkerCall_obj lyrics duration fields j h
  refine ⟨_, _, hc, auroraMarkerCall_obj lyrics fields j h, ?_, ?_, ?_, rfl, rfl⟩
  · simp only [jsOr]
    by_cases h1 : truthy (member fields "t") = true
    · simp [h1]
    · by_cases h2 : truthy (member fields "time") = true <;> simp [h1, h2]
  · simp only [jsOr]
    by_cases h1 : truthy (member fields "lyric_current") = true
    · simp [h1]
    · by_cases h2 : truthy (member fields "text") = true <;> simp [h1, h2]
  · simp [getProp_obj, member, List.lookup]

/-- Witness for C12 amended: the record `{time: 2, text: "la"}`. -/
theorem alias_resolution_first_truthy_witness :
    ∃ c a, monoMarkerCall (.arr [.obj [("time", .num 2), ("text", .str "la")]]) 9 0 = .ok c ∧
      auroraMarkerCall (.arr [.obj [("time", .num 2), ("text", .str "la")]]) 0 = .ok a ∧
      c.time = (if truthy (member [("time", .num 2), ("text", .str "la")] "t")
        then member [("time", .num 2), ("text", .str "la")] "t"
        else if truthy (member [("time", .num 2), ("text", .str "la")] "time")
          then member [("time", .num 2), ("text", .str "la")] "time" else .num 0) ∧
      c.text = (if truthy (member [("time", .num 2), ("text", .str "la")] "lyric_current")
        then member [("time", .num 2), ("text", .str "la")] "lyric_current"
        else if truthy (member [("time", .num 2), ("text", .str "la")] "text")
          then member [("time", .num 2), ("text", .str "la")] "text" else .str "") ∧
      getProp c.data "text" = .ok c.text ∧
      a.time = c.time ∧ a.text = c.text :=
  alias_resolution_first_truthy (.arr [.obj [("time", .num 2), ("text", .str "la")]]) 9
    [("time", .num 2), ("text", .str "la")] 0 (by simp [getIndex])

/-- C13: for every raw lyric record processed by the Mono marker builder, a
record without `t` and `time` gets its marker at time 0, a record without
`lyric_current` and `text` gets the empty string as its text (in the marker and
in the payload), and a record without `words` gets the empty list as its
words. -/
theorem missing_fields_default (lyrics : JsVal) (duration : ℚ)
    (fields : List (String × JsVal)) (j : Nat)
    (h : getIndex lyrics j = .ok (.obj fields)) :
    ∃ c, monoMarkerCall lyrics duration j = .ok c ∧
      (List.lookup "t" fields = none → List.lookup "time" fields = none → c.time = .num 0) ∧
      (List.lookup "lyric_current" fields = none → List.lookup "text" fields = none →
        c.text = .str "" ∧ getProp c.data "text" = .ok (.str "")) ∧
      (List.lookup "words" fields = none → getProp c.data "words" = .ok (.arr [])) := by
  obtain ⟨e, _, hc⟩ := monoMarkerCall_obj lyrics duration fields j h
  refine ⟨_, hc, ?_, ?_, ?_⟩
  · intro h1 h2
    simp [member, h1, h2, jsOr, truthy]
  · intro h1 h2
    simp [getProp_obj, member, h1, h2, jsOr, truthy, List.lookup]
  · intro h1
    simp [getProp_obj, member, h1, jsOr, truthy, List.lookup]

/-- Witness for C13: the empty record `{}`. -/
theorem missing_fields_default_witness :
    ∃ c, monoMarkerCall (.arr [.obj []]) 9 0 = .ok c ∧
      (List.lookup "t" ([] : List (String × JsVal)) = none →
        List.lookup "time" ([] : List (String × JsVal)) = none → c.time = .num 0) ∧
      (List.lookup "lyric_current" ([] : List (String × JsVal)) = none →
        List.lookup "text" ([] : List (String × JsVal)) = none →
        c.text = .str "" ∧ getProp c.data "text" = .ok (.str "")) ∧
      (List.lookup "words" ([] : List (String × JsVal)) = none →
        getProp c.data "words" = .ok (.arr [])) :=
  missing_fields_default (.arr [.obj []]) 9 [] 0 (by simp [getIndex])

/-- C14: for the lyrics `[{t: 1, text: "a"}, {text: "b"}]` and the duration 9,
record 0 has no `end_time` and is not the last one; the marker of record 1 is
placed at time 0, yet the `end_time` stored in the payload of record 0 is
`undefined`, which the polyfill writes as the bare word `undefined`. -/
theorem monoEndTime_next_without_timestamp (numStr : ℚ → String) :
    ∃ c0 c1,
      monoMarkerCall (.arr [.obj [("t", .num 1), ("text", .str "a")],
        .obj [("text", .str "b")]]) 9 0 = .ok c0 ∧
      monoMarkerCall (.arr [.obj [("t", .num 1), ("text", .str "a")],
        .obj [("text", .str "b")]]) 9 1 = .ok c1 ∧
      c1.time = .num 0 ∧
      getProp c0.data "end_time" = .ok .undefined ∧
      stringify numStr c0.data =
        some ("\x7b\"text\":\"a\",\"words\":[],\"color\":\"white\",\"index\":" ++ numStr 0 ++
          ",\"end_time\":undefined\x7d") := by
  obtain ⟨e0, he0, h0⟩ := monoMarkerCall_obj (.arr [.obj [("t", .num 1), ("text", .str "a")],
    .obj [("text", .str "b")]]) 9 [("t", .num 1), ("text", .str "a")] 0 (by simp [getIndex])
  obtain ⟨e1, _, h1⟩ := monoMarkerCall_obj (.arr [.obj [("t", .num 1), ("text", .str "a")],
    .obj [("text", .str "b")]]) 9 [("text", .str "b")] 1 (by simp [getIndex])
  have hend : e0 = .undefined := by
    simp [monoEndTime, getIndex, getProp, List.lookup, bind, Except.bind,
      pure, Except.pure, jsOr, truthy] at he0
    exact he0.symm
  subst hend
  refine ⟨_, _, h0, h1, ?_, ?_, ?_⟩
  · simp [member, List.lookup, jsOr, truthy]
  · simp [getProp_obj, member, List.lookup]
  · simp [stringify, stringifyProps, stringifyItems, replaceAll, markerColor, member,
      List.lookup, jsOr, truthy, String.intercalate, String.intercalate.go]
    apply String.ext
    simp [String.data_append]

/-- C15, counterexample: for the parsed lyrics data `{}` (a JSON object, not a
sequence) `parseLyricsFile` returns the empty `linesArray` and `tAndText`, and
the Mono marker step ends without placing a marker and without an error. -/
theorem non_sequence_lyrics_counterexample :
    (∀ (numStr : ℚ → String) (strNum : String → Option ℚ),
        parseLyricsFile numStr strNum (.obj []) = .ok ([], [])) ∧
      monoMarkerStep true (.obj []) 9 = (none, none) := by
  constructor
  · intro numStr strNum
    simp [parseLyricsFile, getProp, List.lookup, loopCount, parseLyricsLoop]
  · simp [monoMarkerStep, markerStep, getProp, List.lookup, positive]

/-- C15, amended: when the parsed lyrics data is a JSON number or a JSON object
without a `length` member, building the segments does not fail:
`parseLyricsFile` returns the empty `linesArray` and `tAndText`, and the Mono
marker builder places no marker and completes normally, with or without an
`AUDIO` layer.  When the data is `null`, `parseLyricsFile` fails with the type
error of reading `length`, and the Mono marker builder fails with it exactly
when an `AUDIO` layer was found: without one the test `audioLayer && ...` does
not read `lyrics.length`, and the builder completes without placing a marker. -/
theorem non_sequence_lyrics_build_nothing (numStr : ℚ → String) (strNum : String → Option ℚ)
    (duration : ℚ) :
    (∀ (q : ℚ) (audioLayer : Bool),
        parseLyricsFile numStr strNum (.num q) = .ok ([], []) ∧
          monoMarkerStep audioLayer (.num q) duration = (none, none)) ∧
      (∀ (fields : List (String × JsVal)) (audioLayer : Bool),
        List.lookup "length" fields = none →
          parseLyricsFile numStr strNum (.obj fields) = .ok ([], []) ∧
            monoMarkerStep audioLayer (.obj fields) duration = (none, none)) ∧
      parseLyricsFile numStr strNum .null = .error typeErrorText ∧
      monoMarkerStep true .null duration = (none, some typeErrorText) ∧
      monoMarkerStep false .null duration = (none, none) := by
  refine ⟨?_, ?_, ?_, ?_, ?_⟩
  · intro q audioLayer
    constructor
    · simp [parseLyricsFile, getProp, loopCount, parseLyricsLoop]
    · cases audioLayer <;> simp [monoMarkerStep, markerStep, getProp, positive]
  · intro fields audioLayer h
    constructor
    · simp [parseLyricsFile, getProp, h, loopCount, parseLyricsLoop]
    · cases audioLayer <;> simp [monoMarkerStep, markerStep, getProp, h, positive]
  · simp [parseLyricsFile, getProp]
  · simp [monoMarkerStep, markerStep, getProp]
  · simp [monoMarkerStep, markerStep]

/-- Witness for C15 amended: the object `{"a": 1}` has no `length` member. -/
theorem non_sequence_lyrics_build_nothing_witness :
    parseLyricsFile (fun _ => "") (fun _ => none) (.obj [("a", .num 1)]) = .ok ([], []) ∧
      monoMarkerStep true (.obj [("a", .num 1)]) 9 = (none, none) :=
  (non_sequence_lyrics_build_nothing (fun _ => "") (fun _ => none) 9).2.1
    [("a", .num 1)] true (by simp [List.lookup])

/-- C16: the polyfill `JSON.stringify` escapes double quotes only.  For the text
made of `a`, a backslash, `n`, `b`, the payload text is written as the literal
`"a\nb"`, which parses back to `a`, line feed, `b`, a different string; for the
text `a`, line feed, `b` the literal holds a raw line feed and does not parse. -/
theorem stringify_keeps_backslash_unescaped (numStr : ℚ → String) :
    (∃ c, monoMarkerCall (.arr [.obj [("text", .str "a\\nb")]]) 9 0 = .ok c ∧
        getProp c.data "text" = .ok (.str "a\\nb") ∧
        stringify numStr c.data =
          some ("\x7b\"text\":\"a\\nb\",\"words\":[],\"color\":\"white\",\"index\":" ++ numStr 0 ++
            ",\"end_time\":" ++ numStr 9 ++ "\x7d")) ∧
      stringify numStr (.str "a\\nb") = some "\"a\\nb\"" ∧
      jsonParseString "\"a\\nb\"" = some "a\nb" ∧
      ("a\nb" : String) ≠ "a\\nb" ∧
      stringify numStr (.str "a\nb") = some "\"a\nb\"" ∧
      jsonParseString "\"a\nb\"" = none := by
  refine ⟨?_, ?_, by decide, by decide, ?_, by decide⟩
  · obtain ⟨e, he, hc⟩ := monoMarkerCall_obj (.arr [.obj [("text", .str "a\\nb")]]) 9
      [("text", .str "a\\nb")] 0 (by simp [getIndex])
    have hend : e = .num 9 := by
      simp [monoEndTime, getIndex, getProp, List.lookup, bind, Except.bind,
        pure, Except.pure, jsOr, truthy] at he
      exact he.symm
    subst hend
    refine ⟨_, hc, ?_, ?_⟩
    · simp [getProp_obj, member, List.lookup, jsOr, truthy]
    · simp [stringify, stringifyProps, stringifyItems, replaceAll, markerColor, member,
        List.lookup, jsOr, truthy, String.intercalate, String.intercalate.go]
      apply String.ext
      simp [String.data_append]
  · simp [stringify, replaceAll]
  · simp [stringify, replaceAll]

/-! ## Facts about the batch loop -/

theorem batchLoop_spec {σ φ : Type} (processJob : σ → φ → Nat → σ × Outcome)
    (l : List φ) (i : Nat) (b : Batch σ) :
    (batchLoop processJob l i b).project = jobStates processJob l i b.project ∧
      (batchLoop processJob l i b).successCount =
        b.successCount + (jobOutcomes processJob l i b.project).countP
          (fun o => decide (o.2 = Outcome.returned true)) ∧
      (batchLoop processJob l i b).successCount + (batchLoop processJob l i b).errorCount =
        b.successCount + b.errorCount + l.length ∧
      (batchLoop processJob l i b).errors =
        b.errors ++ (jobOutcomes processJob l i b.project).filterMap errorEntry := by
  induction l generalizing i b with
  | nil => simp [batchLoop, jobStates, jobOutcomes]
  | cons folder rest ih =>
    rcases hpj : processJob b.project folder (i + 1) with ⟨p, o⟩
    cases o with
    | returned t =>
      cases t with
      | true =>
        obtain ⟨h1, h2, h3, h4⟩ := ih (i + 1) { b with project := p, successCount := b.successCount + 1 }
        simp only [batchLoop, hpj, jobStates, jobOutcomes, List.countP_cons, List.filterMap_cons,
          errorEntry, List.length_cons]
        refine ⟨h1, ?_, ?_, h4⟩
        · rw [h2]; simp; omega
        · rw [h3]; simp; omega
      | false =>
        obtain ⟨h1, h2, h3, h4⟩ := ih (i + 1) { b with project := p, errorCount := b.errorCount + 1 }
        simp only [batchLoop, hpj, jobStates, jobOutcomes, List.countP_cons, List.filterMap_cons,
          errorEntry, List.length_cons]
        refine ⟨h1, ?_, ?_, h4⟩
        · rw [h2]; simp
        · rw [h3]; simp; omega
    | raised e =>
      obtain ⟨h1, h2, h3, h4⟩ := ih (i + 1)
        { b with project := p, errorCount := b.errorCount + 1,
                 errors := b.errors ++ ["Job " ++ toString (i + 1) ++ ": " ++ e] }
      simp only [batchLoop, hpj, jobStates, jobOutcomes, List.countP_cons, List.filterMap_cons,
        errorEntry, List.length_cons]
      refine ⟨h1, ?_, ?_, ?_⟩
      · rw [h2]; simp
      · rw [h3]; simp; omega
      · rw [h4]; simp

theorem jobOutcomes_numbers {σ φ : Type} (processJob : σ → φ → Nat → σ × Outcome)
    (l : List φ) (i : Nat) (s : σ) :
    (jobOutcomes processJob l i s).map Prod.fst = List.range' (i + 1) l.length := by
  induction l generalizing i s with
  | nil => rfl
  | cons folder rest ih =>
    simp only [jobOutcomes, List.map_cons, List.length_cons, List.range'_succ, ih]

theorem take_five_spec (errors : List String) :
    errors.take (min 5 errors.length) = errors.take 5 := by
  by_cases h : 5 ≤ errors.length
  · rw [Nat.min_eq_left h]
  · rw [Nat.min_eq_right (by omega), List.take_length, List.take_of_length_le (by omega)]

/-! ## Claims about the batch loop and the report -/

/-- C17: for every list of job folders and every behaviour of `processJob`, the
batch loop of `main` calls `processJob` once per folder in list order with the
job numbers 1, 2, ..., n, each call starting from the host state the previous
one left whether or not it raised; at the end `successCount` is the number of
calls that returned a truthy value, `successCount + errorCount = n`, and
`errors` holds one message per raising job, in job order. -/
theorem batch_loop_isolates_failures {σ φ : Type} (processJob : σ → φ → Nat → σ × Outcome)
    (project : σ) (jobFolders : List φ) :
    (jobOutcomes processJob jobFolders 0 project).map Prod.fst =
        List.range' 1 jobFolders.length ∧
      (runBatch processJob project jobFolders).project =
        jobStates processJob jobFolders 0 project ∧
      (runBatch processJob project jobFolders).successCount =
        (jobOutcomes processJob jobFolders 0 project).countP
          (fun o => decide (o.2 = Outcome.returned true)) ∧
      (runBatch processJob project jobFolders).successCount +
          (runBatch processJob project jobFolders).errorCount = jobFolders.length ∧
      (runBatch processJob project jobFolders).errors =
        (jobOutcomes processJob jobFolders 0 project).filterMap errorEntry := by
  obtain ⟨h1, h2, h3, h4⟩ := batchLoop_spec processJob jobFolders 0
    { project := project, successCount := 0, errorCount := 0, errors := [] }
  refine ⟨jobOutcomes_numbers processJob jobFolders 0 project, h1, ?_, ?_, ?_⟩
  · simpa [runBatch] using h2
  · simpa [runBatch] using h3
  · simpa [runBatch] using h4

/-- C20, counterexample: for a batch with one success and no failure the report
is the header, the success line and the closing line; it states no failure
count. -/
theorem report_without_failures_counterexample :
    reportMessage "Aurora" 1 0 [] =
      "Apollova Aurora Injection Complete!\n\n✓ Successfully processed: 1 jobs\n" ++
        "\n\nNext: Review compositions and add to render queue." := by
  decide

/-- C20, amended: for every batch outcome the final report states the success
count; when at least one job failed it also states the total failure count and
lists exactly the first `min 5 k` of the `k` recorded failure messages, in job
order, so that failures beyond the fifth are counted but not listed; when no
job failed the report has no failure line. -/
theorem report_lists_first_five (product : String) (successCount errorCount : Nat)
    (errors : List String) :
    (0 < errorCount →
        reportMessage product successCount errorCount errors =
          "Apollova " ++ product ++ " Injection Complete!\n\n" ++
            ("✓ Successfully processed: " ++ toString successCount ++ " jobs\n") ++
            ("✗ Errors: " ++ toString errorCount ++ " jobs\n\n") ++
            "\n".intercalate (errors.take (min 5 errors.length)) ++
            "\n\nNext: Review compositions and add to render queue.") ∧
      (errorCount = 0 →
        reportMessage product successCount errorCount errors =
          "Apollova " ++ product ++ " Injection Complete!\n\n" ++
            ("✓ Successfully processed: " ++ toString successCount ++ " jobs\n") ++
            "\n\nNext: Review compositions and add to render queue.") ∧
      (errors.take (min 5 errors.length)).length = min 5 errors.length ∧
      (∀ i, i < min 5 errors.length →
        (errors.take (min 5 errors.length))[i]? = errors[i]?) := by
  refine ⟨?_, ?_, ?_, ?_⟩
  · intro h
    rw [take_five_spec]
    simp [reportMessage, h]
  · intro h
    simp [reportMessage, h]
  · simp
  · intro i hi
    rw [List.getElem?_take_of_lt hi]

/-- Witness for C20 amended: seven failures out of eight jobs. -/
theorem report_lists_first_five_witness :
    reportMessage "Mono" 1 7 ["e1", "e2", "e3", "e4", "e5", "e6", "e7"] =
      "Apollova " ++ "Mono" ++ " Injection Complete!\n\n" ++
        ("✓ Successfully processed: " ++ toString 1 ++ " jobs\n") ++
        ("✗ Errors: " ++ toString 7 ++ " jobs\n\n") ++
        "\n".intercalate (["e1", "e2", "e3", "e4", "e5", "e6", "e7"].take
          (min 5 ["e1", "e2", "e3", "e4", "e5", "e6", "e7"].length)) ++
        "\n\nNext: Review compositions and add to render queue." :=
  (report_lists_first_five "Mono" 1 7 ["e1", "e2", "e3", "e4", "e5", "e6", "e7"]).1 (by decide)

/-! ## Facts about `findCompByName` and `processJob` -/

theorem findCompFrom_some_iff (name : String) (l : List Item) (k i : Nat) (c : Comp) :
    findCompFrom name l k = some (i, c) ↔
      ∃ m, i = k + m ∧ l[m]? = some (.comp c) ∧ c.name = name ∧
        ∀ (m' : Nat) (c' : Comp), m' < m → l[m']? = some (.comp c') → c'.name ≠ name := by
  induction l generalizing k with
  | nil => simp [findCompFrom]
  | cons item rest ih =>
    cases item with
    | other n =>
      simp only [findCompFrom, ih]
      constructor
      · rintro ⟨m, h1, h2, h3, h4⟩
        refine ⟨m + 1, by omega, by simpa using h2, h3, ?_⟩
        intro m' c' hm' hc'
        cases m' with
        | zero => simp at hc'
        | succ m' => exact h4 m' c' (by omega) (by simpa using hc')
      · rintro ⟨m, h1, h2, h3, h4⟩
        cases m with
        | zero => simp at h2
        | succ m =>
          refine ⟨m, by omega, by simpa using h2, h3, ?_⟩
          intro m' c' hm' hc'
          exact h4 (m' + 1) c' (by omega) (by simpa using hc')
    | comp c0 =>
      by_cases hname : c0.name = name
      · simp only [findCompFrom, hname, if_true, Option.some.injEq, Prod.mk.injEq]
        constructor
        · rintro ⟨rfl, rfl⟩
          exact ⟨0, rfl, by simp, hname, fun m' c' hm' _ => by omega⟩
        · rintro ⟨m, h1, h2, h3, h4⟩
          cases m with
          | zero =>
            simp only [List.getElem?_cons_zero, Option.some.injEq, Item.comp.injEq] at h2
            exact ⟨by omega, h2⟩
          | succ m => exact absurd hname (h4 0 c0 (by omega) (by simp))
      · simp only [findCompFrom, hname, if_false, ih]
        constructor
        · rintro ⟨m, h1, h2, h3, h4⟩
          refine ⟨m + 1, by omega, by simpa using h2, h3, ?_⟩
          intro m' c' hm' hc'
          cases m' with
          | zero =>
            simp only [List.getElem?_cons_zero, Option.some.injEq, Item.comp.injEq] at hc'
            subst hc'
            exact hname
          | succ m' => exact h4 m' c' (by omega) (by simpa using hc')
        · rintro ⟨m, h1, h2, h3, h4⟩
          cases m with
          | zero =>
            simp only [List.getElem?_cons_zero, Option.some.injEq, Item.comp.injEq] at h2
            subst h2
            exact absurd h3 hname
          | succ m =>
            refine ⟨m, by omega, by simpa using h2, h3, ?_⟩
            intro m' c' hm' hc'
            exact h4 (m' + 1) c' (by omega) (by simpa using hc')

theorem findCompByName_some_iff (items : List Item) (name : String) (i : Nat) (c : Comp) :
    findCompByName items name = some (i, c) ↔
      items[i]? = some (.comp c) ∧ c.name = name ∧
        ∀ (m : Nat) (c' : Comp), m < i → items[m]? = some (.comp c') → c'.name ≠ name := by
  unfold findCompByName
  rw [findCompFrom_some_iff]
  constructor
  · rintro ⟨m, h1, h2, h3, h4⟩
    have : i = m := by omega
    subst this
    exact ⟨h2, h3, h4⟩
  · rintro ⟨h2, h3, h4⟩
    exact ⟨i, by omega, h2, h3, h4⟩

theorem acquireComp_error_iff (items : List Item) (n : Nat) (e : String) :
    acquireComp items n = .error e ↔
      e = templateNotFound ∧ findCompByName items (auroraCompName n) = none ∧
        findCompByName items "Aurora_Template" = none ∧
        findCompByName items "Aurora_001" = none := by
  unfold acquireComp
  rcases h1 : findCompByName items (auroraCompName n) with _ | ⟨i, c⟩
  · rcases h2 : findCompByName items "Aurora_Template" with _ | ⟨i, c⟩
    · rcases h3 : findCompByName items "Aurora_001" with _ | ⟨i, c⟩
      · simp [eq_comm]
      · simp
    · simp
  · simp

theorem processJob_ok (items : List Item) (folder : JobFolder) (n : Nat) (d : JobData)
    (target : CompTarget) (hfile : folder.dataFileExists = true)
    (hdata : folder.jobData = .ok d) (ha : acquireComp items n = .ok target) :
    (processJob items folder n).1 =
        (openTarget items n target).1.set (openTarget items n target).2.1
          (Item.comp (jobSteps d (openTarget items n target).2.2).1) ∧
      (processJob items folder n).2 =
        (match (jobSteps d (openTarget items n target).2.2).2 with
          | none => Outcome.returned true
          | some e => Outcome.raised e) := by
  simp only [processJob, hfile, hdata, ha, if_true]
  rcases openTarget items n target with ⟨items', idx, comp⟩
  simp only
  rcases jobSteps d comp with ⟨c', _ | e⟩ <;> exact ⟨rfl, rfl⟩

/-! ## Facts about the steps of `processJob` -/

theorem audioStep_name (d : JobData) (comp : Comp) : (audioStep d comp).name = comp.name := by
  unfold audioStep
  repeat' split
  all_goals rfl

theorem coverStep_name (d : JobData) (comp : Comp) : (coverStep d comp).name = comp.name := by
  unfold coverStep
  repeat' split
  all_goals rfl

theorem lyricsStep_name (d : JobData) (comp : Comp) :
    (lyricsStep d comp).1.name = comp.name := by
  unfold lyricsStep
  repeat' split
  all_goals rfl

theorem setLayerColor_name (comp : Comp) (layerName hexColor : String) :
    (setLayerColor comp layerName hexColor).name = comp.name := by
  unfold setLayerColor
  split <;> rfl

theorem colorStep_name (d : JobData) (comp : Comp) : (colorStep d comp).name = comp.name := by
  unfold colorStep
  split
  · simp only [setLayerColor_name]
  · rfl

theorem titleStep_name (d : JobData) (comp : Comp) : (titleStep d comp).name = comp.name := by
  unfold titleStep
  split <;> rfl

theorem jobSteps_name (d : JobData) (comp : Comp) : (jobSteps d comp).1.name = comp.name := by
  unfold jobSteps
  have h := lyricsStep_name d (coverStep d (audioStep d comp))
  rw [coverStep_name, audioStep_name] at h
  rcases hl : lyricsStep d (coverStep d (audioStep d comp)) with ⟨c, _ | e⟩
  · rw [hl] at h
    simp only [titleStep_name, colorStep_name]
    exact h
  · rw [hl] at h
    exact h

theorem markerLoop_ok (call : Nat → Except String MarkerCall) (l : List Nat)
    (placed : List MarkerCall) (h : ∀ j ∈ l, ∃ c, call j = .ok c) :
    (markerLoop call l placed).2 = none := by
  induction l generalizing placed with
  | nil => rfl
  | cons j rest ih =>
    obtain ⟨c, hc⟩ := h j (by simp)
    simp only [markerLoop, hc]
    exact ih _ (fun k hk => h k (by simp [hk]))

theorem loopCount_natCast (n : Nat) : loopCount (.num (n : ℚ)) = n := by
  unfold loopCount
  by_cases h : (n : ℚ) ≤ 0
  · have : n = 0 := by exact_mod_cast le_antisymm h (by positivity)
    simp [this]
  · simp [h]

theorem auroraMarkerStep_wellFormed (audioLayer : Bool) (records : List (List (String × JsVal))) :
    (auroraMarkerStep audioLayer (.arr (records.map JsVal.obj))).2 = none := by
  unfold auroraMarkerStep markerStep
  cases audioLayer with
  | false => rfl
  | true =>
    simp only [getProp, if_true]
    split
    · apply markerLoop_ok
      intro j hj
      rw [List.length_map, loopCount_natCast, List.mem_range] at hj
      exact ⟨_, auroraMarkerCall_obj _ (records.get ⟨j, hj⟩) j
        (by simp [getIndex, List.getElem?_map, List.getElem?_eq_getElem hj])⟩
    · rfl

theorem lyricsStep_wellFormed (d : JobData) (comp : Comp) (h : wellFormedLyrics d) :
    (lyricsStep d comp).2 = none := by
  unfold lyricsStep
  by_cases hex : d.lyricsExists = true
  · obtain ⟨records, hrec⟩ := h hex
    simp only [hex, if_true, hrec]
    have h1 := auroraMarkerStep_wellFormed true records
    have h2 := auroraMarkerStep_wellFormed false records
    split
    · rcases hm : auroraMarkerStep true (JsVal.arr (records.map JsVal.obj)) with ⟨ms, err⟩
      rw [hm] at h1
      cases ms <;> exact h1
    · exact h2
  · simp [hex]

theorem jobSteps_wellFormed (d : JobData) (comp : Comp) (h : wellFormedLyrics d) :
    (jobSteps d comp).2 = none := by
  unfold jobSteps
  have hl := lyricsStep_wellFormed d (coverStep d (audioStep d comp)) h
  rcases hs : lyricsStep d (coverStep d (audioStep d comp)) with ⟨c, _ | e⟩
  · rfl
  · rw [hs] at hl
    cases hl

theorem audioStep_missing (d : JobData) (comp : Comp) (h : d.audioExists = false) :
    audioStep d comp = comp := by
  simp [audioStep, h]

theorem findCompFrom_isSome_append (name : String) (l r : List Item) (k : Nat)
    (h : (findCompFrom name l k).isSome = true) :
    (findCompFrom name (l ++ r) k).isSome = true := by
  induction l generalizing k with
  | nil => simp [findCompFrom] at h
  | cons item rest ih =>
    cases item with
    | other n => exact ih (k + 1) h
    | comp c =>
      by_cases hn : c.name = name
      · simp [findCompFrom, hn]
      · simp only [List.cons_append, findCompFrom, hn, if_false] at h ⊢
        exact ih (k + 1) h

theorem findCompFrom_isSome_set (name : String) (l : List Item) (k idx : Nat) (c c' : Comp)
    (hidx : l[idx]? = some (.comp c)) (hname : c'.name = c.name) :
    (findCompFrom name (l.set idx (.comp c')) k).isSome = (findCompFrom name l k).isSome := by
  induction l generalizing k idx with
  | nil => rfl
  | cons item rest ih =>
    cases idx with
    | zero =>
      simp only [List.getElem?_cons_zero, Option.some.injEq] at hidx
      subst hidx
      by_cases hn : c.name = name
      · simp [findCompFrom, hn, hname]
      · simp [findCompFrom, hn, hname]
    | succ idx =>
      simp only [List.getElem?_cons_succ] at hidx
      cases item with
      | other n => exact ih (k + 1) idx hidx
      | comp c0 =>
        by_cases hn : c0.name = name
        · simp [findCompFrom, hn]
        · simp only [List.set_cons_succ, findCompFrom, hn, if_false]
          exact ih (k + 1) idx hidx

theorem acquireComp_ok_of_template (items : List Item) (n : Nat)
    (h : (findCompByName items "Aurora_Template").isSome = true) :
    ∃ target, acquireComp items n = .ok target := by
  unfold acquireComp
  rcases h1 : findCompByName items (auroraCompName n) with _ | ⟨i, c⟩
  · rcases h2 : findCompByName items "Aurora_Template" with _ | ⟨i, c⟩
    · rw [h2] at h
      cases h
    · exact ⟨_, rfl⟩
  · exact ⟨_, rfl⟩

theorem openTarget_spec (items : List Item) (n : Nat) (target : CompTarget)
    (ha : acquireComp items n = .ok target) :
    (openTarget items n target).1[(openTarget items n target).2.1]? =
        some (.comp (openTarget items n target).2.2) ∧
      ((findCompByName items "Aurora_Template").isSome = true →
        (findCompByName (openTarget items n target).1 "Aurora_Template").isSome = true) := by
  cases target with
  | existing i c =>
    refine ⟨?_, fun h => h⟩
    have hfind : findCompByName items (auroraCompName n) = some (i, c) := by
      unfold acquireComp at ha
      rcases h1 : findCompByName items (auroraCompName n) with _ | ⟨i', c'⟩
      · rw [h1] at ha
        simp only at ha
        repeat' split at ha
        all_goals cases ha
      · rw [h1] at ha
        simp only [Except.ok.injEq, CompTarget.existing.injEq] at ha
        rw [ha.1, ha.2]
    exact ((findCompByName_some_iff items _ i c).mp hfind).1
  | duplicate i t =>
    refine ⟨by simp [openTarget], fun h => ?_⟩
    exact findCompFrom_isSome_append _ items _ 0 h

theorem processJob_keeps_template (items : List Item) (folder : JobFolder) (n : Nat)
    (h : (findCompByName items "Aurora_Template").isSome = true) :
    (findCompByName (processJob items folder n).1 "Aurora_Template").isSome = true := by
  by_cases hfile : folder.dataFileExists = true
  · rcases hdata : folder.jobData with e | d
    · simp only [processJob, hfile, hdata, if_true]
      exact h
    · obtain ⟨target, ha⟩ := acquireComp_ok_of_template items n h
      obtain ⟨hget, hkeep⟩ := openTarget_spec items n target ha
      rw [(processJob_ok items folder n d target hfile hdata ha).1]
      unfold findCompByName
      rw [findCompFrom_isSome_set _ _ 0 _ _ _ hget (jobSteps_name d _)]
      exact hkeep h
  · simp only [processJob, hfile]
    exact h

theorem processJob_returns_true (items : List Item) (folder : JobFolder) (n : Nat) (d : JobData)
    (hfile : folder.dataFileExists = true) (hdata : folder.jobData = .ok d)
    (hlyrics : wellFormedLyrics d)
    (h : (findCompByName items "Aurora_Template").isSome = true) :
    (processJob items folder n).2 = .returned true := by
  obtain ⟨target, ha⟩ := acquireComp_ok_of_template items n h
  rw [(processJob_ok items folder n d target hfile hdata ha).2,
    jobSteps_wellFormed d _ hlyrics]

theorem runBatch_three_jobs (items : List Item) (f1 f2 f3 : JobFolder) (d1 d2 d3 : JobData)
    (ht : (findCompByName items "Aurora_Template").isSome = true)
    (hf1 : f1.dataFileExists = true) (hd1 : f1.jobData = .ok d1) (hl1 : wellFormedLyrics d1)
    (hf2 : f2.dataFileExists = true) (hd2 : f2.jobData = .ok d2) (hl2 : wellFormedLyrics d2)
    (hf3 : f3.dataFileExists = true) (hd3 : f3.jobData = .ok d3) (hl3 : wellFormedLyrics d3) :
    (runBatch processJob items [f1, f2, f3]).successCount = 3 ∧
      (runBatch processJob items [f1, f2, f3]).errorCount = 0 ∧
      (runBatch processJob items [f1, f2, f3]).errors = [] := by
  have ht1 := processJob_keeps_template items f1 1 ht
  have ht2 := processJob_keeps_template _ f2 2 ht1
  have h1 := processJob_returns_true items f1 1 d1 hf1 hd1 hl1 ht
  have h2 := processJob_returns_true _ f2 2 d2 hf2 hd2 hl2 ht1
  have h3 := processJob_returns_true _ f3 3 d3 hf3 hd3 hl3 ht2
  obtain ⟨_, hs, hsum, he⟩ := batchLoop_spec processJob [f1, f2, f3] 0
    { project := items, successCount := 0, errorCount := 0, errors := [] }
  have hs' : (runBatch processJob items [f1, f2, f3]).successCount = 3 := by
    rw [runBatch, hs]
    simp [jobOutcomes, h1, h2, h3]
  refine ⟨hs', ?_, ?_⟩
  · have : (runBatch processJob items [f1, f2, f3]).successCount +
        (runBatch processJob items [f1, f2, f3]).errorCount = 3 := by
      simpa [runBatch] using hsum
    omega
  · rw [runBatch, he]
    simp [jobOutcomes, errorEntry, h1, h2, h3]

theorem sampleData_wellFormed (audioExists : Bool) : wellFormedLyrics (sampleData audioExists) :=
  fun _ => ⟨[[("t", .num 0), ("lyric_current", .str "la")]], rfl⟩

theorem sampleTemplate_found :
    (findCompByName [Item.comp sampleTemplate] "Aurora_Template").isSome = true := by
  simp [findCompByName, findCompFrom, sampleTemplate]

theorem sampleTemplate_lookup :
    findCompByName [Item.comp sampleTemplate] (auroraCompName 2) = none ∧
      findCompByName [Item.comp sampleTemplate] "Aurora_Template" = some (0, sampleTemplate) := by
  have h : auroraCompName 2 = "Aurora_002" := by decide
  rw [h]
  constructor
  · simp [findCompByName, findCompFrom, sampleTemplate]
  · simp [findCompByName, findCompFrom, sampleTemplate]

/-! ## Claims about `processJob` -/

/-- C19: for every project item list and job number `n`, `findCompByName`
gives the first composition of the given name, and `processJob` of the Aurora
script works on the composition named `"Aurora_" + padNumber(n, 3)` if one
exists; otherwise on a duplicate, renamed to that name, of the composition named
`Aurora_Template` if one exists; otherwise on such a duplicate of the
composition named `Aurora_001`; the template lookup raises, with the error
`Template composition not found`, exactly when none of the three names is
present, and `processJob` then leaves the project as it was. -/
theorem processJob_template_policy (items : List Item) (n : Nat) (folder : JobFolder)
    (d : JobData) (hfile : folder.dataFileExists = true) (hdata : folder.jobData = .ok d) :
    (∀ (name : String) (i : Nat) (c : Comp),
        findCompByName items name = some (i, c) ↔
          items[i]? = some (.comp c) ∧ c.name = name ∧
            ∀ (m : Nat) (c' : Comp), m < i → items[m]? = some (.comp c') → c'.name ≠ name) ∧
      (∀ (i : Nat) (c : Comp), findCompByName items (auroraCompName n) = some (i, c) →
        acquireComp items n = .ok (.existing i c) ∧
          (processJob items folder n).1 = items.set i (Item.comp (jobSteps d c).1)) ∧
      (findCompByName items (auroraCompName n) = none →
        ∀ (i : Nat) (c : Comp), findCompByName items "Aurora_Template" = some (i, c) →
          acquireComp items n = .ok (.duplicate i c) ∧
            (processJob items folder n).1 =
              (items ++ [Item.comp { c with name := auroraCompName n }]).set items.length
                (Item.comp (jobSteps d { c with name := auroraCompName n }).1)) ∧
      (findCompByName items (auroraCompName n) = none →
        findCompByName items "Aurora_Template" = none →
        ∀ (i : Nat) (c : Comp), findCompByName items "Aurora_001" = some (i, c) →
          acquireComp items n = .ok (.duplicate i c) ∧
            (processJob items folder n).1 =
              (items ++ [Item.comp { c with name := auroraCompName n }]).set items.length
                (Item.comp (jobSteps d { c with name := auroraCompName n }).1)) ∧
      (∀ (e : String), acquireComp items n = .error e ↔
        e = templateNotFound ∧ findCompByName items (auroraCompName n) = none ∧
          findCompByName items "Aurora_Template" = none ∧
          findCompByName items "Aurora_001" = none) ∧
      (findCompByName items (auroraCompName n) = none →
        findCompByName items "Aurora_Template" = none →
        findCompByName items "Aurora_001" = none →
        processJob items folder n = (items, .raised templateNotFound)) := by
  refine ⟨fun name i c => findCompByName_some_iff items name i c, ?_, ?_, ?_,
    fun e => acquireComp_error_iff items n e, ?_⟩
  · intro i c h
    have ha : acquireComp items n = .ok (.existing i c) := by simp [acquireComp, h]
    exact ⟨ha, (processJob_ok items folder n d _ hfile hdata ha).1⟩
  · intro h0 i c h
    have ha : acquireComp items n = .ok (.duplicate i c) := by simp [acquireComp, h0, h]
    exact ⟨ha, (processJob_ok items folder n d _ hfile hdata ha).1⟩
  · intro h0 h1 i c h
    have ha : acquireComp items n = .ok (.duplicate i c) := by simp [acquireComp, h0, h1, h]
    exact ⟨ha, (processJob_ok items folder n d _ hfile hdata ha).1⟩
  · intro h0 h1 h2
    have ha : acquireComp items n = .error templateNotFound :=
      (acquireComp_error_iff items n _).mpr ⟨rfl, h0, h1, h2⟩
    simp only [processJob, hfile, hdata, ha, if_true]

/-- Witness for C19: the project holds only `Aurora_Template`; job 2 works on
a duplicate of it renamed `Aurora_002`. -/
theorem processJob_template_policy_witness :
    acquireComp [Item.comp sampleTemplate] 2 = .ok (.duplicate 0 sampleTemplate) ∧
      (processJob [Item.comp sampleTemplate] (sampleJob true) 2).1 =
        ([Item.comp sampleTemplate] ++
            [Item.comp { sampleTemplate with name := auroraCompName 2 }]).set
          [Item.comp sampleTemplate].length
          (Item.comp (jobSteps (sampleData true)
            { sampleTemplate with name := auroraCompName 2 }).1) :=
  (processJob_template_policy [Item.comp sampleTemplate] 2 (sampleJob true) (sampleData true)
    rfl rfl).2.2.1 sampleTemplate_lookup.1 0 sampleTemplate sampleTemplate_lookup.2

/-- C18, counterexample: three jobs on a project holding `Aurora_Template`, the
audio file of job 2 missing.  The batch ends with success count 3, error count
0 and no failure entry, not with success count 2 and an entry for job 2. -/
theorem missing_audio_counterexample :
    (sampleData false).audioExists = false ∧
      (runBatch processJob [Item.comp sampleTemplate]
        [sampleJob true, sampleJob false, sampleJob true]).successCount = 3 ∧
      (runBatch processJob [Item.comp sampleTemplate]
        [sampleJob true, sampleJob false, sampleJob true]).errorCount = 0 ∧
      (runBatch processJob [Item.comp sampleTemplate]
        [sampleJob true, sampleJob false, sampleJob true]).errors = [] :=
  ⟨rfl, runBatch_three_jobs [Item.comp sampleTemplate] (sampleJob true) (sampleJob false)
    (sampleJob true) (sampleData true) (sampleData false) (sampleData true)
    sampleTemplate_found rfl rfl (sampleData_wellFormed true) rfl rfl
    (sampleData_wellFormed false) rfl rfl (sampleData_wellFormed true)⟩

/-- C18, amended: for a batch of 3 jobs, each with a readable `job_data.json`
and well-formed lyrics, on a project that holds `Aurora_Template`, in which the
audio file of job 2 is missing, the Aurora batch run ends with success count 3,
error count 0 and an empty failure list: the missing audio file raises no
error, the audio step of job 2 leaves its composition as it is, and all three
calls of `processJob` return `true`. -/
theorem missing_audio_is_skipped (items : List Item) (f1 f2 f3 : JobFolder)
    (d1 d2 d3 : JobData)
    (ht : (findCompByName items "Aurora_Template").isSome = true)
    (hf1 : f1.dataFileExists = true) (hd1 : f1.jobData = .ok d1) (hl1 : wellFormedLyrics d1)
    (hf2 : f2.dataFileExists = true) (hd2 : f2.jobData = .ok d2) (hl2 : wellFormedLyrics d2)
    (hf3 : f3.dataFileExists = true) (hd3 : f3.jobData = .ok d3) (hl3 : wellFormedLyrics d3)
    (haudio : d2.audioExists = false) :
    (runBatch processJob items [f1, f2, f3]).successCount = 3 ∧
      (runBatch processJob items [f1, f2, f3]).errorCount = 0 ∧
      (runBatch processJob items [f1, f2, f3]).errors = [] ∧
      (∀ comp : Comp, audioStep d2 comp = comp) ∧
      (jobOutcomes processJob [f1, f2, f3] 0 items).map Prod.snd =
        [.returned true, .returned true, .returned true] := by
  obtain ⟨hs, hec, he⟩ := runBatch_three_jobs items f1 f2 f3 d1 d2 d3 ht hf1 hd1 hl1 hf2 hd2 hl2
    hf3 hd3 hl3
  have ht1 := processJob_keeps_template items f1 1 ht
  have ht2 := processJob_keeps_template _ f2 2 ht1
  have h1 := processJob_returns_true items f1 1 d1 hf1 hd1 hl1 ht
  have h2 := processJob_returns_true _ f2 2 d2 hf2 hd2 hl2 ht1
  have h3 := processJob_returns_true _ f3 3 d3 hf3 hd3 hl3 ht2
  refine ⟨hs, hec, he, fun comp => audioStep_missing d2 comp haudio, ?_⟩
  simp [jobOutcomes, h1, h2, h3]

/-- Witness for C18 amended: the sample batch with the audio of job 2 missing. -/
theorem missing_audio_is_skipped_witness :
    (runBatch processJob [Item.comp sampleTemplate]
        [sampleJob true, sampleJob false, sampleJob true]).successCount = 3 ∧
      (runBatch processJob [Item.comp sampleTemplate]
        [sampleJob true, sampleJob false, sampleJob true]).errorCount = 0 ∧
      (runBatch processJob [Item.comp sampleTemplate]
        [sampleJob true, sampleJob false, sampleJob true]).errors = [] ∧
      (∀ comp : Comp, audioStep (sampleData false) comp = comp) ∧
      (jobOutcomes processJob [sampleJob true, sampleJob false, sampleJob true] 0
          [Item.comp sampleTemplate]).map Prod.snd =
        [.returned true, .returned true, .returned true] :=
  missing_audio_is_skipped [Item.comp sampleTemplate] (sampleJob true) (sampleJob false)
    (sampleJob true) (sampleData true) (sampleData false) (sampleData true)
    sampleTemplate_found rfl rfl (sampleData_wellFormed true) rfl rfl
    (sampleData_wellFormed false) rfl rfl (sampleData_wellFormed true) rfl

/-! ## Facts for the comparison of the two scans and for the explicit variables -/

theorem times_getElem? (segments : List Segment) (keys : List MarkerKey)
    (htimes : keys.map (fun k => k.time) = segments.map (fun s => s.time)) (j : Nat) :
    (∀ a, keys[j]? = some a → ∃ s, segments[j]? = some s ∧ s.time = a.time) ∧
      (∀ s, segments[j]? = some s → ∃ a, keys[j]? = some a ∧ a.time = s.time) := by
  have h : (keys.map (fun k => k.time))[j]? = (segments.map (fun s => s.time))[j]? := by
    rw [htimes]
  simp only [List.getElem?_map] at h
  constructor
  · intro a ha
    rw [ha] at h
    cases hs : segments[j]? with
    | none => rw [hs] at h; cases h
    | some s =>
      rw [hs] at h
      simp only [Option.map_some', Option.some.injEq] at h
      exact ⟨s, rfl, h.symm⟩
  · intro s hs
    rw [hs] at h
    cases ha : keys[j]? with
    | none => rw [ha] at h; cases h
    | some a =>
      rw [ha] at h
      simp only [Option.map_some', Option.some.injEq] at h
      exact ⟨a, rfl, h⟩

theorem scans_agree (segments : List Segment) (keys : List MarkerKey) (t : ℚ)
    (htimes : keys.map (fun k => k.time) = segments.map (fun s => s.time))
    (hsorted : segments.Pairwise (fun a b => a.time ≤ b.time)) :
    (markerScan keys t = 0 ∧ novaScan segments t = none) ∨
      (0 < markerScan keys t ∧ ∃ s, novaScan segments t = some (markerScan keys t - 1, s)) := by
  have hlen : keys.length = segments.length := by
    have := congrArg List.length htimes
    simpa using this
  obtain ⟨hpre, hnext⟩ := takeWhile_length_spec (fun key => decide (key.time ≤ t)) keys
  rw [← markerScan_eq] at hpre hnext
  have hafter : ∀ (j : Nat) (s : Segment), markerScan keys t ≤ j → segments[j]? = some s →
      ¬ s.time ≤ t := by
    intro j s hj hs
    rcases hnext with heq | ⟨a, ha, hpa⟩
    · have := getElem?_some_lt _ _ _ hs
      omega
    · obtain ⟨sn, hsn, hsnt⟩ := (times_getElem? segments keys htimes _).1 a ha
      have hgt : t < sn.time := by
        rw [hsnt]
        simpa using hpa
      rcases Nat.lt_or_eq_of_le hj with hlt | heq
      · have := pairwise_getElem? _ segments hsorted _ j sn s hlt hsn hs
        exact not_le_of_lt (lt_of_lt_of_le hgt this)
      · subst heq
        rw [hsn] at hs
        cases hs
        exact not_le_of_lt hgt
  by_cases hz : markerScan keys t = 0
  · left
    refine ⟨hz, ?_⟩
    have hnone := (currentSeg_none_iff segments t).mpr
      (fun j s hs => hafter j s (by omega) hs)
    unfold currentSeg at hnone
    simpa using hnone
  · right
    refine ⟨Nat.pos_of_ne_zero hz, ?_⟩
    obtain ⟨a, ha, hpa⟩ := hpre (markerScan keys t - 1) (by omega)
    obtain ⟨s, hs, hst⟩ := (times_getElem? segments keys htimes _).1 a ha
    refine ⟨s, (novaScan_some_iff segments t _ s).mpr ⟨hs, ?_, ?_⟩⟩
    · rw [hst]
      simpa using hpa
    · intro j s' hj hs'
      exact hafter j s' (by omega) hs'

theorem scanVars_spec (t : ℚ) (n : Nat) (v : ExprVars) :
    (scanVars t n v).segments = v.segments ∧ (scanVars t n v).output = v.output ∧
      (scanVars t n v).currentSeg =
        (match novaScanFrom v.segments t n with
          | some r => some r.2
          | none => v.currentSeg) := by
  induction n with
  | zero => exact ⟨rfl, rfl, rfl⟩
  | succ n ih =>
    unfold scanVars novaScanFrom
    cases hn : v.segments[n]? with
    | none => exact ih
    | some s =>
      by_cases hle : s.time ≤ t
      · simp [hle]
      · simp only [hle, if_false]
        exact ih

theorem wordVars_spec (t : ℚ) (ws : List Word) (v : ExprVars) :
    (wordVars t ws v).output = v.output ++ novaWordLoop ws t := by
  induction ws generalizing v with
  | nil => simp [wordVars, novaWordLoop_nil]
  | cons w ws ih =>
    unfold wordVars
    rw [novaWordLoop_cons]
    by_cases h : w.start ≤ t
    · simp only [h, if_true]
      rw [ih]
      simp only [String.append_assoc]
    · simp only [h, if_false]
      rw [ih]
      simp

theorem novaEvaluate_eq (segments : List Segment) (t : ℚ) (v : ExprVars) :
    (novaEvaluate segments t v).2 = novaExpression segments t := by
  unfold novaEvaluate novaExpression novaOutput currentSeg novaScan
  obtain ⟨_, _, hcur⟩ := scanVars_spec t segments.length
    { segments := segments, currentSeg := none, output := v.output }
  simp only at hcur ⊢
  rw [hcur]
  cases novaScanFrom segments t segments.length with
  | none => rfl
  | some r =>
    simp only [Option.map_some']
    rw [wordVars_spec]
    simp

/-! ## Claims about the scans, the purity and the colours -/

/-- C22: for every segment sequence (sorted or not) and all times `t1 <= t2`,
when the Nova reverse scan selects index `i1` at `t1` it selects an index
`i2 >= i1` at `t2`, and when it selects none at `t2` it selects none at `t1`:
with none below every index, the selected index is monotonic in time. -/
theorem novaScan_monotone (segments : List Segment) (t1 t2 : ℚ) (h : t1 ≤ t2) :
    (∀ (i1 : Nat) (s1 : Segment), novaScan segments t1 = some (i1, s1) →
        ∃ i2 s2, novaScan segments t2 = some (i2, s2) ∧ i1 ≤ i2) ∧
      (novaScan segments t2 = none → novaScan segments t1 = none) := by
  have key : ∀ (i1 : Nat) (s1 : Segment), novaScan segments t1 = some (i1, s1) →
      ∃ i2 s2, novaScan segments t2 = some (i2, s2) ∧ i1 ≤ i2 := by
    intro i1 s1 h1
    obtain ⟨hi1, hs1, _⟩ := (novaScan_some_iff segments t1 i1 s1).mp h1
    have hs2 : s1.time ≤ t2 := le_trans hs1 h
    rcases h2 : novaScan segments t2 with _ | ⟨i2, s2⟩
    · unfold novaScan at h2
      exact absurd hs2 ((novaScanFrom_none segments t2 _).mp h2 i1 s1
        (getElem?_some_lt _ _ _ hi1) hi1)
    · refine ⟨i2, s2, rfl, ?_⟩
      by_contra hlt
      exact ((novaScan_some_iff segments t2 i2 s2).mp h2).2.2 i1 s1 (by omega) hi1 hs2
  refine ⟨key, fun h2 => ?_⟩
  rcases h1 : novaScan segments t1 with _ | ⟨i1, s1⟩
  · rfl
  · obtain ⟨i2, s2, h2', _⟩ := key i1 s1 h1
    rw [h2] at h2'
    cases h2'

/-- Witness for C22: the times 0, 1, 3 at `t1 = 1` and `t2 = 2`. -/
theorem novaScan_monotone_witness :
    (∀ (i1 : Nat) (s1 : Segment),
        novaScan [⟨"a", 0, []⟩, ⟨"b", 1, []⟩, ⟨"c", 3, []⟩] 1 = some (i1, s1) →
        ∃ i2 s2, novaScan [⟨"a", 0, []⟩, ⟨"b", 1, []⟩, ⟨"c", 3, []⟩] 2 = some (i2, s2) ∧
          i1 ≤ i2) ∧
      (novaScan [⟨"a", 0, []⟩, ⟨"b", 1, []⟩, ⟨"c", 3, []⟩] 2 = none →
        novaScan [⟨"a", 0, []⟩, ⟨"b", 1, []⟩, ⟨"c", 3, []⟩] 1 = none) :=
  novaScan_monotone [⟨"a", 0, []⟩, ⟨"b", 1, []⟩, ⟨"c", 3, []⟩] 1 2 (by norm_num)

/-- C23: the text of the Nova expression does not depend on the values an
earlier evaluation left in its variables: evaluated at `t`, then at any times
`ts`, then at `t` again, it yields the same string both times, and that string
is the function `novaExpression` of the segments and `t`. -/
theorem novaEvaluate_is_pure (segments : List Segment) (t : ℚ) (v : ExprVars) (ts : List ℚ) :
    (novaEvaluate segments t (evaluateAll segments ts (novaEvaluate segments t v).1)).2 =
        (novaEvaluate segments t v).2 ∧
      (novaEvaluate segments t v).2 = novaExpression segments t := by
  rw [novaEvaluate_eq, novaEvaluate_eq]
  exact ⟨rfl, rfl⟩

/-- C26: for marker keys and segments with the same times, sorted
non-decreasingly, and every time `t`, the forward scan of the Visuals-Nova
expressions and the reverse scan of the Nova expression select the same
segment: `idx = i + 1` when the reverse scan selects index `i`, and `idx = 0`
exactly when it selects none. -/
theorem forward_scan_agrees_with_reverse_scan (segments : List Segment) (keys : List MarkerKey)
    (t : ℚ) (htimes : keys.map (fun k => k.time) = segments.map (fun s => s.time))
    (hsorted : segments.Pairwise (fun a b => a.time ≤ b.time)) :
    (∀ (i : Nat) (s : Segment), novaScan segments t = some (i, s) → markerScan keys t = i + 1) ∧
      (novaScan segments t = none ↔ markerScan keys t = 0) := by
  rcases scans_agree segments keys t htimes hsorted with ⟨hz, hnone⟩ | ⟨hpos, s, hsome⟩
  · refine ⟨fun i s h => ?_, fun _ => hz, fun _ => hnone⟩
    rw [hnone] at h
    cases h
  · refine ⟨fun i s' h => ?_, fun h => ?_, fun h => ?_⟩
    · rw [hsome] at h
      simp only [Option.some.injEq, Prod.mk.injEq] at h
      omega
    · rw [hsome] at h
      cases h
    · omega

/-- Witness for C26: the times 0 and 2 at `t = 1`. -/
theorem forward_scan_agrees_with_reverse_scan_witness :
    (∀ (i : Nat) (s : Segment), novaScan [⟨"a", 0, []⟩, ⟨"b", 2, []⟩] 1 = some (i, s) →
        markerScan [⟨0, "a", none⟩, ⟨2, "b", none⟩] 1 = i + 1) ∧
      (novaScan [⟨"a", 0, []⟩, ⟨"b", 2, []⟩] 1 = none ↔
        markerScan [⟨0, "a", none⟩, ⟨2, "b", none⟩] 1 = 0) :=
  forward_scan_agrees_with_reverse_scan [⟨"a", 0, []⟩, ⟨"b", 2, []⟩]
    [⟨0, "a", none⟩, ⟨2, "b", none⟩] 1 (by simp) (by simp)

/-- C30: for every marker position `idx >= 1`, the fallback colour of the
Visuals-Nova colour-flip expression (white when `idx` is odd, black when even)
is the colour the Mono and Onyx marker builder stores for the segment with the
0-based index `idx - 1`; when the comment of the selected marker does not
parse, the expression shows that colour. -/
theorem fallbackColor_matches_markerColor (idx : Nat) (h : 1 ≤ idx) :
    fallbackColor idx = markerColor (idx - 1) ∧
      ∀ (keys : List MarkerKey) (t : ℚ) (key : MarkerKey),
        markerScan keys t = idx → keys[idx - 1]? = some key → key.data = none →
          colorFlipExpression keys t =
            if markerColor (idx - 1) = "black" then [0, 0, 0, 1] else [1, 1, 1, 1] := by
  have hc : fallbackColor idx = markerColor (idx - 1) := by
    unfold fallbackColor markerColor
    rcases Nat.mod_two_eq_zero_or_one idx with h0 | h0
    · have h1 : (idx - 1) % 2 = 1 := by omega
      simp [h0, h1]
    · have h1 : (idx - 1) % 2 = 0 := by omega
      simp [h0, h1]
  refine ⟨hc, ?_⟩
  intro keys t key hscan hkey hdata
  have hlen : keys.length ≠ 0 := by
    have := getElem?_some_lt _ _ _ hkey
    omega
  have hidx : idx ≠ 0 := by omega
  simp only [colorFlipExpression, hlen, if_false, hscan, hidx, hkey, hdata, hc]
  by_cases hb : markerColor (idx - 1) = "black" <;> simp [hb]

/-- Witness for C30: two markers without a parseable comment, at `t = 5`. -/
theorem fallbackColor_matches_markerColor_witness :
    fallbackColor 2 = markerColor (2 - 1) ∧
      ∀ (keys : List MarkerKey) (t : ℚ) (key : MarkerKey),
        markerScan keys t = 2 → keys[2 - 1]? = some key → key.data = none →
          colorFlipExpression keys t =
            if markerColor (2 - 1) = "black" then [0, 0, 0, 1] else [1, 1, 1, 1] :=
  fallbackColor_matches_markerColor 2 (by decide)

/-- C29: for the song title `???` every character is removed and
`sanitizeFilename` returns the empty string, not `untitled`; the render file
name is then the suffix and the extension alone. -/
theorem sanitizeFilename_can_be_empty :
    sanitizeFilename "???" = "" ∧ renderFilename "???" "_NOVA" = "_NOVA.mp4" ∧
      sanitizeFilename "" = "untitled" := by
  decide

/-- C21: with a project that has no composition named `MAIN` and two jobs that
pass every check before the duplication, `findCompByName("MAIN")` raises while
job 1 is processed, the exception leaves `main`, and the run ends there: job 2
is not processed and the closing step is not reached. -/
theorem novaMain_missing_template_aborts
    (wire : List Item → NovaJob → Nat → Except String (List Item)) :
    findCompByName [Item.comp sampleTemplate] "MAIN" = none ∧
      novaMain wire [Item.comp sampleTemplate]
        [⟨true, true, true, none, true⟩, ⟨true, true, true, none, true⟩] =
          .error "Error: Comp not found: MAIN" := by
  have h : findCompByName [Item.comp sampleTemplate] "MAIN" = none := by
    simp [findCompByName, findCompFrom, sampleTemplate]
  refine ⟨h, ?_⟩
  simp [novaMain, novaLoop, findCompOrThrow, h]

/-! ## Facts about `escapeForExpression` -/

theorem replaceAll_append (c : Char) (r a b : List Char) :
    replaceAll c r (a ++ b) = replaceAll c r a ++ replaceAll c r b := by
  induction a with
  | nil => rfl
  | cons x a ih =>
    by_cases h : x = c
    · simp [replaceAll, h, ih]
    · simp [replaceAll, h, ih]

theorem replaceAll_cons_ne (c : Char) (r : List Char) (x : Char) (l : List Char) (h : x ≠ c) :
    replaceAll c r (x :: l) = x :: replaceAll c r l := by
  simp [replaceAll, h]

theorem escape_passes_eq_flatMap (l : List Char) :
    replaceAll '\n' ['\\', 'n']
        (replaceAll '\r' ['\\', 'r']
          (replaceAll '"' ['\\', '"'] (replaceAll '\\' ['\\', '\\'] l))) =
      l.flatMap escapeChar := by
  induction l with
  | nil => rfl
  | cons c l ih =>
    rw [List.flatMap_cons, ← ih]
    by_cases h1 : c = '\\'
    · subst h1
      have e : replaceAll '\\' ['\\', '\\'] ('\\' :: l) =
          ['\\', '\\'] ++ replaceAll '\\' ['\\', '\\'] l := by simp [replaceAll]
      rw [e, replaceAll_append, replaceAll_append, replaceAll_append]
      rfl
    · by_cases h2 : c = '"'
      · subst h2
        rw [replaceAll_cons_ne _ _ _ _ h1]
        have e : ∀ m, replaceAll '"' ['\\', '"'] ('"' :: m) =
            ['\\', '"'] ++ replaceAll '"' ['\\', '"'] m := by intro m; simp [replaceAll]
        rw [e, replaceAll_append, replaceAll_append]
        rfl
      · by_cases h3 : c = '\r'
        · subst h3
          rw [replaceAll_cons_ne _ _ _ _ h1, replaceAll_cons_ne _ _ _ _ h2]
          have e : ∀ m, replaceAll '\r' ['\\', 'r'] ('\r' :: m) =
              ['\\', 'r'] ++ replaceAll '\r' ['\\', 'r'] m := by intro m; simp [replaceAll]
          rw [e, replaceAll_append]
          rfl
        · by_cases h4 : c = '\n'
          · subst h4
            rw [replaceAll_cons_ne _ _ _ _ h1, replaceAll_cons_ne _ _ _ _ h2,
              replaceAll_cons_ne _ _ _ _ h3]
            simp [replaceAll, escapeChar]
          · rw [replaceAll_cons_ne _ _ _ _ h1, replaceAll_cons_ne _ _ _ _ h2,
              replaceAll_cons_ne _ _ _ _ h3, replaceAll_cons_ne _ _ _ _ h4]
            simp [escapeChar, h1, h2, h3, h4]

theorem escapeForExpression_data (s : String) :
    (escapeForExpression s).data = s.data.flatMap escapeChar := by
  unfold escapeForExpression
  by_cases h : s = ""
  · subst h
    rfl
  · simp only [h, if_false]
    exact escape_passes_eq_flatMap s.data

theorem stringLiteralValue_cons_ne (c : Char) (l : List Char) (h : c ≠ '\\') :
    stringLiteralValue (c :: l) = c :: stringLiteralValue l := by
  cases l with
  | nil => simp [stringLiteralValue]
  | cons d rest => simp [stringLiteralValue, h]

theorem stringLiteralValue_escape (l : List Char) :
    stringLiteralValue (l.flatMap escapeChar) = l := by
  induction l with
  | nil => rfl
  | cons c l ih =>
    rw [List.flatMap_cons]
    by_cases h1 : c = '\\'
    · subst h1
      simp [escapeChar, stringLiteralValue, ih]
    · by_cases h2 : c = '"'
      · subst h2
        simp [escapeChar, stringLiteralValue, ih]
      · by_cases h3 : c = '\r'
        · subst h3
          simp [escapeChar, stringLiteralValue, ih]
        · by_cases h4 : c = '\n'
          · subst h4
            simp [escapeChar, stringLiteralValue, ih]
          · have e : escapeChar c = [c] := by simp [escapeChar, h1, h2, h3, h4]
            rw [e, List.singleton_append, stringLiteralValue_cons_ne _ _ h1, ih]

theorem jsonStringBody_escape (l : List Char) :
    jsonStringBody (l.flatMap escapeChar ++ ['"']) = some l := by
  induction l with
  | nil => simp [jsonStringBody]
  | cons c l ih =>
    rw [List.flatMap_cons, List.append_assoc]
    by_cases h1 : c = '\\'
    · subst h1
      simp [escapeChar, jsonStringBody, ih]
    · by_cases h2 : c = '"'
      · subst h2
        simp [escapeChar, jsonStringBody, ih]
      · by_cases h3 : c = '\r'
        · subst h3
          simp [escapeChar, jsonStringBody, ih]
        · by_cases h4 : c = '\n'
          · subst h4
            simp [escapeChar, jsonStringBody, ih]
          · have e : escapeChar c = [c] := by simp [escapeChar, h1, h2, h3, h4]
            rw [e, List.singleton_append]
            rcases hr : l.flatMap escapeChar ++ ['"'] with _ | ⟨d, rest⟩
            · simp at hr
            · rw [hr] at ih
              simp [jsonStringBody, h1, h2, h3, h4, ih]

theorem escapeChar_no_line_break (a c : Char) (h : c ∈ escapeChar a) :
    c ≠ '\r' ∧ c ≠ '\n' := by
  unfold escapeChar at h
  split_ifs at h with h1 h2 h3 h4
  · simp at h
    subst h
    decide
  · simp at h
    rcases h with rfl | rfl <;> decide
  · simp at h
    rcases h with rfl | rfl <;> decide
  · simp at h
    rcases h with rfl | rfl <;> decide
  · simp at h
    subst h
    exact ⟨h3, h4⟩

/-! ## Claims about the escaping -/

/-- C27: for every string `s`, `escapeForExpression(s)` wrapped in double
quotes is a well-formed string literal that reads back as `s` (every double
quote in it is escaped, so the literal ends at the closing quote); the escaped
text holds no raw carriage return or line feed; and decoding the escapes from
left to right returns exactly `s`. -/
theorem escapeForExpression_round_trip (s : String) :
    jsonParseString ("\"" ++ escapeForExpression s ++ "\"") = some s ∧
      embedString s = s ∧
      (∀ c ∈ (escapeForExpression s).data, c ≠ '\r' ∧ c ≠ '\n') := by
  refine ⟨?_, ?_, ?_⟩
  · have h : ("\"" ++ escapeForExpression s ++ "\"").data =
        '"' :: (s.data.flatMap escapeChar ++ ['"']) := by
      simp [String.data_append, escapeForExpression_data]
    unfold jsonParseString
    rw [h]
    simp [jsonStringBody_escape]
  · unfold embedString
    rw [escapeForExpression_data, stringLiteralValue_escape]
  · intro c hc
    rw [escapeForExpression_data, List.mem_flatMap] at hc
    obtain ⟨a, _, hca⟩ := hc
    exact escapeChar_no_line_break a c hca

/-! ## The embedded word text and the revealed text -/

theorem embedString_eq (s : String) : embedString s = s := by
  unfold embedString
  rw [escapeForExpression_data, stringLiteralValue_escape]

theorem embedWord_word (raw : RawWord) : (embedWord raw).word = raw.word.getD "" := by
  simp only [embedWord, embedString_eq]
  cases raw.word <;> rfl

theorem rdropWhile_keeps_start (p : Char → Bool) (a b : List Char) (c : Char)
    (ha : a.getLast? = some c) (hc : p c = false) : a <+: (a ++ b).rdropWhile p := by
  induction b using List.reverseRecOn with
  | nil =>
    have hsplit := List.dropLast_append_getLast? c (by simpa using ha)
    rw [List.append_nil, ← hsplit, List.rdropWhile_concat_neg _ _ _ (by simp [hc])]
  | append_singleton b x ih =>
    rw [← List.append_assoc]
    by_cases hx : p x = true
    · rw [List.rdropWhile_concat_pos _ _ _ hx]
      exact ih
    · rw [List.rdropWhile_concat_neg _ _ _ hx]
      exact ⟨b ++ [x], by simp⟩

/-- C10: a word record whose `start` field is missing is embedded with start 0
and with its own text (`raw.word`, or the empty string when the record has no
`word` field); so at every playback time `t >= 0` at which its segment `k` is
the current one, the test `time >= start` succeeds for it and the generated
expression appends that text and a space to `output`, between what the loop
produces for the words before it and for the words after it; and when the text
ends in a character that is not white space, the value of the expression starts
with the output of the words before it followed by that text. -/
theorem missing_word_start_is_revealed (markers : List RawMarker) (k w : Nat) (m : RawMarker)
    (raw : RawWord) (t : ℚ) (s : Segment)
    (hm : markers[k]? = some m) (hw : (wordsOrEmpty m.words)[w]? = some raw)
    (hstart : raw.start = none) (ht : 0 ≤ t)
    (hcur : novaScan (embedSegments markers) t = some (k, s)) :
    (embedWord raw).start = 0 ∧ (embedWord raw).word = raw.word.getD "" ∧
      s.words[w]? = some (embedWord raw) ∧
      novaOutput (embedSegments markers) t =
        novaWordLoop (s.words.take w) t ++ (raw.word.getD "" ++ " ") ++
          novaWordLoop (s.words.drop (w + 1)) t ∧
      novaExpression (embedSegments markers) t =
        jsTrimEnd (novaWordLoop (s.words.take w) t ++ (raw.word.getD "" ++ " ") ++
          novaWordLoop (s.words.drop (w + 1)) t) ∧
      (∀ c, (raw.word.getD "").data.getLast? = some c → jsWhitespace c = false →
        (novaWordLoop (s.words.take w) t ++ raw.word.getD "").data <+:
          (novaExpression (embedSegments markers) t).data) := by
  have h0 : (embedWord raw).start = 0 := by
    simp only [embedWord, hstart, numberOrZero, toFixed3_zero]
  have hs : s = embedSegment m := by
    have h1 := ((novaScan_some_iff _ t k s).mp hcur).1
    simp only [embedSegments, List.getElem?_map, hm, Option.map_some', Option.some.injEq] at h1
    exact h1.symm
  have hsw : s.words[w]? = some (embedWord raw) := by
    rw [hs]
    simp only [embedSegment, List.getElem?_map, hw, Option.map_some']
  have hout : novaOutput (embedSegments markers) t =
      novaWordLoop (s.words.take w) t ++ (raw.word.getD "" ++ " ") ++
        novaWordLoop (s.words.drop (w + 1)) t := by
    unfold novaOutput currentSeg
    rw [hcur, ← embedWord_word]
    exact novaWordLoop_split t s.words w (embedWord raw) hsw (by rw [h0]; exact ht)
  have hexpr : novaExpression (embedSegments markers) t =
      jsTrimEnd (novaWordLoop (s.words.take w) t ++ (raw.word.getD "" ++ " ") ++
        novaWordLoop (s.words.drop (w + 1)) t) := by
    unfold novaExpression
    rw [hout]
  refine ⟨h0, embedWord_word raw, hsw, hout, hexpr, ?_⟩
  intro c hlast hc
  rw [hexpr]
  have hstart : ((novaWordLoop (s.words.take w) t).data ++ (raw.word.getD "").data).getLast? =
      some c := by
    rw [List.getLast?_append, hlast]
    rfl
  have := rdropWhile_keeps_start jsWhitespace
    ((novaWordLoop (s.words.take w) t).data ++ (raw.word.getD "").data)
    (' ' :: (novaWordLoop (s.words.drop (w + 1)) t).data) c hstart hc
  simpa [jsTrimEnd, String.data_append] using this

/-- Witness for C10: one marker at time 0 whose only word "hi" has no `start`;
evaluated at `t = 2`. -/
theorem missing_word_start_is_revealed_witness :
    (embedWord ⟨some "hi", none, none⟩).start = 0 ∧
      (embedWord ⟨some "hi", none, none⟩).word = "hi" ∧
      novaOutput (embedSegments [⟨some "hi", some 0, some [⟨some "hi", none, none⟩]⟩]) 2 =
        novaWordLoop ((embedSegment
            ⟨some "hi", some 0, some [⟨some "hi", none, none⟩]⟩).words.take 0) 2 ++
          ("hi" ++ " ") ++
          novaWordLoop ((embedSegment
            ⟨some "hi", some 0, some [⟨some "hi", none, none⟩]⟩).words.drop (0 + 1)) 2 ∧
      ("" ++ "hi" : String).data <+:
        (novaExpression
          (embedSegments [⟨some "hi", some 0, some [⟨some "hi", none, none⟩]⟩]) 2).data :=
  have h := missing_word_start_is_revealed
    [⟨some "hi", some 0, some [⟨some "hi", none, none⟩]⟩] 0 0
    ⟨some "hi", some 0, some [⟨some "hi", none, none⟩]⟩ ⟨some "hi", none, none⟩ 2
    (embedSegment ⟨some "hi", some 0, some [⟨some "hi", none, none⟩]⟩)
    rfl rfl rfl (by norm_num)
    (by simp [novaScan, novaScanFrom, embedSegments, embedSegment, numberOrZero, toFixed3_zero])
  ⟨h.1, h.2.1, h.2.2.2.1, h.2.2.2.2.2 'i' rfl (by decide)⟩

/-! ## Facts about what `processJob` changes -/

theorem audioStep_duration (d : JobData) (comp : Comp) (item : String)
    (hex : d.audioExists = true) (hitem : d.audioItem = some item) :
    (audioStep d comp).duration = d.audioOutPoint := by
  unfold audioStep
  simp only [hex, if_true, hitem]
  split <;> rfl

theorem coverStep_duration (d : JobData) (comp : Comp) :
    (coverStep d comp).duration = comp.duration := by
  unfold coverStep
  repeat' split
  all_goals rfl

theorem lyricsStep_duration (d : JobData) (comp : Comp) :
    (lyricsStep d comp).1.duration = comp.duration := by
  unfold lyricsStep
  repeat' split
  all_goals rfl

theorem setLayerColor_duration (comp : Comp) (layerName hexColor : String) :
    (setLayerColor comp layerName hexColor).duration = comp.duration := by
  unfold setLayerColor
  split <;> rfl

theorem colorStep_duration (d : JobData) (comp : Comp) :
    (colorStep d comp).duration = comp.duration := by
  unfold colorStep
  split
  · simp only [setLayerColor_duration]
  · rfl

theorem titleStep_duration (d : JobData) (comp : Comp) :
    (titleStep d comp).duration = comp.duration := by
  unfold titleStep
  split <;> rfl

theorem jobSteps_duration (d : JobData) (comp : Comp) (item : String)
    (hex : d.audioExists = true) (hitem : d.audioItem = some item) :
    (jobSteps d comp).1.duration = d.audioOutPoint := by
  unfold jobSteps
  have h := lyricsStep_duration d (coverStep d (audioStep d comp))
  rw [coverStep_duration, audioStep_duration d comp item hex hitem] at h
  rcases hl : lyricsStep d (coverStep d (audioStep d comp)) with ⟨c, _ | e⟩
  · rw [hl] at h
    simp only [titleStep_duration, colorStep_duration]
    exact h
  · rw [hl] at h
    exact h

theorem findCompFrom_append_some (name : String) (l r : List Item) (k : Nat) (x : Nat × Comp)
    (h : findCompFrom name l k = some x) : findCompFrom name (l ++ r) k = some x := by
  induction l generalizing k with
  | nil => simp [findCompFrom] at h
  | cons item rest ih =>
    cases item with
    | other n => exact ih (k + 1) h
    | comp c =>
      by_cases hn : c.name = name
      · simpa [findCompFrom, hn] using h
      · simp only [List.cons_append, findCompFrom, hn, if_false] at h ⊢
        exact ih (k + 1) h

theorem findCompFrom_set_other (name : String) (l : List Item) (k idx : Nat) (c c' : Comp)
    (hidx : l[idx]? = some (.comp c)) (hc : c.name ≠ name) (hc' : c'.name ≠ name) :
    findCompFrom name (l.set idx (.comp c')) k = findCompFrom name l k := by
  induction l generalizing k idx with
  | nil => rfl
  | cons item rest ih =>
    cases idx with
    | zero =>
      simp only [List.getElem?_cons_zero, Option.some.injEq] at hidx
      subst hidx
      simp [findCompFrom, hc, hc']
    | succ idx =>
      simp only [List.getElem?_cons_succ] at hidx
      cases item with
      | other n => exact ih (k + 1) idx hidx
      | comp c0 =>
        by_cases hn : c0.name = name
        · simp [findCompFrom, hn]
        · simp only [List.set_cons_succ, findCompFrom, hn, if_false]
          exact ih (k + 1) idx hidx

theorem acquireComp_existing (items : List Item) (n i : Nat) (c : Comp)
    (ha : acquireComp items n = .ok (.existing i c)) :
    findCompByName items (auroraCompName n) = some (i, c) := by
  unfold acquireComp at ha
  rcases h1 : findCompByName items (auroraCompName n) with _ | ⟨i', c'⟩
  · rw [h1] at ha
    simp only at ha
    repeat' split at ha
    all_goals cases ha
  · rw [h1] at ha
    simp only [Except.ok.injEq, CompTarget.existing.injEq] at ha
    rw [ha.1, ha.2]

theorem openTarget_name (items : List Item) (n : Nat) (target : CompTarget)
    (ha : acquireComp items n = .ok target) :
    (openTarget items n target).2.2.name = auroraCompName n := by
  cases target with
  | existing i c =>
    exact ((findCompByName_some_iff items _ i c).mp (acquireComp_existing items n i c ha)).2.1
  | duplicate i t => rfl

theorem openTarget_keeps (items : List Item) (n : Nat) (target : CompTarget) (name : String)
    (x : Nat × Comp) (h : findCompByName items name = some x) :
    findCompByName (openTarget items n target).1 name = some x := by
  cases target with
  | existing i c => exact h
  | duplicate i t => exact findCompFrom_append_some name items _ 0 x h

theorem processJob_keeps_other (items : List Item) (folder : JobFolder) (n : Nat)
    (name : String) (x : Nat × Comp) (hne : auroraCompName n ≠ name)
    (h : findCompByName items name = some x) :
    findCompByName (processJob items folder n).1 name = some x := by
  by_cases hfile : folder.dataFileExists = true
  · rcases hdata : folder.jobData with e | d
    · simp only [processJob, hfile, hdata, if_true]
      exact h
    · rcases ha : acquireComp items n with e | target
      · simp only [processJob, hfile, hdata, ha, if_true]
        exact h
      · obtain ⟨hget, _⟩ := openTarget_spec items n target ha
        have hname := openTarget_name items n target ha
        rw [(processJob_ok items folder n d target hfile hdata ha).1]
        unfold findCompByName
        rw [findCompFrom_set_other name _ 0 _ _ _ hget (by rw [hname]; exact hne)
          (by rw [jobSteps_name, hname]; exact hne)]
        exact openTarget_keeps items n target name x h
  · simp only [processJob, hfile]
    exact h

theorem drop_length_three (l : List Char) (h : 3 ≤ l.length) :
    (l.drop (l.length - 3)).length = 3 := by
  rw [List.length_drop]
  omega

theorem padNumber_length (n : Nat) : (padNumber n 3).length = 3 := by
  unfold padNumber
  exact drop_length_three ("000" ++ toString n).data (by simp [String.data_append])

theorem auroraCompName_ne_template (n : Nat) : auroraCompName n ≠ "Aurora_Template" := by
  intro h
  have hl := congrArg String.length h
  unfold auroraCompName at hl
  rw [String.length_append, padNumber_length] at hl
  revert hl
  decide

/-- The name keeps the last three characters of `"000" + n`: job 1001 has the
name of job 1, and job 1000 the name `Aurora_000`. -/
theorem auroraCompName_wraps :
    auroraCompName 1 = "Aurora_001" ∧ auroraCompName 1001 = "Aurora_001" ∧
      auroraCompName 1000 = "Aurora_000" := by
  decide

theorem processJob_works_on_named (items : List Item) (folder : JobFolder) (n : Nat)
    (d : JobData) (target : CompTarget) (hfile : folder.dataFileExists = true)
    (hdata : folder.jobData = .ok d) (ha : acquireComp items n = .ok target) :
    ∃ (idx : Nat) (c : Comp), (processJob items folder n).1[idx]? = some (Item.comp c) ∧
      c.name = auroraCompName n := by
  obtain ⟨hget, _⟩ := openTarget_spec items n target ha
  refine ⟨(openTarget items n target).2.1, (jobSteps d (openTarget items n target).2.2).1, ?_, ?_⟩
  · rw [(processJob_ok items folder n d target hfile hdata ha).1]
    have hlt := getElem?_some_lt _ _ _ hget
    simp [List.getElem?_set, hlt]
  · rw [jobSteps_name, openTarget_name items n target ha]

theorem jobOutcomes_getElem? {σ φ : Type} (processJob : σ → φ → Nat → σ × Outcome)
    (l : List φ) (i : Nat) (s : σ) (k : Nat) (f : φ) (h : l[k]? = some f) :
    (jobOutcomes processJob l i s)[k]? =
      some (i + k + 1, (processJob (jobStates processJob (l.take k) i s) f (i + k + 1)).2) := by
  induction l generalizing i s k with
  | nil => simp at h
  | cons folder rest ih =>
    cases k with
    | zero =>
      simp only [List.getElem?_cons_zero, Option.some.injEq] at h
      subst h
      simp [jobOutcomes, jobStates]
    | succ k =>
      simp only [List.getElem?_cons_succ] at h
      simp only [jobOutcomes, List.getElem?_cons_succ, List.take_succ_cons, jobStates]
      rw [ih (i + 1) _ k h]
      have e : i + 1 + k + 1 = i + (k + 1) + 1 := by omega
      rw [e]

theorem sampleFirst_target :
    acquireComp [Item.comp sampleFirst] 1 = .ok (.existing 0 sampleFirst) := by
  have h : auroraCompName 1 = "Aurora_001" := by decide
  simp [acquireComp, h, findCompByName, findCompFrom, sampleFirst]

theorem sampleTemplate_target :
    acquireComp [Item.comp sampleTemplate] 1 = .ok (.duplicate 0 sampleTemplate) := by
  have h : auroraCompName 1 = "Aurora_001" := by decide
  simp [acquireComp, h, findCompByName, findCompFrom, sampleTemplate]

theorem runBatch_single (project : List Item) (folder : JobFolder) :
    (runBatch processJob project [folder]).project = (processJob project folder 1).1 ∧
      (runBatch processJob project [folder]).errors =
        [(1, (processJob project folder 1).2)].filterMap errorEntry := by
  obtain ⟨h1, _, _, h4⟩ := batchLoop_spec processJob [folder] 0
    { project := project, successCount := 0, errorCount := 0, errors := [] }
  constructor
  · simpa [runBatch, jobStates] using h1
  · simpa [runBatch, jobOutcomes] using h4

/-! ## Claims about the job numbers and the template -/

/-- C24, counterexample: the single folder `job_005` carries the number 5, yet
its failure is recorded as `Job 1` and the composition it works on is named
`Aurora_001`; and the folders `job_2`, `job_10` are visited in the order
`job_10`, `job_2`, so that `job_10` is job 1. -/
theorem job_number_counterexample :
    folderNumber "job_005" = some 5 ∧
      (auroraMain [] [⟨"job_005", ⟨false, .error ""⟩⟩]).errors =
        ["Job 1: Error: job_data.json not found"] ∧
      (sortFolders [⟨"job_2", sampleJob true⟩, ⟨"job_10", sampleJob true⟩]).map
        NamedFolder.name = ["job_10", "job_2"] ∧
      auroraCompName 1 = "Aurora_001" ∧
      ∃ (idx : Nat) (c : Comp),
        (auroraMain [Item.comp sampleTemplate] [⟨"job_005", sampleJob true⟩]).project[idx]? =
          some (Item.comp c) ∧ c.name = auroraCompName 1 := by
  refine ⟨by decide, ?_, by decide, by decide, ?_⟩
  · have h : auroraMain [] [⟨"job_005", ⟨false, .error ""⟩⟩] =
        runBatch processJob [] [⟨false, .error ""⟩] := rfl
    rw [h, (runBatch_single [] ⟨false, .error ""⟩).2]
    simp [processJob, errorEntry, jobDataNotFound]
    decide
  · have h : auroraMain [Item.comp sampleTemplate] [⟨"job_005", sampleJob true⟩] =
        runBatch processJob [Item.comp sampleTemplate] [sampleJob true] := rfl
    rw [h, (runBatch_single _ _).1]
    exact processJob_works_on_named [Item.comp sampleTemplate] (sampleJob true) 1
      (sampleData true) _ rfl rfl sampleTemplate_target

/-- C24, amended: for every batch, a job's failure is recorded as `Job N` and
its composition is named `"Aurora_" + padNumber(N, 3)`, where `N` is the job's
position, counted from 1, in the list of job folders sorted by name, whatever
number its folder name carries: the folder at position `k` of the sorted list
is processed as job `k + 1`, from the project state the folders before it
left. -/
theorem job_number_is_sorted_position (project : List Item)
    (jobFolders sorted : List NamedFolder) (k : Nat) (f : NamedFolder) (state : List Item)
    (hsorted : sorted = sortFolders jobFolders) (hk : sorted[k]? = some f)
    (hstate : state =
      jobStates processJob ((sorted.take k).map NamedFolder.contents) 0 project) :
    (jobOutcomes processJob (sorted.map NamedFolder.contents) 0 project)[k]? =
        some (k + 1, (processJob state f.contents (k + 1)).2) ∧
      (∀ e, (processJob state f.contents (k + 1)).2 = .raised e →
        ("Job " ++ toString (k + 1) ++ ": " ++ e) ∈ (auroraMain project jobFolders).errors) ∧
      (∀ (d : JobData) (target : CompTarget), f.contents.dataFileExists = true →
        f.contents.jobData = .ok d → acquireComp state (k + 1) = .ok target →
        ∃ (idx : Nat) (c : Comp),
          (processJob state f.contents (k + 1)).1[idx]? = some (Item.comp c) ∧
            c.name = auroraCompName (k + 1)) := by
  have hout : (jobOutcomes processJob (sorted.map NamedFolder.contents) 0 project)[k]? =
      some (k + 1, (processJob state f.contents (k + 1)).2) := by
    have hget : (sorted.map NamedFolder.contents)[k]? = some f.contents := by
      simp [List.getElem?_map, hk]
    have := jobOutcomes_getElem? processJob (sorted.map NamedFolder.contents) 0 project k
      f.contents hget
    rw [← List.map_take, ← hstate] at this
    simpa using this
  refine ⟨hout, ?_, ?_⟩
  · intro e he
    obtain ⟨_, _, _, h4⟩ := batchLoop_spec processJob (sorted.map NamedFolder.contents) 0
      { project := project, successCount := 0, errorCount := 0, errors := [] }
    have herr : (auroraMain project jobFolders).errors =
        (jobOutcomes processJob (sorted.map NamedFolder.contents) 0 project).filterMap
          errorEntry := by
      rw [hsorted] at h4 ⊢
      simpa [auroraMain, runBatch] using h4
    rw [herr, List.mem_filterMap]
    refine ⟨(k + 1, Outcome.raised e), ?_, ?_⟩
    · rw [he] at hout
      exact List.getElem?_mem hout
    · simp [errorEntry]
  · intro d target hfile hdata ha
    exact processJob_works_on_named state f.contents (k + 1) d target hfile hdata ha

/-- Witness for C24 amended: the single folder `job_005` on a project holding
`Aurora_Template`. -/
theorem job_number_is_sorted_position_witness :
    (jobOutcomes processJob
        (([⟨"job_005", sampleJob true⟩] : List NamedFolder).map NamedFolder.contents) 0
        [Item.comp sampleTemplate])[0]? =
      some (0 + 1, (processJob [Item.comp sampleTemplate]
        (⟨"job_005", sampleJob true⟩ : NamedFolder).contents (0 + 1)).2) :=
  (job_number_is_sorted_position [Item.comp sampleTemplate] [⟨"job_005", sampleJob true⟩]
    [⟨"job_005", sampleJob true⟩] 0 ⟨"job_005", sampleJob true⟩ [Item.comp sampleTemplate]
    rfl rfl rfl).1

/-- C25, counterexample: the project holds only `Aurora_001`, which is the
template later jobs duplicate.  Job 1 works on that very composition and
changes it (its duration becomes 30), so job 2 duplicates a composition that
carries the data of job 1. -/
theorem template_changed_counterexample :
    findCompByName [Item.comp sampleFirst] "Aurora_Template" = none ∧
      findCompByName [Item.comp sampleFirst] "Aurora_001" = some (0, sampleFirst) ∧
      sampleFirst.duration = 10 ∧
      ∃ c, (processJob [Item.comp sampleFirst] (sampleJob true) 1).1 = [Item.comp c] ∧
        c.duration = 30 ∧ acquireComp [Item.comp c] 2 = .ok (.duplicate 0 c) := by
  refine ⟨by simp [findCompByName, findCompFrom, sampleFirst],
    by simp [findCompByName, findCompFrom, sampleFirst], rfl,
    (jobSteps (sampleData true) sampleFirst).1, ?_, ?_, ?_⟩
  · rw [(processJob_ok [Item.comp sampleFirst] (sampleJob true) 1 (sampleData true) _ rfl rfl
      sampleFirst_target).1]
    rfl
  · exact jobSteps_duration (sampleData true) sampleFirst "audio_trimmed.wav" rfl rfl
  · have hname : (jobSteps (sampleData true) sampleFirst).1.name = "Aurora_001" :=
      jobSteps_name (sampleData true) sampleFirst
    have h2 : auroraCompName 2 = "Aurora_002" := by decide
    simp [acquireComp, h2, findCompByName, findCompFrom, hname]

/-- C25, amended: for every project state and every job number `n`, Aurora's
`processJob` leaves unchanged every composition whose name is not the job's own
composition name `"Aurora_" + padNumber(n, 3)`: the composition found under
`Aurora_Template` is never changed, and the fallback template `Aurora_001` is
left unchanged by every job whose own composition name is not `Aurora_001`;
the per-job mutations are applied to the composition of the job's own name. -/
theorem processJob_leaves_other_comps (items : List Item) (folder : JobFolder) (n : Nat) :
    (∀ (i : Nat) (t : Comp), findCompByName items "Aurora_Template" = some (i, t) →
        findCompByName (processJob items folder n).1 "Aurora_Template" = some (i, t)) ∧
      (∀ (name : String) (i : Nat) (t : Comp), auroraCompName n ≠ name →
        findCompByName items name = some (i, t) →
        findCompByName (processJob items folder n).1 name = some (i, t)) ∧
      (∀ (d : JobData) (target : CompTarget), folder.dataFileExists = true →
        folder.jobData = .ok d → acquireComp items n = .ok target →
        (processJob items folder n).1 =
          (openTarget items n target).1.set (openTarget items n target).2.1
            (Item.comp (jobSteps d (openTarget items n target).2.2).1) ∧
          (openTarget items n target).2.2.name = auroraCompName n) :=
  ⟨fun i t h => processJob_keeps_other items folder n _ (i, t) (auroraCompName_ne_template n) h,
    fun name i t hne h => processJob_keeps_other items folder n name (i, t) hne h,
    fun d target hfile hdata ha =>
      ⟨(processJob_ok items folder n d target hfile hdata ha).1, openTarget_name items n target ha⟩⟩

/-- Witness for C25 amended: job 1 on a project holding only `Aurora_Template`
works on a duplicate, and the lookup of `Aurora_Template` gives the same
composition before and after. -/
theorem processJob_leaves_other_comps_witness :
    findCompByName [Item.comp sampleTemplate] "Aurora_Template" = some (0, sampleTemplate) ∧
      findCompByName (processJob [Item.comp sampleTemplate] (sampleJob true) 1).1
        "Aurora_Template" = some (0, sampleTemplate) :=
  ⟨sampleTemplate_lookup.2,
    (processJob_leaves_other_comps [Item.comp sampleTemplate] (sampleJob true) 1).1
      0 sampleTemplate sampleTemplate_lookup.2⟩

/-! ## Facts about the pattern search of `replaceLyricArrayInLayer` -/

theorem expectChars_some (cs l r : List Char) (h : expectChars cs l = some r) : l = cs ++ r := by
  induction cs generalizing l with
  | nil =>
    simp only [expectChars, Option.some.injEq] at h
    simp [h]
  | cons c cs ih =>
    cases l with
    | nil => simp [expectChars] at h
    | cons x l =>
      by_cases hx : x = c
      · simp only [expectChars, hx, if_true] at h
        rw [ih l h, hx]
        rfl
      · simp [expectChars, hx] at h

theorem dropWhile_append_v (r z : List Char) :
    (r ++ 'v' :: z).dropWhile jsWhitespace = r.dropWhile jsWhitespace ++ 'v' :: z := by
  induction r with
  | nil =>
    have : jsWhitespace 'v' = false := by decide
    simp [List.dropWhile, this]
  | cons x r ih =>
    by_cases hx : jsWhitespace x = true
    · simp [List.dropWhile, hx, ih]
    · simp [List.dropWhile, hx]

theorem expectChars_local (cs : List Char) (hv : 'v' ∉ cs) (p : List Char) :
    ∃ R : Option (List Char), ∀ z, expectChars cs (p ++ 'v' :: z) = R.map (· ++ 'v' :: z) := by
  induction cs generalizing p with
  | nil => exact ⟨some p, fun z => rfl⟩
  | cons c cs ih =>
    have hc : 'v' ≠ c := fun h => hv (h ▸ List.mem_cons_self _ _)
    have hcs : 'v' ∉ cs := fun h => hv (List.mem_cons_of_mem _ h)
    cases p with
    | nil => exact ⟨none, fun z => by simp [expectChars, hc]⟩
    | cons x p =>
      by_cases hx : x = c
      · obtain ⟨R, hR⟩ := ih hcs p
        exact ⟨R, fun z => by simp [expectChars, hx, hR]⟩
      · exact ⟨none, fun z => by simp [expectChars, hx]⟩

theorem someWhitespace_local (p : List Char) :
    ∃ R : Option (List Char), ∀ z, someWhitespace (p ++ 'v' :: z) = R.map (· ++ 'v' :: z) := by
  cases p with
  | nil =>
    have : jsWhitespace 'v' = false := by decide
    exact ⟨none, fun z => by simp [someWhitespace, this]⟩
  | cons x p =>
    by_cases hx : jsWhitespace x = true
    · exact ⟨some (p.dropWhile jsWhitespace),
        fun z => by simp [someWhitespace, hx, dropWhile_append_v]⟩
    · exact ⟨none, fun z => by simp [someWhitespace, hx]⟩

theorem bind_local (F G : List Char → Option (List Char))
    (hF : ∀ p, ∃ R : Option (List Char), ∀ z, F (p ++ 'v' :: z) = R.map (· ++ 'v' :: z))
    (hG : ∀ p, ∃ R : Option (List Char), ∀ z, G (p ++ 'v' :: z) = R.map (· ++ 'v' :: z))
    (p : List Char) :
    ∃ R : Option (List Char), ∀ z, (F (p ++ 'v' :: z)).bind G = R.map (· ++ 'v' :: z) := by
  obtain ⟨RF, hRF⟩ := hF p
  cases RF with
  | none => exact ⟨none, fun z => by simp [hRF]⟩
  | some r =>
    obtain ⟨RG, hRG⟩ := hG r
    exact ⟨RG, fun z => by simp [hRF, hRG]⟩

theorem afterWhitespace_local (G : List Char → Option (List Char))
    (hG : ∀ p, ∃ R : Option (List Char), ∀ z, G (p ++ 'v' :: z) = R.map (· ++ 'v' :: z))
    (p : List Char) :
    ∃ R : Option (List Char), ∀ z,
      G ((p ++ 'v' :: z).dropWhile jsWhitespace) = R.map (· ++ 'v' :: z) := by
  obtain ⟨R, hR⟩ := hG (p.dropWhile jsWhitespace)
  exact ⟨R, fun z => by rw [dropWhile_append_v, hR]⟩

theorem matchHeader_local (p : List Char) (hp : p ≠ []) :
    ∃ R : Option (List Char), ∀ z, matchHeader (p ++ 'v' :: z) = R.map (· ++ 'v' :: z) := by
  have h4 : ∀ p, ∃ R : Option (List Char), ∀ z,
      expectChars ['['] ((p ++ 'v' :: z).dropWhile jsWhitespace) = R.map (· ++ 'v' :: z) :=
    afterWhitespace_local _ (expectChars_local ['['] (by decide))
  have h3 : ∀ p, ∃ R : Option (List Char), ∀ z,
      (expectChars ['='] ((p ++ 'v' :: z).dropWhile jsWhitespace)).bind
        (fun r4 => expectChars ['['] (r4.dropWhile jsWhitespace)) = R.map (· ++ 'v' :: z) :=
    bind_local (fun l => expectChars ['='] (l.dropWhile jsWhitespace))
      (fun r4 => expectChars ['['] (r4.dropWhile jsWhitespace))
      (afterWhitespace_local _ (expectChars_local ['='] (by decide))) h4
  have h2 : ∀ p, ∃ R : Option (List Char), ∀ z,
      (expectChars ['l', 'y', 'r', 'i', 'c', 's'] (p ++ 'v' :: z)).bind
        (fun r3 => (expectChars ['='] (r3.dropWhile jsWhitespace)).bind
          (fun r4 => expectChars ['['] (r4.dropWhile jsWhitespace))) = R.map (· ++ 'v' :: z) :=
    bind_local (expectChars ['l', 'y', 'r', 'i', 'c', 's']) _
      (expectChars_local _ (by decide)) h3
  have h1 : ∀ p, ∃ R : Option (List Char), ∀ z,
      (someWhitespace (p ++ 'v' :: z)).bind
        (fun r2 => (expectChars ['l', 'y', 'r', 'i', 'c', 's'] r2).bind
          (fun r3 => (expectChars ['='] (r3.dropWhile jsWhitespace)).bind
            (fun r4 => expectChars ['['] (r4.dropWhile jsWhitespace)))) =
        R.map (· ++ 'v' :: z) :=
    bind_local someWhitespace _ someWhitespace_local h2
  cases p with
  | nil => exact absurd rfl hp
  | cons x p =>
    by_cases hx : x = 'v'
    · obtain ⟨R0, hR0⟩ := expectChars_local ['a', 'r'] (by decide) p
      cases R0 with
      | none =>
        exact ⟨none, fun z => by simp [matchHeader, expectChars, hx, hR0 z]⟩
      | some r =>
        obtain ⟨R, hR⟩ := h1 r
        refine ⟨R, fun z => ?_⟩
        have hz := hR z
        have h0 := hR0 z
        simp only [Option.map_some'] at h0
        unfold matchHeader
        rw [List.cons_append]
        simp only [expectChars, hx, if_true, h0, Option.some_bind]
        exact hz
    · exact ⟨none, fun z => by simp [matchHeader, expectChars, hx]⟩

theorem splitAtClose_some_eq (l inside after : List Char)
    (h : splitAtClose l = some (inside, after)) : l = inside ++ ']' :: ';' :: after := by
  induction l generalizing inside after with
  | nil => simp [splitAtClose] at h
  | cons c l ih =>
    cases l with
    | nil => simp [splitAtClose] at h
    | cons d rest =>
      by_cases hcd : c = ']' ∧ d = ';'
      · simp only [splitAtClose, hcd, and_self, if_true, Option.some.injEq, Prod.mk.injEq] at h
        rw [← h.1, ← h.2, hcd.1, hcd.2]
        rfl
      · simp only [splitAtClose, hcd, if_false, Option.map_eq_some'] at h
        obtain ⟨⟨i, a⟩, hr, heq⟩ := h
        simp only [Prod.mk.injEq] at heq
        rw [ih i a hr, ← heq.1, ← heq.2]
        rfl

theorem splitAtClose_contains (u v : List Char) :
    ∃ r, splitAtClose (u ++ ']' :: ';' :: v) = some r := by
  induction u with
  | nil => exact ⟨([], v), by simp [splitAtClose]⟩
  | cons c u ih =>
    obtain ⟨r, hr⟩ := ih
    rcases hu : u ++ ']' :: ';' :: v with _ | ⟨d, rest⟩
    · simp at hu
    · rw [hu] at hr
      by_cases hcd : c = ']' ∧ d = ';'
      · exact ⟨([], rest), by simp [List.cons_append, hu, splitAtClose, hcd]⟩
      · exact ⟨(c :: r.1, r.2), by simp [List.cons_append, hu, splitAtClose, hcd, hr]⟩

theorem splitAtClose_chain (a x : List Char) (h : a.Chain' noClosePair) :
    splitAtClose (a ++ ']' :: ';' :: x) = some (a, x) := by
  induction a with
  | nil => simp [splitAtClose]
  | cons c a ih =>
    have ha : a.Chain' noClosePair := (List.chain'_cons'.mp h).2
    have hr := ih ha
    cases a with
    | nil =>
      have : ¬ (c = ']' ∧ (']' : Char) = ';') := fun h => absurd h.2 (by decide)
      simp only [List.nil_append] at hr
      simp [splitAtClose, hr]
    | cons d a =>
      have hcd : ¬ (c = ']' ∧ d = ';') := (List.chain'_cons.mp h).1
      simp only [List.cons_append] at hr ⊢
      simp [splitAtClose, hcd, hr]

theorem matchHeader_suffix (l r : List Char) (h : matchHeader l = some r) :
    ∃ hd, l = 'v' :: hd ++ r := by
  unfold matchHeader at h
  simp only [Option.bind_eq_some] at h
  obtain ⟨r1, h1, r2, h2, r3, h3, r4, h4, h5⟩ := h
  have e1 := expectChars_some _ _ _ h1
  have e3 := expectChars_some _ _ _ h3
  have e4 := expectChars_some _ _ _ h4
  have e5 := expectChars_some _ _ _ h5
  have d3 : r3 = r3.takeWhile jsWhitespace ++ (['='] ++ r4) := by
    rw [← e4, List.takeWhile_append_dropWhile]
  have d4 : r4 = r4.takeWhile jsWhitespace ++ (['['] ++ r) := by
    rw [← e5, List.takeWhile_append_dropWhile]
  cases r1 with
  | nil => simp [someWhitespace] at h2
  | cons x r1 =>
    by_cases hx : jsWhitespace x = true
    · simp only [someWhitespace, hx, if_true, Option.some.injEq] at h2
      have d1 : r1 = r1.takeWhile jsWhitespace ++ r2 := by
        rw [← h2, List.takeWhile_append_dropWhile]
      refine ⟨'a' :: 'r' :: x :: r1.takeWhile jsWhitespace ++ ['l', 'y', 'r', 'i', 'c', 's'] ++
        r3.takeWhile jsWhitespace ++ ['='] ++ r4.takeWhile jsWhitespace ++ ['['], ?_⟩
      rw [e1]
      conv_lhs => rw [d1, e3, d3, d4]
      simp
    · simp [someWhitespace, hx] at h2

theorem expandReplacement_plain (matched before after l : List Char) (h : '$' ∉ l) :
    expandReplacement matched before after l = l := by
  induction l with
  | nil => rfl
  | cons c l ih =>
    have hc : c ≠ '$' := fun e => h (e ▸ List.mem_cons_self _ _)
    have hl : '$' ∉ l := fun e => h (List.mem_cons_of_mem _ e)
    cases l with
    | nil => rfl
    | cons d rest => simp [expandReplacement, hc, ih hl]

theorem mem_replaceAll (x c p q : Char) (l : List Char) (h : x ∈ replaceAll c [p, q] l) :
    x = p ∨ x = q ∨ x ∈ l := by
  induction l with
  | nil => simp [replaceAll] at h
  | cons a l ih =>
    by_cases ha : a = c
    · simp only [replaceAll, ha, if_true, List.cons_append, List.nil_append,
        List.mem_cons] at h
      rcases h with h | h | h
      · exact Or.inl h
      · exact Or.inr (Or.inl h)
      · rcases ih h with h | h | h
        · exact Or.inl h
        · exact Or.inr (Or.inl h)
        · exact Or.inr (Or.inr (List.mem_cons_of_mem _ h))
    · simp only [replaceAll, ha, if_false, List.mem_cons] at h
      rcases h with h | h
      · exact Or.inr (Or.inr (h ▸ List.mem_cons_self _ _))
      · rcases ih h with h | h | h
        · exact Or.inl h
        · exact Or.inr (Or.inl h)
        · exact Or.inr (Or.inr (List.mem_cons_of_mem _ h))

theorem quoteLine_data (line : String) :
    (quoteLine line).data =
      '"' :: (replaceAll '"' ['\\', '"'] (replaceAll '\\' ['\\', '\\'] line.data) ++ ['"']) := by
  simp [quoteLine, String.data_append]

theorem dollar_not_in_quoteLine (line : String) (h : '$' ∉ line.data) :
    '$' ∉ (quoteLine line).data := by
  rw [quoteLine_data]
  intro hm
  simp only [List.mem_cons, List.mem_append, List.mem_singleton] at hm
  rcases hm with hm | hm | hm
  · exact absurd hm (by decide)
  · rcases mem_replaceAll _ _ _ _ _ hm with e | e | e
    · exact absurd e (by decide)
    · exact absurd e (by decide)
    · rcases mem_replaceAll _ _ _ _ _ e with e | e | e
      · exact absurd e (by decide)
      · exact absurd e (by decide)
      · exact h e
  · rcases hm with hm | hm
    · exact absurd hm (by decide)
    · simp at hm

/-- The text between the opening bracket and the closing `];` of the block. -/
theorem lyricBlock_data (L : List String) :
    (lyricBlock L).data =
      ['v', 'a', 'r', ' ', 'l', 'y', 'r', 'i', 'c', 's', ' ', '=', ' ', '['] ++
        (('\n' :: (",\n".intercalate (L.map quoteLine)).data ++ ['\n']) ++ [']', ';']) := by
  simp [lyricBlock, String.data_append]

theorem replaceAll_chain (c p q : Char) (hp1 : p ≠ ';') (hp2 : p ≠ ']') (hq : q ≠ ']')
    (l : List Char) (h : l.Chain' noClosePair) :
    (replaceAll c [p, q] l).Chain' noClosePair ∧
      ∀ y ∈ (replaceAll c [p, q] l).head?, y = p ∨ y ∈ l.head? := by
  induction l with
  | nil => simp [replaceAll]
  | cons a l ih =>
    have hl : l.Chain' noClosePair := (List.chain'_cons'.mp h).2
    have ha : ∀ y ∈ l.head?, noClosePair a y := (List.chain'_cons'.mp h).1
    obtain ⟨ih1, ih2⟩ := ih hl
    by_cases hac : a = c
    · simp only [replaceAll, hac, if_true, List.cons_append, List.nil_append]
      refine ⟨?_, by simp⟩
      refine List.Chain'.cons' (List.Chain'.cons' ih1 ?_) ?_
      · intro y _ hy
        exact hq hy.1
      · intro y _ hy
        exact hp2 hy.1
    · simp only [replaceAll, hac, if_false]
      refine ⟨List.Chain'.cons' ih1 ?_, by simp⟩
      intro y hy
      rcases ih2 y hy with e | e
      · intro hpair
        exact hp1 (e ▸ hpair.2)
      · exact ha y e

theorem chain_append_of_head (a b : List Char) (ha : a.Chain' noClosePair)
    (hb : b.Chain' noClosePair) (hh : ∀ y ∈ b.head?, y ≠ ';') :
    (a ++ b).Chain' noClosePair :=
  List.Chain'.append ha hb (fun _ _ y hy hpair => hh y hy hpair.2)

theorem chain_cons_of_ne (c : Char) (l : List Char) (hc : c ≠ ']')
    (hl : l.Chain' noClosePair) : (c :: l).Chain' noClosePair :=
  List.Chain'.cons' hl (fun _ _ hpair => hc hpair.1)

theorem quoteLine_chain (line : String) (h : line.data.Chain' noClosePair) :
    (quoteLine line).data.Chain' noClosePair := by
  rw [quoteLine_data]
  have h1 := (replaceAll_chain '\\' '\\' '\\' (by decide) (by decide) (by decide) _ h).1
  have h2 := (replaceAll_chain '"' '\\' '"' (by decide) (by decide) (by decide) _ h1).1
  refine chain_cons_of_ne _ _ (by decide) (chain_append_of_head _ _ h2 (by simp) ?_)
  intro y hy
  simp only [List.head?_cons, Option.mem_def, Option.some.injEq] at hy
  rw [← hy]
  decide

theorem pieces_chain (ps : List (List Char))
    (h : ∀ p ∈ ps, p.Chain' noClosePair ∧ ∀ y ∈ p.head?, y ≠ ';') :
    ps.flatten.Chain' noClosePair ∧ ∀ y ∈ ps.flatten.head?, y ≠ ';' := by
  induction ps with
  | nil => simp
  | cons p ps ih =>
    obtain ⟨hp1, hp2⟩ := h p (List.mem_cons_self _ _)
    obtain ⟨ih1, ih2⟩ := ih (fun q hq => h q (List.mem_cons_of_mem _ hq))
    rw [List.flatten_cons]
    refine ⟨chain_append_of_head _ _ hp1 ih1 ih2, ?_⟩
    intro y hy
    rw [List.head?_append] at hy
    cases hp : p.head? with
    | none =>
      rw [hp] at hy
      exact ih2 y hy
    | some z =>
      rw [hp] at hy
      have hzy : z = y := by simpa [Option.or] using hy
      exact hp2 y (by rw [hp, hzy]; exact rfl)

theorem joined_chain (L : List String) (h : ∀ line ∈ L, plainLine line) :
    (",\n".intercalate (L.map quoteLine)).data.Chain' noClosePair := by
  cases L with
  | nil => simp [String.intercalate]
  | cons a L =>
    rw [List.map_cons, intercalate_cons_data]
    have ha := quoteLine_chain a (h a (List.mem_cons_self _ _)).2
    have hps := pieces_chain ((L.map quoteLine).map (fun x => ",\n".data ++ x.data)) (by
      intro p hp
      simp only [List.mem_map, exists_exists_and_eq_and] at hp
      obtain ⟨line, hline, rfl⟩ := hp
      have hq := quoteLine_chain line (h line (List.mem_cons_of_mem _ hline)).2
      refine ⟨?_, ?_⟩
      · exact chain_cons_of_ne _ _ (by decide) (chain_cons_of_ne _ _ (by decide) hq)
      · intro y hy
        simp only [List.cons_append, List.head?_cons, Option.mem_def,
          Option.some.injEq] at hy
        rw [← hy]
        decide)
    exact chain_append_of_head _ _ ha hps.1 hps.2

theorem inside_chain (L : List String) (h : ∀ line ∈ L, plainLine line) :
    ('\n' :: (",\n".intercalate (L.map quoteLine)).data ++ ['\n']).Chain' noClosePair := by
  refine chain_cons_of_ne _ _ (by decide) (chain_append_of_head _ _ (joined_chain L h) (by simp) ?_)
  intro y hy
  simp only [List.head?_cons, Option.mem_def, Option.some.injEq] at hy
  rw [← hy]
  decide

theorem dollar_not_in_joined (L : List String) (h : ∀ line ∈ L, plainLine line) :
    '$' ∉ (",\n".intercalate (L.map quoteLine)).data := by
  cases L with
  | nil => simp [String.intercalate]
  | cons a L =>
    rw [List.map_cons, intercalate_cons_data]
    intro hm
    rcases List.mem_append.mp hm with hm | hm
    · exact dollar_not_in_quoteLine a (h a (List.mem_cons_self _ _)).1 hm
    · obtain ⟨p, hp, hmp⟩ := List.mem_flatten.mp hm
      obtain ⟨q, hq, rfl⟩ := List.mem_map.mp hp
      obtain ⟨line, hline, rfl⟩ := List.mem_map.mp hq
      rcases List.mem_append.mp hmp with hmp | hmp
      · exact absurd hmp (by decide)
      · exact dollar_not_in_quoteLine line (h line (List.mem_cons_of_mem _ hline)).1 hmp

theorem dollar_not_in_lyricBlock (L : List String) (h : ∀ line ∈ L, plainLine line) :
    '$' ∉ (lyricBlock L).data := by
  rw [lyricBlock_data]
  intro hm
  have hj := dollar_not_in_joined L h
  rcases List.mem_append.mp hm with hm | hm
  · exact absurd hm (by decide)
  · rcases List.mem_append.mp hm with hm | hm
    · rcases List.mem_append.mp hm with hm | hm
      · rcases List.mem_cons.mp hm with hm | hm
        · exact absurd hm (by decide)
        · exact hj hm
      · exact absurd hm (by decide)
    · exact absurd hm (by decide)

theorem matchHeader_lyricBlock (x : List Char) :
    matchHeader (['v', 'a', 'r', ' ', 'l', 'y', 'r', 'i', 'c', 's', ' ', '=', ' ', '['] ++ x) =
      some x := by
  have w1 : jsWhitespace ' ' = true := by decide
  have w2 : jsWhitespace 'l' = false := by decide
  have w3 : jsWhitespace '=' = false := by decide
  have w4 : jsWhitespace '[' = false := by decide
  simp [matchHeader, expectChars, someWhitespace, List.dropWhile, w1, w2, w3, w4]

theorem matchAt_lyricBlock (L : List String) (h : ∀ line ∈ L, plainLine line)
    (rest : List Char) : matchAt ((lyricBlock L).data ++ rest) = some rest := by
  have e : (lyricBlock L).data ++ rest =
      ['v', 'a', 'r', ' ', 'l', 'y', 'r', 'i', 'c', 's', ' ', '=', ' ', '['] ++
        (('\n' :: (",\n".intercalate (L.map quoteLine)).data ++ ['\n']) ++
          ']' :: ';' :: rest) := by
    rw [lyricBlock_data]
    simp
  rw [e]
  unfold matchAt
  rw [matchHeader_lyricBlock, Option.some_bind,
    splitAtClose_chain _ rest (inside_chain L h)]
  rfl

theorem matchAt_nil : matchAt [] = none := by
  simp [matchAt, matchHeader, expectChars]

theorem regexSearch_of_matchAt (l a : List Char) (h : matchAt l = some a) :
    regexSearch l = some ([], a) := by
  cases l with
  | nil => simp [regexSearch, h]
  | cons c rest => simp [regexSearch, h]

theorem regexSearch_some_spec (l b a : List Char) (h : regexSearch l = some (b, a)) :
    ∃ x, l = b ++ x ∧ matchAt x = some a := by
  induction l generalizing b with
  | nil => simp [regexSearch, matchAt_nil] at h
  | cons c rest ih =>
    cases hm : matchAt (c :: rest) with
    | some after =>
      simp only [regexSearch, hm, Option.some.injEq, Prod.mk.injEq] at h
      obtain ⟨rfl, rfl⟩ := h
      exact ⟨c :: rest, rfl, hm⟩
    | none =>
      simp only [regexSearch, hm, Option.map_eq_some'] at h
      obtain ⟨⟨b1, a1⟩, hr, heq⟩ := h
      simp only [Prod.mk.injEq] at heq
      obtain ⟨rfl, rfl⟩ := heq
      obtain ⟨x, hx, hmx⟩ := ih b1 hr
      exact ⟨x, by rw [hx]; rfl, hmx⟩

/-- A matched text starts with `v` and holds a closing `];`. -/
theorem matchAt_shape (x a : List Char) (h : matchAt x = some a) :
    ∃ z, x = 'v' :: z ∧ ∀ r : List Char, ∃ res, splitAtClose (r ++ 'v' :: z) = some res := by
  unfold matchAt at h
  simp only [Option.bind_eq_some, Option.map_eq_some'] at h
  obtain ⟨r1, h1, ⟨ins, a1⟩, h2, heq⟩ := h
  simp only at heq
  subst heq
  obtain ⟨hd, hx⟩ := matchHeader_suffix x r1 h1
  have hr1 := splitAtClose_some_eq r1 ins a1 h2
  refine ⟨hd ++ r1, by rw [hx]; rfl, fun r => ?_⟩
  have e : r ++ 'v' :: (hd ++ r1) = (r ++ 'v' :: (hd ++ ins)) ++ ']' :: ';' :: a1 := by
    rw [hr1]
    simp
  rw [e]
  exact splitAtClose_contains _ _

theorem matchAt_none_stable (p : List Char) (hp : p ≠ []) (z y : List Char)
    (hz : ∀ r : List Char, ∃ res, splitAtClose (r ++ 'v' :: z) = some res)
    (h : matchAt (p ++ 'v' :: z) = none) : matchAt (p ++ 'v' :: y) = none := by
  obtain ⟨R, hR⟩ := matchHeader_local p hp
  cases R with
  | none => simp [matchAt, hR]
  | some r =>
    obtain ⟨res, hres⟩ := hz r
    simp [matchAt, hR, hres] at h

theorem search_stable (l b a : List Char) (h : regexSearch l = some (b, a))
    (y : List Char) (hy : matchAt ('v' :: y) = some a) :
    regexSearch (b ++ 'v' :: y) = some (b, a) := by
  induction l generalizing b with
  | nil => simp [regexSearch, matchAt_nil] at h
  | cons c rest ih =>
    cases hm : matchAt (c :: rest) with
    | some after =>
      simp only [regexSearch, hm, Option.some.injEq, Prod.mk.injEq] at h
      obtain ⟨rfl, rfl⟩ := h
      exact regexSearch_of_matchAt _ _ hy
    | none =>
      simp only [regexSearch, hm, Option.map_eq_some'] at h
      obtain ⟨⟨b1, a1⟩, hr, heq⟩ := h
      simp only [Prod.mk.injEq] at heq
      obtain ⟨rfl, rfl⟩ := heq
      obtain ⟨x, hx, hmx⟩ := regexSearch_some_spec rest b1 a1 hr
      obtain ⟨z, rfl, hz⟩ := matchAt_shape x a1 hmx
      have hnone : matchAt ((c :: b1) ++ 'v' :: y) = none :=
        matchAt_none_stable (c :: b1) (by simp) z y hz (by rw [← hm, hx]; rfl)
      have hrec := ih b1 hr
      simp only [List.cons_append] at hnone ⊢
      simp [regexSearch, hnone, hrec]

/-- The result of `replaceLyricArrayInLayer` on plain lines: the new block stands
between two texts and the pattern search finds it exactly there. -/
theorem replaceLyricArrayInLayer_form (e : String) (L : List String)
    (h : ∀ line ∈ L, plainLine line) :
    ∃ b a : List Char,
      (replaceLyricArrayInLayer e L).data = b ++ (lyricBlock L).data ++ a ∧
        regexSearch (b ++ (lyricBlock L).data ++ a) = some (b, a) := by
  have hv : ∀ a : List Char, ∃ y, (lyricBlock L).data ++ a = 'v' :: y := by
    intro a
    rw [lyricBlock_data]
    exact ⟨_, rfl⟩
  cases hs : regexSearch e.data with
  | none =>
    refine ⟨[], '\n' :: e.data, ?_, ?_⟩
    · simp [replaceLyricArrayInLayer, hs, String.data_append]
    · rw [List.nil_append]
      exact regexSearch_of_matchAt _ _ (matchAt_lyricBlock L h _)
  | some r =>
    obtain ⟨b, a⟩ := r
    refine ⟨b, a, ?_, ?_⟩
    · simp [replaceLyricArrayInLayer, hs,
        expandReplacement_plain _ _ _ _ (dollar_not_in_lyricBlock L h)]
    · obtain ⟨y, hy⟩ := hv a
      have hm := matchAt_lyricBlock L h a
      rw [hy] at hm
      rw [List.append_assoc, hy]
      exact search_stable e.data b a hs y hm

/-- A text in which the pattern search finds the new block is left as it is. -/
theorem replaceLyricArrayInLayer_fixed (s : String) (L : List String)
    (h : ∀ line ∈ L, plainLine line) (b a : List Char)
    (hd : s.data = b ++ (lyricBlock L).data ++ a)
    (hs : regexSearch (b ++ (lyricBlock L).data ++ a) = some (b, a)) :
    replaceLyricArrayInLayer s L = s := by
  have hs2 : regexSearch s.data = some (b, a) := by rw [hd]; exact hs
  apply String.ext
  unfold replaceLyricArrayInLayer
  simp only [hs2, expandReplacement_plain _ _ _ _ (dollar_not_in_lyricBlock L h)]
  exact hd.symm

/-- C28: the function is not idempotent and does not always write the block
built from the lines.  On an empty expression the line `a];b` is written
verbatim, but the second application ends its match at the `];` inside the
quoted line and leaves the rest of the old block behind.  The line `$$a` is
written verbatim when the expression holds no lyric array (the arm
`newBlock + "\n" + expr`), and as `$a` when it holds one (the arm
`expr.replace(re, newBlock)`), so the second application changes the result of
the first here too. -/
theorem replaceLyricArrayInLayer_not_idempotent :
    replaceLyricArrayInLayer "" ["a];b"] = "var lyrics = [\n\"a];b\"\n];\n" ∧
      replaceLyricArrayInLayer (replaceLyricArrayInLayer "" ["a];b"]) ["a];b"] =
        "var lyrics = [\n\"a];b\"\n];b\"\n];\n" ∧
      replaceLyricArrayInLayer (replaceLyricArrayInLayer "" ["a];b"]) ["a];b"] ≠
        replaceLyricArrayInLayer "" ["a];b"] ∧
      lyricBlock ["$$a"] = "var lyrics = [\n\"$$a\"\n];" ∧
      replaceLyricArrayInLayer "" ["$$a"] = "var lyrics = [\n\"$$a\"\n];\n" ∧
      replaceLyricArrayInLayer "x var  lyrics=[1,2]; y" ["$$a"] =
        "x var lyrics = [\n\"$a\"\n]; y" ∧
      replaceLyricArrayInLayer (replaceLyricArrayInLayer "" ["$$a"]) ["$$a"] =
        "var lyrics = [\n\"$a\"\n];\n" ∧
      replaceLyricArrayInLayer (replaceLyricArrayInLayer "" ["$$a"]) ["$$a"] ≠
        replaceLyricArrayInLayer "" ["$$a"] := by
  decide

/-- On lines that hold no dollar sign and nowhere the text `];` the function
does what both of its arms are written for: for every expression text, a second
application with the same lines returns the result of the first unchanged, and
that result holds the generated block `lyricBlock` verbatim. -/
theorem replaceLyricArrayInLayer_plain_lines (e : String) (L : List String)
    (h : ∀ line ∈ L, plainLine line) :
    replaceLyricArrayInLayer (replaceLyricArrayInLayer e L) L =
        replaceLyricArrayInLayer e L ∧
      (lyricBlock L).data <:+: (replaceLyricArrayInLayer e L).data := by
  obtain ⟨b, a, hd, hs⟩ := replaceLyricArrayInLayer_form e L h
  exact ⟨replaceLyricArrayInLayer_fixed _ L h b a hd hs, ⟨b, a, hd.symm⟩⟩

/-- An instance of `replaceLyricArrayInLayer_plain_lines`: an expression that
already holds a lyric array and two lines with brackets, semicolons and quotes
but no `];` and no dollar sign. -/
theorem replaceLyricArrayInLayer_plain_lines_example :
    (∀ line ∈ ["la [la]", "say \"hi\"; go"], plainLine line) ∧
      (replaceLyricArrayInLayer
          (replaceLyricArrayInLayer "x var  lyrics=[1,2]; y" ["la [la]", "say \"hi\"; go"])
          ["la [la]", "say \"hi\"; go"] =
        replaceLyricArrayInLayer "x var  lyrics=[1,2]; y" ["la [la]", "say \"hi\"; go"] ∧
      (lyricBlock ["la [la]", "say \"hi\"; go"]).data <:+:
        (replaceLyricArrayInLayer "x var  lyrics=[1,2]; y"
          ["la [la]", "say \"hi\"; go"]).data) :=
  have hp : ∀ line ∈ ["la [la]", "say \"hi\"; go"], plainLine line := by
    intro line hl
    simp only [List.mem_cons, List.mem_singleton, List.not_mem_nil, or_false] at hl
    rcases hl with rfl | rfl
    · exact ⟨by decide, by simp [noClosePair]⟩
    · exact ⟨by decide, by simp [noClosePair]⟩
  ⟨hp, replaceLyricArrayInLayer_plain_lines "x var  lyrics=[1,2]; y"
    ["la [la]", "say \"hi\"; go"] hp⟩

end Apollova
